import Mathlib

/-!
Verification of the go-token-counter tokenization engines against their
natural-language specification.

The development shallowly embeds the Go source:

* byte strings (`[]byte`, and Go `string` values used as byte containers)
  are `List Nat` with each element a byte value;
* Unicode text (`string` values traversed rune-by-rune) is `List Char`;
* Go `map` values are association lists where insertion prepends, so a
  first-match lookup realises Go's overwrite-on-insert semantics;
* fallible Go functions return `Option`/`Except`; Go `panic` is modelled by
  a dedicated `GoResult` constructor.
-/

set_option maxRecDepth 10000
set_option linter.unusedVariables false
set_option linter.unusedTactic false

/-! ## Byte-string utilities (Go `strings.Split` on a single-byte separator) -/

/-- `strings.Split(s, sep)` for a one-byte separator: the substrings between
consecutive separators, keeping empty fields. -/
def splitOnByte (sep : Nat) : List Nat → List (List Nat)
  | [] => [[]]
  | c :: rest =>
    if c = sep then [] :: splitOnByte sep rest
    else
      match splitOnByte sep rest with
      | [] => [[c]]
      | l :: ls => (c :: l) :: ls

theorem splitOnByte_ne_nil (sep : Nat) (s : List Nat) : splitOnByte sep s ≠ [] := by
  cases s with
  | nil => simp [splitOnByte]
  | cons c rest =>
    simp only [splitOnByte]
    split
    · simp
    · split <;> simp

/-! ## Go `encoding/base64` standard decoding

`base64.StdEncoding.DecodeString`: newline bytes are skipped, the remaining
length must be a multiple of four, `=` padding is allowed only at the very
end of the input in the shapes `xx==` and `xxx=`. -/

/-- Value of one byte in the standard base64 alphabet. -/
def b64Val (c : Nat) : Option Nat :=
  if 65 ≤ c ∧ c ≤ 90 then some (c - 65)
  else if 97 ≤ c ∧ c ≤ 122 then some (c - 97 + 26)
  else if 48 ≤ c ∧ c ≤ 57 then some (c - 48 + 52)
  else if c = 43 then some 62
  else if c = 47 then some 63
  else none

/-- Decode base64 input already stripped of newlines, one 4-byte group at a
time. `61` is the byte value of the padding character. -/
def b64DecodeGroups : List Nat → Option (List Nat)
  | [] => some []
  | a :: b :: c :: d :: rest =>
    match b64Val a, b64Val b with
    | some va, some vb =>
      if c = 61 then
        if d = 61 ∧ rest = [] then some [va * 4 + vb / 16] else none
      else
        match b64Val c with
        | some vc =>
          if d = 61 then
            if rest = [] then some [va * 4 + vb / 16, (vb % 16) * 16 + vc / 4] else none
          else
            match b64Val d with
            | some vd =>
              (b64DecodeGroups rest).map
                (fun tl => (va * 4 + vb / 16) :: ((vb % 16) * 16 + vc / 4) ::
                  ((vc % 4) * 64 + vd) :: tl)
            | none => none
        | none => none
    | _, _ => none
  | _ => none

/-- `base64.StdEncoding.DecodeString`. -/
def base64StdDecode (s : List Nat) : Option (List Nat) :=
  b64DecodeGroups (s.filter (fun c => c ≠ 10 ∧ c ≠ 13))

/-! ## Go `strconv.Atoi` -/

/-- `strconv.Atoi` on a byte string: optional sign, then one or more decimal
digits, value restricted to the signed 64-bit range. -/
def goAtoi (s : List Nat) : Option Int :=
  let signDigits : Bool × List Nat :=
    match s with
    | 43 :: rest => (false, rest)
    | 45 :: rest => (true, rest)
    | _ => (false, s)
  let neg := signDigits.1
  let ds := signDigits.2
  if ds = [] then none
  else if ds.all (fun c => 48 ≤ c ∧ c ≤ 57) then
    let v : Nat := ds.foldl (fun acc c => acc * 10 + (c - 48)) 0
    let iv : Int := if neg then -(v : Int) else (v : Int)
    if -(2 ^ 63) ≤ iv ∧ iv < 2 ^ 63 then some iv else none
  else none

/-! ## Rank-table parser (`parseBPERanks`, BPE vocabulary asset) -/

/-- Body of the `parseBPERanks` loop for a single line: skip empty lines and
lines whose space-separated field count is not exactly two; base64-decode
the first field and parse the second as an integer, failing on a bad field.
The rank map is an association list where insertion prepends, so a later
line shadows an earlier one with the same token (Go map overwrite). -/
def parseRankLine (acc : Except (List Nat) (List (List Nat × Int))) (line : List Nat) :
    Except (List Nat) (List (List Nat × Int)) := do
  let ranks ← acc
  if line = [] then pure ranks
  else
    match splitOnByte 32 line with
    | [tokField, rankField] =>
      match base64StdDecode tokField with
      | none => .error tokField
      | some token =>
        match goAtoi rankField with
        | none => .error rankField
        | some rank => pure ((token, rank) :: ranks)
    | _ => pure ranks

/-- `parseBPERanks` from the BPE vocabulary loader. -/
def parseBPERanks (data : List Nat) : Except (List Nat) (List (List Nat × Int)) :=
  (splitOnByte 10 data).foldl parseRankLine (.ok [])

/-- The entry a single line contributes to the rank table, if any. -/
def lineEntry (line : List Nat) : Option (List Nat × Int) :=
  if line = [] then none
  else
    match splitOnByte 32 line with
    | [tokField, rankField] =>
      match base64StdDecode tokField, goAtoi rankField with
      | some token, some rank => some (token, rank)
      | _, _ => none
    | _ => none

/-- Modelled from the spec's interface section, for comparison with
`parseBPERanks`: one entry per line, `<base64-encoded-byte-sequence>
<integer-rank>`, blank lines ignored, lines with any other field count
ignored. -/
def rankTableSpecMap (data : List Nat) : List (List Nat × Int) :=
  ((splitOnByte 10 data).filterMap lineEntry).foldl (fun m p => p :: m) []

/-- A line is well formed for the parser when, if it is a non-blank
two-field line, both fields decode. -/
def lineOK (line : List Nat) : Bool :=
  if line = [] then true
  else
    match splitOnByte 32 line with
    | [tokField, rankField] => (base64StdDecode tokField).isSome && (goAtoi rankField).isSome
    | _ => true

theorem parseRankLine_error (e : List Nat) (line : List Nat) :
    parseRankLine (.error e) line = .error e := rfl

theorem foldl_parseRankLine_error (e : List Nat) (lines : List (List Nat)) :
    lines.foldl parseRankLine (.error e) = .error e := by
  induction lines with
  | nil => rfl
  | cons l ls ih => rw [List.foldl_cons, parseRankLine_error, ih]

theorem parseRankLine_ok_of_lineOK (m0 : List (List Nat × Int)) (line : List Nat)
    (h : lineOK line = true) :
    parseRankLine (.ok m0) line =
      .ok (match lineEntry line with | some p => p :: m0 | none => m0) := by
  unfold lineOK at h
  unfold parseRankLine lineEntry
  by_cases hnil : line = []
  · simp [hnil, Except.bind, pure, Except.pure, Bind.bind]
  · simp only [hnil, if_false, if_neg hnil] at h ⊢
    cases hsplit : splitOnByte 32 line with
    | nil => simp [Except.bind, pure, Except.pure, Bind.bind]
    | cons f0 fs =>
      cases fs with
      | nil => simp [Except.bind, pure, Except.pure, Bind.bind]
      | cons f1 fs2 =>
        cases fs2 with
        | nil =>
          rw [hsplit] at h
          simp only [hsplit]
          cases hb : base64StdDecode f0 with
          | none => simp [hb] at h
          | some token =>
            cases ha : goAtoi f1 with
            | none => simp [hb, ha] at h
            | some rank => simp [hb, ha, Except.bind, pure, Except.pure, Bind.bind]
        | cons f2 fs3 => simp [hsplit, Except.bind, pure, Except.pure, Bind.bind]

theorem parseRankLine_err_of_bad (m0 : List (List Nat × Int)) (line : List Nat)
    (h : lineOK line = false) :
    ∃ e, parseRankLine (.ok m0) line = .error e := by
  unfold lineOK at h
  unfold parseRankLine
  by_cases hnil : line = []
  · simp [hnil] at h
  · simp only [hnil, if_false, if_neg hnil] at h ⊢
    cases hsplit : splitOnByte 32 line with
    | nil => rw [hsplit] at h; simp at h
    | cons f0 fs =>
      cases fs with
      | nil => rw [hsplit] at h; simp at h
      | cons f1 fs2 =>
        cases fs2 with
        | nil =>
          rw [hsplit] at h
          simp only [Bool.and_eq_false_iff] at h
          cases hb : base64StdDecode f0 with
          | none => exact ⟨f0, by simp [hb, Except.bind, Bind.bind]⟩
          | some token =>
            cases ha : goAtoi f1 with
            | none => exact ⟨f1, by simp [hb, ha, Except.bind, Bind.bind]⟩
            | some rank => rw [hb, ha] at h; simp at h
        | cons f2 fs3 => rw [hsplit] at h; simp at h

theorem foldl_parseRankLine_ok (lines : List (List Nat)) : ∀ m0 : List (List Nat × Int),
    (∀ l ∈ lines, lineOK l = true) →
    lines.foldl parseRankLine (.ok m0) =
      .ok ((lines.filterMap lineEntry).foldl (fun m p => p :: m) m0) := by
  induction lines with
  | nil => intro m0 _; rfl
  | cons l ls ih =>
    intro m0 h
    rw [List.foldl_cons, parseRankLine_ok_of_lineOK m0 l (h l (by simp)), List.filterMap_cons]
    cases he : lineEntry l with
    | none => simpa [he] using ih m0 (fun x hx => h x (by simp [hx]))
    | some p => simpa [he] using ih (p :: m0) (fun x hx => h x (by simp [hx]))

theorem foldl_parseRankLine_hasError (lines : List (List Nat)) : ∀ m0 : List (List Nat × Int),
    (∃ l ∈ lines, lineOK l = false) →
    ∃ e, lines.foldl parseRankLine (.ok m0) = .error e := by
  induction lines with
  | nil => intro m0 h; simp at h
  | cons l0 ls ih =>
    intro m0 h
    obtain ⟨l, hl, hbad⟩ := h
    by_cases h0 : lineOK l0
    · rw [List.foldl_cons, parseRankLine_ok_of_lineOK m0 l0 h0]
      apply ih
      rcases List.mem_cons.1 hl with rfl | hls
      · rw [h0] at hbad; cases hbad
      · exact ⟨l, hls, hbad⟩
    · obtain ⟨e, he⟩ := parseRankLine_err_of_bad m0 l0 (by simpa using h0)
      rw [List.foldl_cons, he, foldl_parseRankLine_error]
      exact ⟨e, rfl⟩

/-- C8: the rank-table parser ignores blank lines and lines whose
space-separated field count is not exactly two, maps each remaining line's
base64-decoded first field to its integer second field, and returns an
error if and only if some two-field line has an invalid base64 first field
or a non-integer second field. -/
theorem parseBPERanks_lenient_and_error_iff (data : List Nat) :
    ((∃ m, parseBPERanks data = .ok m) ↔ ∀ l ∈ splitOnByte 10 data, lineOK l = true)
    ∧ ∀ m, parseBPERanks data = .ok m → m = rankTableSpecMap data := by
  constructor
  · constructor
    · intro hm l hl
      by_contra hbad
      obtain ⟨m, hm⟩ := hm
      obtain ⟨e, he⟩ := foldl_parseRankLine_hasError _ [] ⟨l, hl, by simpa using hbad⟩
      rw [parseBPERanks, he] at hm
      cases hm
    · intro h
      exact ⟨_, foldl_parseRankLine_ok _ [] h⟩
  · intro m hm
    by_cases h : ∀ l ∈ splitOnByte 10 data, lineOK l = true
    · rw [parseBPERanks, foldl_parseRankLine_ok _ [] h] at hm
      cases hm
      rfl
    · push_neg at h
      obtain ⟨l, hl, hbad⟩ := h
      obtain ⟨e, he⟩ := foldl_parseRankLine_hasError _ [] ⟨l, hl, by simpa using hbad⟩
      rw [parseBPERanks, he] at hm
      cases hm

/-- Example rank-table source: a good line `QQ== 5`, a blank line, and a
three-field line that the lenient parser skips. -/
def exRankData : List Nat := [81, 81, 61, 61, 32, 53, 10, 10, 120, 32, 121, 32, 122]

theorem parseBPERanks_lenient_witness :
    rankTableSpecMap exRankData = [([65], 5)] :=
  ((parseBPERanks_lenient_and_error_iff exRankData).2 [([65], 5)] rfl).symm

/-! ## UTF-8 encoding of characters

Go strings are UTF-8 byte sequences; rune-level code is embedded over
`List Char`, and these helpers mediate to the byte level. -/

/-- The UTF-8 bytes of one Unicode scalar value (Go `utf8.EncodeRune`). -/
def utf8EncodeChar (c : Char) : List Nat :=
  let n := c.toNat
  if n < 128 then [n]
  else if n < 2048 then [192 + n / 64, 128 + n % 64]
  else if n < 65536 then [224 + n / 4096, 128 + n / 64 % 64, 128 + n % 64]
  else [240 + n / 262144, 128 + n / 4096 % 64, 128 + n / 64 % 64, 128 + n % 64]

/-- The UTF-8 bytes of a string. -/
def strBytes (s : List Char) : List Nat := s.flatMap utf8EncodeChar

/-- First-match lookup into an association list; with prepend-insertion this
matches Go map lookup. -/
def alookup {α β : Type} [DecidableEq α] (m : List (α × β)) (k : α) : Option β :=
  (m.find? (fun p => p.1 = k)).map Prod.snd

/-! ## BPE core encoder (`Encoder` from `tokenizer/bpe/core.go`)

The compiled pre-tokenization regex and the compiled special-token regex
are external library state (`regexp2`); they are embedded as opaque match
functions stored in the structure, returning the rune-index spans of all
non-overlapping matches. -/

structure Encoder where
  encoder : List (List Nat × Int)
  decoder : List (Int × List Nat)
  specialTokensEncoder : List (List Char × Int)
  specialTokensDecoder : List (Int × List Nat)
  splitMatches : List Char → List (Nat × Nat)

/-- The bytes one token ID contributes in `Encoder.decode`: the rank
decoder's entry, else the special-token decoder's entry, else nothing (the
zero-value string of the missing-key map read). -/
def tokenContribution (enc : Encoder) (token : Int) : List Nat :=
  match alookup enc.decoder token with
  | some b => b
  | none => (alookup enc.specialTokensDecoder token).getD []

/-- `Encoder.decode`: concatenate each ID's bytes; an ID with no entry in
either decoder contributes nothing and never fails. -/
def Encoder.decode (enc : Encoder) (tokens : List Int) : List Nat :=
  tokens.foldl
    (fun ret token =>
      let tokenBytes := tokenContribution enc token
      if tokenBytes.length > 0 then ret ++ tokenBytes else ret)
    []

theorem Encoder.decode_foldl_acc (enc : Encoder) (tokens : List Int) :
    ∀ acc : List Nat,
      tokens.foldl
        (fun ret token =>
          let tokenBytes := tokenContribution enc token
          if tokenBytes.length > 0 then ret ++ tokenBytes else ret)
        acc = acc ++ tokens.flatMap (tokenContribution enc) := by
  induction tokens with
  | nil => intro acc; simp
  | cons t ts ih =>
    intro acc
    rw [List.foldl_cons, List.flatMap_cons]
    by_cases h : (tokenContribution enc t).length > 0
    · simp [if_pos h, ih, List.append_assoc]
    · have hz : tokenContribution enc t = [] := by
        cases hc : tokenContribution enc t with
        | nil => rfl
        | cons b bs => rw [hc] at h; simp at h
      simp [if_neg h, ih, hz]

/-- C10: BPE decode never fails; an ID present in neither the rank decoder
nor the special-token decoder contributes no bytes to the output, and all
other IDs contribute their byte sequences in input order. -/
theorem bpe_decode_skips_unknown_ids (enc : Encoder) (tokens : List Int) :
    Encoder.decode enc tokens = tokens.flatMap (tokenContribution enc)
    ∧ ∀ token, alookup enc.decoder token = none →
        alookup enc.specialTokensDecoder token = none →
        tokenContribution enc token = [] := by
  constructor
  · rw [Encoder.decode, Encoder.decode_foldl_acc]
    rfl
  · intro token h1 h2
    rw [tokenContribution, h1, h2]
    rfl

/-- An example encoder: rank 5 decodes to byte 72, special token 7 decodes
to byte 33, and ID 9 is unknown. -/
def exEncoder : Encoder where
  encoder := [([72], 5)]
  decoder := [(5, [72])]
  specialTokensEncoder := [([' '], 7)]
  specialTokensDecoder := [(7, [33])]
  splitMatches := fun _ => []

theorem bpe_decode_skips_unknown_ids_witness :
    Encoder.decode exEncoder [5, 9, 7] = [72, 33] := by
  rw [(bpe_decode_skips_unknown_ids exEncoder [5, 9, 7]).1]
  rfl

/-! ## Literal-alternation regex matching

`specialRegex` and the disallowed-token regex are alternations of
`QuoteMeta`-escaped literals, so matching is: leftmost position first, and
at one position the first literal (in pattern order) that is a prefix of
the remaining text. -/

/-- Leftmost match of any literal, scanning from rune position `p`:
returns the pair of rune indices of the match. -/
def findLiteralMatchIdxAux (lits : List (List Char)) (p : Nat) :
    List Char → Option (Nat × Nat)
  | [] =>
    match lits.find? (fun l => l.isPrefixOf ([] : List Char)) with
    | some l => some (p, p + l.length)
    | none => none
  | c :: rest =>
    match lits.find? (fun l => l.isPrefixOf (c :: rest)) with
    | some l => some (p, p + l.length)
    | none => findLiteralMatchIdxAux lits (p + 1) rest

/-- Go `runes[start:end]` with the clamping done by `cutRunes`. -/
def cutRunes (runes : List Char) (start endIdx : Nat) : List Char :=
  (runes.take endIdx).drop start

/-- `findMatch` from `tokenizer/bpe/encoding.go`: the text of the first
match, or the empty string when there is none. -/
def findMatch (lits : List (List Char)) (text : List Char) : List Char :=
  match findLiteralMatchIdxAux lits 0 text with
  | some (s, e) => cutRunes text s e
  | none => []

/-! ## Byte-pair merge helper

The repository's `Encoder.encode`/`encodeOrdinary` call a helper
`bytePairEncode` whose definition is not part of the repository snapshot
(only its call sites are). -/

/-- Modelled from the spec: the leftmost adjacent pair of parts whose
concatenation has the lowest rank present in the rank table (absent pairs
never merge), as `(index, rank)`. The source's `bytePairEncode` helper is
missing from the snapshot; this follows §4.3 and §9 of the spec. -/
def bestMergePair (ranks : List (List Nat × Int)) (parts : List (List Nat)) :
    Option (Nat × Int) :=
  (List.range (parts.length - 1)).foldl
    (fun best i =>
      match alookup ranks ((parts.getD i []) ++ (parts.getD (i + 1) [])) with
      | none => best
      | some r =>
        match best with
        | none => some (i, r)
        | some (bi, br) => if r < br then some (i, r) else some (bi, br))
    none

/-- Modelled from the spec: repeatedly merge the best pair until no
mergeable pair remains (each merge shortens the list, so `piece.length`
fuel suffices). -/
def bytePairMergeLoop (ranks : List (List Nat × Int)) :
    Nat → List (List Nat) → List (List Nat)
  | 0, parts => parts
  | fuel + 1, parts =>
    match bestMergePair ranks parts with
    | none => parts
    | some (i, _) =>
      bytePairMergeLoop ranks fuel
        ((parts.take i) ++ [(parts.getD i []) ++ (parts.getD (i + 1) [])] ++
          (parts.drop (i + 2)))

/-- Modelled from the spec: `bytePairEncode` decomposes a chunk into
single-byte parts, merges, and emits the resulting parts' ranks in
left-to-right order. -/
def bytePairEncode (piece : List Nat) (ranks : List (List Nat × Int)) : List Int :=
  (bytePairMergeLoop ranks piece.length (piece.map (fun b => [b]))).filterMap
    (fun p => alookup ranks p)

/-! ## `Encoder.encode` (special-token-aware encoding loop) -/

/-- The inner `for` of `Encoder.encode`: advance `startFind` past special
matches that are not in the allowed set; the result, as in the source, is
the match span relative to the final `startFind`. -/
def findNextAllowedSpecial (specialLits allowed : List (List Char)) (textRunes : List Char) :
    Nat → Nat → Option (Nat × Nat)
  | 0, _ => none
  | fuel + 1, startFind =>
    match findLiteralMatchIdxAux specialLits 0 (textRunes.drop startFind) with
    | some (n0, n1) =>
      let token := cutRunes textRunes (startFind + n0) (startFind + n1)
      if token ∈ allowed then some (n0, n1)
      else findNextAllowedSpecial specialLits allowed textRunes fuel (startFind + n1)
    | none => none

/-- One pass of the outer loop of `Encoder.encode`, with fuel for the
unbounded `for`. -/
def Encoder.encodeLoop (enc : Encoder) (textRunes : List Char) (allowed : List (List Char)) :
    Nat → Nat → List Int → Nat → List Int × Nat
  | 0, _, ret, lastLen => (ret, lastLen)
  | fuel + 1, start, ret, lastLen =>
    let specialLits := enc.specialTokensEncoder.map Prod.fst
    let nextSpecial :=
      findNextAllowedSpecial specialLits allowed textRunes (textRunes.length + 1) start
    let endIdx :=
      match nextSpecial with
      | some (n0, _) => start + n0
      | none => textRunes.length
    let chunkRes :=
      (enc.splitMatches (cutRunes textRunes start endIdx)).foldl
        (fun (acc : List Int × Nat) mat =>
          let piece := cutRunes textRunes (start + mat.1) (start + mat.2)
          match alookup enc.encoder (strBytes piece) with
          | some token => (acc.1 ++ [token], 1)
          | none =>
            let tokens := bytePairEncode (strBytes piece) enc.encoder
            (acc.1 ++ tokens, tokens.length))
        (ret, lastLen)
    match nextSpecial with
    | some (n0, n1) =>
      let temp := cutRunes textRunes (start + n0) (start + n1)
      let token := (alookup enc.specialTokensEncoder temp).getD 0
      Encoder.encodeLoop enc textRunes allowed fuel (start + n1) (chunkRes.1 ++ [token]) 0
    | none => chunkRes

/-- `Encoder.encode`: returns the token IDs and `lastPieceTokenLen`. -/
def Encoder.encode (enc : Encoder) (text : List Char) (allowed : List (List Char)) :
    List Int × Nat :=
  Encoder.encodeLoop enc text allowed (text.length + 1) 0 [] 0

/-- `Encoder.encodeOrdinary`: no special-token recognition at all. -/
def Encoder.encodeOrdinary (enc : Encoder) (text : List Char) : List Int :=
  (enc.splitMatches text).foldl
    (fun ret mat =>
      let piece := cutRunes text mat.1 mat.2
      match alookup enc.encoder (strBytes piece) with
      | some token => ret ++ [token]
      | none => ret ++ bytePairEncode (strBytes piece) enc.encoder)
    []

/-! ## `BPETokenizer.Encode` and the disallowed-special panic -/

/-- Result of a Go function that can panic. -/
inductive GoResult (α : Type) where
  | ok : α → GoResult α
  | panicked : GoResult α
  deriving DecidableEq, Repr

/-- `BPETokenizer`: the encoder plus the set of all registered special
tokens (`specialTokensSet`). -/
structure BPETokenizer where
  encoder : Encoder
  specialTokensSet : List (List Char)

/-- The literal string `all`. -/
def allLit : List Char := ['a', 'l', 'l']

/-- The allowed-special set computed at the top of `BPETokenizer.Encode`. -/
def BPETokenizer.allowedSet (tok : BPETokenizer) (allowedSpecial : List (List Char)) :
    List (List Char) :=
  if allowedSpecial.length = 0 then []
  else if allowedSpecial = [allLit] then tok.specialTokensSet
  else allowedSpecial

/-- The disallowed-special set computed by `BPETokenizer.Encode`:
`difference(specialTokensSet, allowedSpecialSet)` when the caller passed
exactly `["all"]`, the caller's list otherwise. -/
def BPETokenizer.disallowedSet (tok : BPETokenizer)
    (allowedSpecial disallowedSpecial : List (List Char)) : List (List Char) :=
  if disallowedSpecial = [allLit] then
    tok.specialTokensSet.filter
      (fun k => decide (k ∉ BPETokenizer.allowedSet tok allowedSpecial))
  else disallowedSpecial

/-- `BPETokenizer.Encode`: when the disallowed set is non-empty and the
text contains a match, the source calls `panic`; otherwise it delegates to
`Encoder.encode` with the allowed set. -/
def BPETokenizer.Encode (tok : BPETokenizer) (text : List Char)
    (allowedSpecial disallowedSpecial : List (List Char)) : GoResult (List Int) :=
  let allowedSpecialSet := BPETokenizer.allowedSet tok allowedSpecial
  let disallowedSpecialSet := BPETokenizer.disallowedSet tok allowedSpecial disallowedSpecial
  if disallowedSpecialSet.length > 0 then
    let m := findMatch disallowedSpecialSet text
    if m ≠ [] then .panicked
    else .ok (Encoder.encode tok.encoder text allowedSpecialSet).1
  else .ok (Encoder.encode tok.encoder text allowedSpecialSet).1

theorem findLiteralMatchIdxAux_isSome (lits : List (List Char)) :
    ∀ (text : List Char) (p : Nat),
      (∃ l ∈ lits, ∃ i, l.isPrefixOf (text.drop i)) →
      ∃ s e, findLiteralMatchIdxAux lits p text = some (s, e) := by
  intro text
  induction text with
  | nil =>
    intro p h
    obtain ⟨l, hl, i, hpre⟩ := h
    rw [List.drop_nil] at hpre
    have : (lits.find? (fun l => l.isPrefixOf ([] : List Char))).isSome :=
      List.find?_isSome.mpr ⟨l, hl, hpre⟩
    rw [findLiteralMatchIdxAux]
    cases hf : lits.find? (fun l => l.isPrefixOf ([] : List Char)) with
    | none => rw [hf] at this; simp at this
    | some l0 => exact ⟨p, p + l0.length, rfl⟩
  | cons c rest ih =>
    intro p h
    rw [findLiteralMatchIdxAux]
    cases hf : lits.find? (fun l => l.isPrefixOf (c :: rest)) with
    | some l0 => exact ⟨p, p + l0.length, rfl⟩
    | none =>
      apply ih (p + 1)
      obtain ⟨l, hl, i, hpre⟩ := h
      cases i with
      | zero =>
        exfalso
        have : (lits.find? (fun l => l.isPrefixOf (c :: rest))).isSome :=
          List.find?_isSome.mpr ⟨l, hl, by simpa using hpre⟩
        rw [hf] at this
        simp at this
      | succ j => exact ⟨l, hl, j, by simpa using hpre⟩

theorem findLiteralMatchIdxAux_sound (lits : List (List Char)) :
    ∀ (text : List Char) (p s e : Nat),
      findLiteralMatchIdxAux lits p text = some (s, e) →
      ∃ l ∈ lits, p ≤ s ∧ l.isPrefixOf (text.drop (s - p)) = true ∧ e = s + l.length := by
  intro text
  induction text with
  | nil =>
    intro p s e h
    rw [findLiteralMatchIdxAux] at h
    cases hf : lits.find? (fun l => l.isPrefixOf ([] : List Char)) with
    | none => rw [hf] at h; cases h
    | some l0 =>
      rw [hf] at h
      obtain ⟨hs, he⟩ : p = s ∧ p + l0.length = e := by
        cases h; exact ⟨rfl, rfl⟩
      refine ⟨l0, List.mem_of_find?_eq_some hf, hs ▸ le_refl p, ?_, by omega⟩
      have := List.find?_some hf
      simpa [hs ▸ (Nat.sub_self p)] using this
  | cons c rest ih =>
    intro p s e h
    rw [findLiteralMatchIdxAux] at h
    cases hf : lits.find? (fun l => l.isPrefixOf (c :: rest)) with
    | some l0 =>
      rw [hf] at h
      obtain ⟨hs, he⟩ : p = s ∧ p + l0.length = e := by
        cases h; exact ⟨rfl, rfl⟩
      refine ⟨l0, List.mem_of_find?_eq_some hf, hs ▸ le_refl p, ?_, by omega⟩
      have := List.find?_some hf
      subst hs
      simpa [Nat.sub_self] using this
    | none =>
      rw [hf] at h
      obtain ⟨l, hl, hps, hpre, he⟩ := ih (p + 1) s e h
      refine ⟨l, hl, by omega, ?_, he⟩
      have hdrop : (c :: rest).drop (s - p) = rest.drop (s - (p + 1)) := by
        have hsp : s - p = (s - (p + 1)) + 1 := by omega
        rw [hsp]
        rfl
      rw [hdrop]
      exact hpre

theorem findMatch_ne_nil (lits : List (List Char)) (text : List Char)
    (hno : ([] : List Char) ∉ lits)
    (hocc : ∃ l ∈ lits, ∃ i, l.isPrefixOf (text.drop i)) :
    findMatch lits text ≠ [] := by
  obtain ⟨s, e, hfind⟩ := findLiteralMatchIdxAux_isSome lits text 0 hocc
  obtain ⟨l, hl, _, hpre, he⟩ := findLiteralMatchIdxAux_sound lits text 0 s e hfind
  have hlne : l ≠ [] := fun h => hno (h ▸ hl)
  have hllen : 1 ≤ l.length := List.length_pos.mpr hlne
  have hpre' : l <+: text.drop s := by
    rw [← List.isPrefixOf_iff_prefix]
    simpa using hpre
  have hdlen : l.length ≤ (text.drop s).length := hpre'.length_le
  rw [List.length_drop] at hdlen
  have hfm : findMatch lits text = (text.take e).drop s := by
    simp only [findMatch, hfind, cutRunes]
  rw [hfm]
  intro hcontra
  have hlen0 : ((text.take e).drop s).length = 0 := by rw [hcontra]; rfl
  rw [List.length_drop, List.length_take] at hlen0
  omega

/-- A tiny tokenizer whose only special token is `#` (ID 100). -/
def exTokenizer : BPETokenizer where
  encoder :=
    { encoder := []
      decoder := []
      specialTokensEncoder := [(['#'], 100)]
      specialTokensDecoder := [(100, [35])]
      splitMatches := fun _ => [] }
  specialTokensSet := [['#']]

/-- C2 counterexample: encoding text containing a disallowed special token
does not return a recoverable error value — the source calls `panic`, an
unrecoverable abort, modelled by `GoResult.panicked`. Here the caller
disallows `all` specials and the text contains the special token `#`. -/
theorem bpe_encode_disallowed_special_aborts :
    BPETokenizer.Encode exTokenizer ['a', '#'] [] [allLit] = .panicked := by
  rfl

/-- C2 amended: for every tokenizer state, input text, and special-token
policy whose computed disallowed set contains no empty literal, if some
disallowed token occurs literally in the text then `Encode` panics — the
result is the abort regardless of the encoder's tables or pattern, i.e. it
is raised before any encoding work contributes to the outcome. -/
theorem bpe_encode_disallowed_special_panics (tok : BPETokenizer) (text : List Char)
    (allowedSpecial disallowedSpecial : List (List Char))
    (hno : ([] : List Char) ∉ BPETokenizer.disallowedSet tok allowedSpecial disallowedSpecial)
    (hocc : ∃ l ∈ BPETokenizer.disallowedSet tok allowedSpecial disallowedSpecial,
      ∃ i, l.isPrefixOf (text.drop i)) :
    BPETokenizer.Encode tok text allowedSpecial disallowedSpecial = .panicked := by
  have hm := findMatch_ne_nil _ text hno hocc
  obtain ⟨l, hl, _⟩ := hocc
  have hlen : 0 < (BPETokenizer.disallowedSet tok allowedSpecial disallowedSpecial).length :=
    List.length_pos.mpr (List.ne_nil_of_mem hl)
  simp only [BPETokenizer.Encode]
  simp [hlen, hm]

theorem bpe_encode_disallowed_special_panics_witness :
    BPETokenizer.Encode exTokenizer ['#', 'b'] [] [['#']] = .panicked :=
  bpe_encode_disallowed_special_panics exTokenizer ['#', 'b'] [] [['#']]
    (by decide) ⟨['#'], by decide, 0, by decide⟩

/-! ## SentencePiece (SPM) data model -/

inductive PieceType where
  | NORMAL
  | UNKNOWN
  | CONTROL
  | USER_DEFINED
  | BYTE
  | UNUSED
  deriving DecidableEq, Repr

/-- One vocabulary piece of a serialized SentencePiece model. The source
stores the score as a `float32`; no claim depends on score arithmetic,
only on comparisons, so scores are embedded as integers. -/
structure SentencePiece where
  piece : List Char
  score : Int
  type : PieceType
  deriving DecidableEq, Repr

/-- The fields of the serialized model definition that `NewProcessor`
reads: the pieces, the trainer flags (`model_type == BPE`,
`byte_fallback`, `unk_surface`) and the normalizer flags. -/
structure ModelProto where
  pieces : List SentencePiece
  modelTypeIsBPE : Bool
  byteFallback : Bool
  addDummyPrefix : Bool
  removeExtraWhitespaces : Bool
  unkSurface : List Char
  deriving DecidableEq, Repr

/-- `spm.Token`. -/
structure SpmToken where
  id : Nat
  text : List Char
  deriving DecidableEq, Repr

/-- The number of UTF-8 bytes of a string (Go `len(s)`). -/
def byteLen (s : List Char) : Nat := (strBytes s).length

/-! ## Prefix trie matcher (`prefixmatcher.go`) -/

inductive TrieNode where
  | mk : List (Char × TrieNode) → Bool → TrieNode

def TrieNode.children : TrieNode → List (Char × TrieNode)
  | .mk ch _ => ch

def TrieNode.final : TrieNode → Bool
  | .mk _ f => f

/-- Replace the binding for `k` in an association list. -/
def updateAssoc {α β : Type} [DecidableEq α] (m : List (α × β)) (k : α) (v : β) :
    List (α × β) :=
  m.map (fun p => if p.1 = k then (k, v) else p)

/-- `prefixMatcher.add`: insert one word, creating nodes as needed. -/
def TrieNode.add : TrieNode → List Char → TrieNode
  | .mk ch _, [] => .mk ch true
  | .mk ch fin, c :: rest =>
    match alookup ch c with
    | some child => .mk (updateAssoc ch c (child.add rest)) fin
    | none => .mk (ch ++ [(c, TrieNode.add (.mk [] false) rest)]) fin

/-- The walk of `findPrefixLen`, counting matched characters. The source
returns the byte length of the same prefix and slices the text there;
since the trie is traversed rune-by-rune the cut is always on a rune
boundary, so the embedding works in runes throughout. -/
def TrieNode.walk : TrieNode → List Char → Nat → Nat → Nat
  | _, [], _, maxLen => maxLen
  | node, c :: rest, i, maxLen =>
    match alookup node.children c with
    | none => maxLen
    | some child =>
      TrieNode.walk child rest (i + 1) (if child.final then i + 1 else maxLen)

structure prefixMatcher where
  root : TrieNode

/-- `newPrefixMatcher` builds the trie from the vocabulary words. -/
def newPrefixMatcher (vocab : List (List Char)) : prefixMatcher :=
  ⟨vocab.foldl (fun t w => t.add w) (.mk [] false)⟩

/-- `findPrefixLen`, in characters (see `TrieNode.walk`). -/
def prefixMatcher.findPrefixLen (pm : prefixMatcher) (text : List Char) : Nat :=
  pm.root.walk text 0 0

/-! ## `convertHexValue` -/

def hexDigitVal (c : Char) : Option Nat :=
  if '0' ≤ c ∧ c ≤ '9' then some (c.toNat - 48)
  else if 'a' ≤ c ∧ c ≤ 'f' then some (c.toNat - 97 + 10)
  else if 'A' ≤ c ∧ c ≤ 'F' then some (c.toNat - 65 + 10)
  else none

/-- `strconv.ParseInt(s, 16, 32)` restricted to unsigned surfaces as they
occur in `<0xHH>` byte pieces: all hex digits, non-empty, below `2^31`. -/
def parseHex32 (s : List Char) : Option Nat :=
  if s = [] then none
  else if s.all (fun c => (hexDigitVal c).isSome) then
    if s.foldl (fun acc c => acc * 16 + (hexDigitVal c).getD 0) 0 < 2 ^ 31 then
      some (s.foldl (fun acc c => acc * 16 + (hexDigitVal c).getD 0) 0)
    else none
  else none

/-- Go `strings.TrimPrefix`. -/
def trimLeading (pre s : List Char) : List Char :=
  if pre.isPrefixOf s then s.drop pre.length else s

/-- Go `strings.TrimSuffix`. -/
def trimTrailing (suf s : List Char) : List Char :=
  if suf.isSuffixOf s then s.take (s.length - suf.length) else s

/-- `convertHexValue`: strip `<0x` and `>`, parse hex, `-1` on failure. -/
def convertHexValue (bv : List Char) : Int :=
  match parseHex32 (trimTrailing ['>'] (trimLeading ['<', '0', 'x'] bv)) with
  | some n => (n : Int)
  | none => -1

/-! ## `NewProcessor` (model loading and validation) -/

inductive LoadError where
  | unsupportedModelType
  | unsupportedNormalizer
  | unkRedefined
  | bytePieceWithoutFallback
  | unkNotDefined
  | byteValueMissing
  deriving DecidableEq, Repr

/-- Accumulator of the piece loop in `NewProcessor`. -/
structure LoadState where
  userDefined : List (List Char)
  piecesMap : List (List Char × Nat)
  reserved : List (List Char × Nat)
  byte2Token : List (Nat × SpmToken)
  idToByte : List (Nat × Nat)
  unkID : Int
  maxPieceLength : Nat

def initLoadState : LoadState :=
  ⟨[], [], [], [], [], -1, 0⟩

/-- One iteration of the piece loop in `NewProcessor`. Note the duplicate
UNKNOWN check reads `unkID > 0`, not `unkID >= 0`. -/
def processPiece (byteFallback : Bool) (st : LoadState) (ip : Nat × SentencePiece) :
    Except LoadError LoadState :=
  let i := ip.1
  let piece := ip.2
  let isNormalPiece :=
    piece.type = .NORMAL ∨ piece.type = .USER_DEFINED ∨ piece.type = .UNUSED
  let st1 :=
    if isNormalPiece then
      { st with piecesMap := (piece.piece, i) :: st.piecesMap
                maxPieceLength := max st.maxPieceLength (byteLen piece.piece) }
    else
      { st with reserved := (piece.piece, i) :: st.reserved }
  if piece.type = .USER_DEFINED then
    .ok { st1 with userDefined := st1.userDefined ++ [piece.piece] }
  else if piece.type = .UNKNOWN then
    if st1.unkID > 0 then .error .unkRedefined
    else .ok { st1 with unkID := (i : Int) }
  else if piece.type = .BYTE then
    if ¬ byteFallback then .error .bytePieceWithoutFallback
    else
      if 0 ≤ convertHexValue piece.piece ∧ convertHexValue piece.piece < 256 then
        .ok { st1 with
          byte2Token := ((convertHexValue piece.piece).toNat, ⟨i, piece.piece⟩) ::
            st1.byte2Token
          idToByte := (i, (convertHexValue piece.piece).toNat) :: st1.idToByte }
      else .ok st1
  else .ok st1

structure Processor where
  pieces : List SentencePiece
  byteFallback : Bool
  unkSurface : List Char
  piecesMap : List (List Char × Nat)
  reserved : List (List Char × Nat)
  unknownID : Nat
  userDefinedMatcher : prefixMatcher
  byte2Token : List (Nat × SpmToken)
  idToByte : List (Nat × Nat)
  maxPieceLength : Nat

/-- `NewProcessor`: validate the model and build the derived tables. -/
def NewProcessor (mp : ModelProto) : Except LoadError Processor := do
  if ¬ mp.modelTypeIsBPE then throw .unsupportedModelType
  else if mp.addDummyPrefix ∨ mp.removeExtraWhitespaces then throw .unsupportedNormalizer
  else
    let st ← mp.pieces.enum.foldlM (processPiece mp.byteFallback) initLoadState
    if st.unkID < 0 then throw .unkNotDefined
    else if mp.byteFallback ∧
        ¬ (List.range 256).all (fun b => (alookup st.byte2Token b).isSome) then
      throw .byteValueMissing
    else
      return { pieces := mp.pieces
               byteFallback := mp.byteFallback
               unkSurface := mp.unkSurface
               piecesMap := st.piecesMap
               reserved := st.reserved
               unknownID := st.unkID.toNat
               userDefinedMatcher := newPrefixMatcher st.userDefined
               byte2Token := st.byte2Token
               idToByte := st.idToByte
               maxPieceLength := st.maxPieceLength }

/-! ## C5: duplicate-UNKNOWN validation -/

/-- A model with UNKNOWN pieces at indices 0 and 1: model type BPE,
normalizer flags off, byte-fallback off. -/
def dupUnkModel : ModelProto where
  pieces :=
    [⟨['<', 'u', 'n', 'k', '>'], 0, .UNKNOWN⟩,
     ⟨['<', 'u', 'n', 'k', '2', '>'], 0, .UNKNOWN⟩,
     ⟨['a'], 0, .NORMAL⟩]
  modelTypeIsBPE := true
  byteFallback := false
  addDummyPrefix := false
  removeExtraWhitespaces := false
  unkSurface := [' ']

/-- The same two duplicate UNKNOWN pieces, shifted to indices 1 and 2. -/
def shiftedDupUnkModel : ModelProto where
  pieces :=
    [⟨['a'], 0, .NORMAL⟩,
     ⟨['<', 'u', 'n', 'k', '>'], 0, .UNKNOWN⟩,
     ⟨['<', 'u', 'n', 'k', '2', '>'], 0, .UNKNOWN⟩]
  modelTypeIsBPE := true
  byteFallback := false
  addDummyPrefix := false
  removeExtraWhitespaces := false
  unkSurface := [' ']

/-- C5: the loader is meant to reject every model with two or more UNKNOWN
pieces (`unk redefined`), but the guard reads `unkID > 0` instead of
`unkID >= 0`, so when the first UNKNOWN piece sits at index 0 a second
UNKNOWN piece is silently accepted (it overwrites the unknown ID). The
same duplicate shifted to indices 1 and 2 is rejected, showing the intent
of the guard. -/
theorem spm_newprocessor_duplicate_unknown_bug :
    (∃ p, NewProcessor dupUnkModel = .ok p)
    ∧ NewProcessor shiftedDupUnkModel = .error .unkRedefined :=
  ⟨⟨_, rfl⟩, rfl⟩

/-! ## Priority queue (`priorityqueue.go`)

A binary max-heap over a slice whose index 0 is a sentinel (`make([]T, 1)`
leaves the zero value there); the payload lives at indices `1..`. The
unbounded `for` loops of `siftup`/`siftdown` take explicit fuel; the
callers pass bounds (`i` halves each `siftup` step and the child index at
most doubles up to the length each `siftdown` step, so `items.length` is
always enough). -/

structure priorityQueue (T : Type) where
  cmp : T → T → Int
  items : List T

/-- Swap two positions of a list (Go parallel assignment). -/
def listSwap {T : Type} [Inhabited T] (l : List T) (i j : Nat) : List T :=
  (l.set i (l.getD j default)).set j (l.getD i default)

def newPriorityQueue {T : Type} [Inhabited T] (sizeHint : Nat) (cmp : T → T → Int) :
    priorityQueue T :=
  { cmp := cmp, items := [default] }

def priorityQueue.Len {T : Type} (pq : priorityQueue T) : Nat :=
  pq.items.length - 1

theorem getD_mem_of_lt {T : Type} [Inhabited T] {l : List T} {i : Nat} (h : i < l.length) :
    l.getD i default ∈ l := by
  rw [List.getD_eq_getElem l default h]
  exact List.getElem_mem h

/-- The larger child chosen by `siftdown`. -/
def pqMaxChild {T : Type} [Inhabited T] (cmp : T → T → Int) (items : List T) (i : Nat) :
    Nat :=
  if 2 * i + 1 < items.length ∧
      cmp (items.getD (2 * i + 1) default) (items.getD (2 * i) default) > 0
  then 2 * i + 1 else 2 * i

def pqSiftup {T : Type} [Inhabited T] (cmp : T → T → Int) :
    Nat → List T → Nat → List T
  | 0, items, _ => items
  | fuel + 1, items, i =>
    if i = 1 then items
    else if cmp (items.getD (i / 2) default) (items.getD i default) ≥ 0 then items
    else pqSiftup cmp fuel (listSwap items i (i / 2)) (i / 2)

def pqSiftdown {T : Type} [Inhabited T] (cmp : T → T → Int) :
    Nat → List T → Nat → List T
  | 0, items, _ => items
  | fuel + 1, items, i =>
    if 2 * i ≥ items.length then items
    else if cmp (items.getD i default) (items.getD (pqMaxChild cmp items i) default) ≥ 0
    then items
    else pqSiftdown cmp fuel (listSwap items i (pqMaxChild cmp items i))
      (pqMaxChild cmp items i)

/-- The slice contents after `Insert`: append, then sift up from the last
position. -/
def pqInsertItems {T : Type} [Inhabited T] (cmp : T → T → Int) (items : List T)
    (elem : T) : List T :=
  pqSiftup cmp (items ++ [elem]).length (items ++ [elem]) ((items ++ [elem]).length - 1)

def priorityQueue.Insert {T : Type} [Inhabited T] (pq : priorityQueue T) (elem : T) :
    priorityQueue T :=
  { pq with items := pqInsertItems pq.cmp pq.items elem }

/-- The slice contents after `PopMax`: replace the root with the last
element, shrink, sift down from the root. -/
def pqPopItems {T : Type} [Inhabited T] (cmp : T → T → Int) (items : List T) : List T :=
  pqSiftdown cmp
    ((items.set 1 (items.getD (items.length - 1) default)).take (items.length - 1)).length
    ((items.set 1 (items.getD (items.length - 1) default)).take (items.length - 1)) 1

/-- `PopMax`; popping an empty queue panics in the source, here `none`. -/
def priorityQueue.PopMax {T : Type} [Inhabited T] (pq : priorityQueue T) :
    Option (T × priorityQueue T) :=
  if pq.items.length < 2 then none
  else
    some (pq.items.getD 1 default, { pq with items := pqPopItems pq.cmp pq.items })

/-- `rebuildHeap`: `siftdown` from `len/2` down to `1`. -/
def pqRebuildIter {T : Type} [Inhabited T] (cmp : T → T → Int) :
    Nat → List T → List T
  | 0, items => items
  | k + 1, items => pqRebuildIter cmp k (pqSiftdown cmp items.length items (k + 1))

def pqRebuildHeap {T : Type} [Inhabited T] (cmp : T → T → Int) (items : List T) : List T :=
  pqRebuildIter cmp (items.length / 2) items

/-- `RemoveFunc`: single stable compacting pass over the payload followed
by a heap rebuild; if no element matches, the queue is left untouched. -/
def priorityQueue.RemoveFunc {T : Type} [Inhabited T] (pq : priorityQueue T)
    (rm : T → Bool) : priorityQueue T :=
  if (pq.items.drop 1).all (fun v => ¬ rm v) then pq
  else
    { pq with items :=
        pqRebuildHeap pq.cmp (pq.items.take 1 ++ (pq.items.drop 1).filter (fun v => ¬ rm v)) }

theorem listSwap_length {T : Type} [Inhabited T] (l : List T) (i j : Nat) :
    (listSwap l i j).length = l.length := by
  simp [listSwap]

theorem listSwap_mem {T : Type} [Inhabited T] {l : List T} {i j : Nat} {y : T}
    (hi : i < l.length) (hj : j < l.length) (hy : y ∈ listSwap l i j) : y ∈ l := by
  rw [listSwap] at hy
  rcases List.mem_or_eq_of_mem_set hy with hy1 | rfl
  · rcases List.mem_or_eq_of_mem_set hy1 with hy2 | rfl
    · exact hy2
    · exact getD_mem_of_lt hj
  · exact getD_mem_of_lt hi

theorem pqMaxChild_lt {T : Type} [Inhabited T] (cmp : T → T → Int) (items : List T)
    (i : Nat) (h : 2 * i < items.length) : pqMaxChild cmp items i < items.length := by
  rw [pqMaxChild]
  split <;> omega

theorem pqMaxChild_ge {T : Type} [Inhabited T] (cmp : T → T → Int) (items : List T)
    (i : Nat) : 2 * i ≤ pqMaxChild cmp items i := by
  rw [pqMaxChild]
  split <;> omega

theorem pqSiftup_length {T : Type} [Inhabited T] (cmp : T → T → Int) :
    ∀ (fuel : Nat) (items : List T) (i : Nat),
      (pqSiftup cmp fuel items i).length = items.length := by
  intro fuel
  induction fuel with
  | zero => intro items i; rfl
  | succ f ih =>
    intro items i
    rw [pqSiftup]
    split
    · rfl
    · split
      · rfl
      · rw [ih, listSwap_length]

theorem pqSiftup_mem {T : Type} [Inhabited T] (cmp : T → T → Int) :
    ∀ (fuel : Nat) (items : List T) (i : Nat), i < items.length →
      ∀ y ∈ pqSiftup cmp fuel items i, y ∈ items := by
  intro fuel
  induction fuel with
  | zero => intro items i _ y hy; exact hy
  | succ f ih =>
    intro items i hi y hy
    rw [pqSiftup] at hy
    split at hy
    · exact hy
    · split at hy
      · exact hy
      · have hp : i / 2 < (listSwap items i (i / 2)).length := by
          rw [listSwap_length]; omega
        exact listSwap_mem hi (by omega) (ih _ _ hp y hy)

theorem pqSiftdown_length {T : Type} [Inhabited T] (cmp : T → T → Int) :
    ∀ (fuel : Nat) (items : List T) (i : Nat),
      (pqSiftdown cmp fuel items i).length = items.length := by
  intro fuel
  induction fuel with
  | zero => intro items i; rfl
  | succ f ih =>
    intro items i
    rw [pqSiftdown]
    split
    · rfl
    · split
      · rfl
      · rw [ih, listSwap_length]

theorem pqSiftdown_mem {T : Type} [Inhabited T] (cmp : T → T → Int) :
    ∀ (fuel : Nat) (items : List T) (i : Nat),
      ∀ y ∈ pqSiftdown cmp fuel items i, y ∈ items := by
  intro fuel
  induction fuel with
  | zero => intro items i y hy; exact hy
  | succ f ih =>
    intro items i y hy
    rw [pqSiftdown] at hy
    split at hy
    · exact hy
    · rename_i hclen
      have hi : i < items.length := by omega
      split at hy
      · exact hy
      · have hmc : pqMaxChild cmp items i < items.length :=
          pqMaxChild_lt cmp items i (by omega)
        exact listSwap_mem hi hmc (ih _ _ y hy)

theorem pqRebuildIter_length {T : Type} [Inhabited T] (cmp : T → T → Int) :
    ∀ (k : Nat) (items : List T), (pqRebuildIter cmp k items).length = items.length := by
  intro k
  induction k with
  | zero => intro items; rfl
  | succ n ih => intro items; rw [pqRebuildIter, ih, pqSiftdown_length]

theorem pqRebuildIter_mem {T : Type} [Inhabited T] (cmp : T → T → Int) :
    ∀ (k : Nat) (items : List T), ∀ y ∈ pqRebuildIter cmp k items, y ∈ items := by
  intro k
  induction k with
  | zero => intro items y hy; exact hy
  | succ n ih =>
    intro items y hy
    rw [pqRebuildIter] at hy
    exact pqSiftdown_mem cmp _ _ _ y (ih _ y hy)

theorem pq_insert_mem {T : Type} [Inhabited T] (pq : priorityQueue T) (x y : T)
    (hy : y ∈ (pq.Insert x).items) : y ∈ pq.items ∨ y = x := by
  rw [priorityQueue.Insert] at hy
  simp only at hy
  rw [pqInsertItems] at hy
  have hlt : (pq.items ++ [x]).length - 1 < (pq.items ++ [x]).length := by
    simp
  have := pqSiftup_mem pq.cmp _ _ _ hlt y hy
  rcases List.mem_append.1 this with h | h
  · exact .inl h
  · exact .inr (by simpa using h)

theorem pq_popmax_mem {T : Type} [Inhabited T] (pq : priorityQueue T) (v : T)
    (q' : priorityQueue T) (hpop : pq.PopMax = some (v, q')) :
    v ∈ pq.items ∧ ∀ y ∈ q'.items, y ∈ pq.items := by
  rw [priorityQueue.PopMax] at hpop
  split at hpop
  · cases hpop
  · rename_i hlen
    have hv : v = pq.items.getD 1 default := by
      cases hpop; rfl
    have hq : q'.items = pqPopItems pq.cmp pq.items := by
      cases hpop; rfl
    constructor
    · rw [hv]
      exact getD_mem_of_lt (by omega)
    · intro y hy
      rw [hq, pqPopItems] at hy
      have h1 := pqSiftdown_mem pq.cmp _ _ _ y hy
      have h2 := List.mem_of_mem_take h1
      rcases List.mem_or_eq_of_mem_set h2 with h3 | rfl
      · exact h3
      · exact getD_mem_of_lt (by omega)

theorem pq_removefunc_mem {T : Type} [Inhabited T] (pq : priorityQueue T) (rm : T → Bool)
    (y : T) (hy : y ∈ (pq.RemoveFunc rm).items) : y ∈ pq.items := by
  rw [priorityQueue.RemoveFunc] at hy
  split at hy
  · exact hy
  · simp only at hy
    rw [pqRebuildHeap] at hy
    have h1 := pqRebuildIter_mem pq.cmp _ _ y hy
    rcases List.mem_append.1 h1 with h | h
    · exact List.mem_of_mem_take h
    · exact List.mem_of_mem_drop (List.mem_of_mem_filter h)

/-! ## SPM normalization (`normalize.go`)

The whitespace sentinel is U+2581; the source stores it as a UTF-8 string
literal. Both replacements act on whole characters, so they are maps. -/

def whitespaceSep : Char := Char.ofNat 9601

/-- `normalize`: replace every space by the whitespace sentinel. -/
def spmNormalize (text : List Char) : List Char :=
  text.map (fun c => if c = ' ' then whitespaceSep else c)

/-- `replaceSeparatorsBySpace` (used by `Decode`). -/
def replaceSeparatorsBySpace (text : List Char) : List Char :=
  text.map (fun c => if c = whitespaceSep then ' ' else c)

/-! ## SPM segmentation and the merge-loop state (`processor.go` `Encode`) -/

structure symListElem where
  prev : Int
  next : Int
  noMerge : Bool
  symbol : List Char
  deriving DecidableEq, Repr

instance : Inhabited symListElem := ⟨⟨0, 0, false, []⟩⟩

structure mergeCandidate where
  left : Nat
  right : Nat
  length : Nat
  score : Int
  deriving DecidableEq, Repr

instance : Inhabited mergeCandidate := ⟨⟨0, 0, 0, 0⟩⟩

instance : Inhabited SentencePiece := ⟨⟨[], 0, .NORMAL⟩⟩

instance : Inhabited SpmToken := ⟨⟨0, []⟩⟩

/-- `symbolMatch`: a user-defined-token prefix when one exists, otherwise
one rune (`utf8.DecodeRuneInString` consumes zero bytes of empty text). -/
def Processor.symbolMatch (proc : Processor) (text : List Char) : Nat × Bool :=
  if proc.userDefinedMatcher.findPrefixLen text > 0 then
    (proc.userDefinedMatcher.findPrefixLen text, true)
  else
    match text with
    | [] => (0, false)
    | _ :: _ => (1, false)

/-- The segmentation loop of `Encode`: each element records
`prev = index-1`, `next = index+1`; runs at least once, so empty input
produces one empty symbol. Each iteration with non-empty text consumes at
least one character, so `text.length + 1` fuel is exact. -/
def segmentLoop (proc : Processor) : Nat → List Char → Nat → List symListElem
  | 0, _, _ => []
  | fuel + 1, text, idx =>
    let sm := proc.symbolMatch text
    let sym : symListElem :=
      { noMerge := sm.2
        symbol := text.take sm.1
        prev := (idx : Int) - 1
        next := (idx : Int) + 1 }
    if text.drop sm.1 = [] then [sym]
    else sym :: segmentLoop proc fuel (text.drop sm.1) (idx + 1)

/-- Segmentation plus the `symList[len-1].next = -1` terminator patch. -/
def Processor.segment (proc : Processor) (text : List Char) : List symListElem :=
  let sl := segmentLoop proc (text.length + 1) text 0
  sl.set (sl.length - 1) { sl.getD (sl.length - 1) default with next := -1 }

/-- `findMerged`: fails when the combined length exceeds the scratch
buffer (`maxPieceLength`); otherwise looks the concatenation up in the
pieces map and returns that piece's surface text and index. -/
def findMerged (proc : Processor) (x y : symListElem) : Option (List Char × Nat) :=
  if byteLen x.symbol + byteLen y.symbol > proc.maxPieceLength then none
  else
    match alookup proc.piecesMap (x.symbol ++ y.symbol) with
    | some id => some ((proc.pieces.getD id default).piece, id)
    | none => none

/-- The merge-queue comparator: higher score wins, ties break towards the
smaller left index. -/
def spmCandidateCmp (a b : mergeCandidate) : Int :=
  if a.score > b.score ∨ (a.score = b.score ∧ a.left < b.left) then 1 else -1

/-- `suggestNewMergePair`. -/
def suggestNewMergePair (proc : Processor) (symList : List symListElem)
    (queue : priorityQueue mergeCandidate) (left right : Int) :
    priorityQueue mergeCandidate :=
  if left = -1 ∨ right = -1 ∨ (symList.getD left.toNat default).noMerge ∨
      (symList.getD right.toNat default).noMerge then queue
  else
    match findMerged proc (symList.getD left.toNat default)
        (symList.getD right.toNat default) with
    | some (mergedSymbol, id) =>
      queue.Insert
        { left := left.toNat
          right := right.toNat
          length := byteLen mergedSymbol
          score := (proc.pieces.getD id default).score }
    | none => queue

/-- `candidateIsDead`. -/
def candidateIsDead (symList : List symListElem) (c : mergeCandidate) : Bool :=
  (symList.getD c.left default).symbol = [] ∨
    (symList.getD c.right default).symbol = [] ∨
    byteLen (symList.getD c.left default).symbol +
      byteLen (symList.getD c.right default).symbol ≠ c.length

structure EncodeState where
  symList : List symListElem
  nTokens : Int
  queue : priorityQueue mergeCandidate
  dead : Int

/-- The three `symList` writes of one applied merge: the left node takes
the merged text and the right node's `next`; the new successor's `prev` is
repointed at the left node; the right node's text becomes empty. -/
def mergeSymLists (symList : List symListElem) (candidate : mergeCandidate)
    (leftSymbol rightSymbol : symListElem) (mergedSymbol : List Char) :
    List symListElem :=
  let sl1 := symList.set candidate.left
    { leftSymbol with symbol := mergedSymbol, next := rightSymbol.next }
  let sl2 :=
    if rightSymbol.next ≥ 0 then
      sl1.set rightSymbol.next.toNat
        { sl1.getD rightSymbol.next.toNat default with prev := (candidate.left : Int) }
    else sl1
  sl2.set candidate.right { sl2.getD candidate.right default with symbol := [] }

/-- One iteration of the merge loop. `none` is the
`panic("failed to merge symbols")` branch; an empty queue leaves the state
unchanged (the loop has exited). -/
def encodeStep (proc : Processor) (s : EncodeState) : Option EncodeState :=
  match s.queue.PopMax with
  | none => some s
  | some (candidate, q1) =>
    if candidateIsDead s.symList candidate then
      some { s with queue := q1, dead := s.dead - 1 }
    else
      let q2d :=
        if s.dead * 3 > (q1.Len : Int) then
          (q1.RemoveFunc (candidateIsDead s.symList), (0 : Int))
        else (q1, s.dead)
      match findMerged proc (s.symList.getD candidate.left default)
          (s.symList.getD candidate.right default) with
      | none => none
      | some (mergedSymbol, _) =>
        let leftSymbol := s.symList.getD candidate.left default
        let rightSymbol := s.symList.getD candidate.right default
        let sl3 := mergeSymLists s.symList candidate leftSymbol rightSymbol mergedSymbol
        let q3 := suggestNewMergePair proc sl3 q2d.1 leftSymbol.prev (candidate.left : Int)
        let q4 := suggestNewMergePair proc sl3 q3 (candidate.left : Int) rightSymbol.next
        some { symList := sl3, nTokens := s.nTokens - 1, queue := q4, dead := q2d.2 + 1 }

/-- Candidate seeding: `suggestNewMergePair(i-1, i)` for `i = 1 .. len-1`
over a fresh queue of size hint `len`. -/
def seedQueue (proc : Processor) (symList : List symListElem) :
    priorityQueue mergeCandidate :=
  (List.range' 1 (symList.length - 1)).foldl
    (fun q (i : Nat) => suggestNewMergePair proc symList q ((i : Int) - 1) (i : Int))
    (newPriorityQueue symList.length spmCandidateCmp)

def initEncodeState (proc : Processor) (symList : List symListElem) : EncodeState :=
  { symList := symList
    nTokens := (symList.length : Int)
    queue := seedQueue proc symList
    dead := 0 }

/-- Run the merge loop to completion. Each iteration pops once; pops never
exceed insertions, and insertions are at most `len-1` seeds plus two per
applied merge with at most `len-1` merges, so `3 * len` fuel is exact. -/
def runMergeLoop (proc : Processor) : Nat → EncodeState → Option EncodeState
  | 0, s => some s
  | fuel + 1, s =>
    if s.queue.Len = 0 then some s
    else (encodeStep proc s).bind (runMergeLoop proc fuel)

/-- The materialization walk `for i := 0; i >= 0; i = symList[i].next`. -/
def materializeLoop (symList : List symListElem) : Nat → Int → List (List Char)
  | 0, _ => []
  | fuel + 1, i =>
    if 0 ≤ i then
      (symList.getD i.toNat default).symbol ::
        materializeLoop symList fuel (symList.getD i.toNat default).next
    else []

/-- `symbolToID`: `reserved` first, then `pieces`, else UNKNOWN. -/
def Processor.symbolToID (proc : Processor) (symbol : List Char) : Nat :=
  match alookup proc.reserved symbol with
  | some id => id
  | none =>
    match alookup proc.piecesMap symbol with
    | some id => id
    | none => proc.unknownID

/-- Symbol-to-token emission: an UNKNOWN symbol expands to one byte token
per UTF-8 byte when byte-fallback is on (a missing `byte2Token` entry
yields the zero-value token, as a Go map read does). -/
def Processor.symbolsToTokens (proc : Processor) (symbols : List (List Char)) :
    List SpmToken :=
  symbols.flatMap (fun symbol =>
    if proc.symbolToID symbol = proc.unknownID ∧ proc.byteFallback then
      (strBytes symbol).map (fun b => (alookup proc.byte2Token b).getD default)
    else [⟨proc.symbolToID symbol, symbol⟩])

/-- `Processor.Encode`. `none` is the unreachable merge panic. -/
def Processor.Encode (proc : Processor) (text : List Char) : Option (List SpmToken) :=
  let symList := proc.segment (spmNormalize text)
  if symList.length = 0 then some []
  else
    (runMergeLoop proc (3 * symList.length) (initEncodeState proc symList)).map
      (fun s =>
        proc.symbolsToTokens (materializeLoop s.symList (s.symList.length + 1) 0))

/-! ## SPM decoding (`Decode`) -/

def Processor.isByteID (proc : Processor) (id : Nat) : Bool :=
  (proc.pieces.getD id default).type = .BYTE

def Processor.isControlID (proc : Processor) (id : Nat) : Bool :=
  (proc.pieces.getD id default).type = .CONTROL

/-- The replacement character `U+FFFD` (Go `utf8.RuneError`). -/
def replacementChar : Char := Char.ofNat 65533

/-- Go `utf8.DecodeRune`: first rune and its size; `(RuneError, 0)` on
empty input and `(RuneError, 1)` on invalid input. -/
def utf8DecodeRune : List Nat → Char × Nat
  | [] => (replacementChar, 0)
  | b0 :: rest =>
    if b0 < 128 then (Char.ofNat b0, 1)
    else if 194 ≤ b0 ∧ b0 ≤ 223 then
      match rest with
      | b1 :: _ =>
        if 128 ≤ b1 ∧ b1 ≤ 191 then (Char.ofNat ((b0 - 192) * 64 + (b1 - 128)), 2)
        else (replacementChar, 1)
      | [] => (replacementChar, 1)
    else if 224 ≤ b0 ∧ b0 ≤ 239 then
      match rest with
      | b1 :: b2 :: _ =>
        if (if b0 = 224 then 160 ≤ b1 ∧ b1 ≤ 191
            else if b0 = 237 then 128 ≤ b1 ∧ b1 ≤ 159
            else 128 ≤ b1 ∧ b1 ≤ 191) ∧ 128 ≤ b2 ∧ b2 ≤ 191 then
          (Char.ofNat ((b0 - 224) * 4096 + (b1 - 128) * 64 + (b2 - 128)), 3)
        else (replacementChar, 1)
      | _ => (replacementChar, 1)
    else if 240 ≤ b0 ∧ b0 ≤ 244 then
      match rest with
      | b1 :: b2 :: b3 :: _ =>
        if (if b0 = 240 then 144 ≤ b1 ∧ b1 ≤ 191
            else if b0 = 244 then 128 ≤ b1 ∧ b1 ≤ 143
            else 128 ≤ b1 ∧ b1 ≤ 191) ∧ 128 ≤ b2 ∧ b2 ≤ 191 ∧ 128 ≤ b3 ∧ b3 ≤ 191 then
          (Char.ofNat ((b0 - 240) * 262144 + (b1 - 128) * 4096 + (b2 - 128) * 64 +
            (b3 - 128)), 4)
        else (replacementChar, 1)
      | _ => (replacementChar, 1)
    else (replacementChar, 1)

/-- The byte-run re-decoding loop of `Decode` (`DecodeRune`/`WriteRune`
until the buffer is empty). -/
def utf8DecodeBytes : Nat → List Nat → List Char
  | 0, _ => []
  | _, [] => []
  | fuel + 1, bytes =>
    (utf8DecodeRune bytes).1 :: utf8DecodeBytes fuel (bytes.drop (utf8DecodeRune bytes).2)

/-- The outer loop of `Decode`: gather the maximal run of byte IDs,
reassemble and UTF-8-decode it, then emit one non-byte ID (CONTROL IDs are
dropped, the UNKNOWN ID prints `unk_surface`, others print their piece
text with sentinels turned back into spaces). -/
def decodeLoop (proc : Processor) : Nat → List Nat → List Char
  | 0, _ => []
  | fuel + 1, ids =>
    let byteRun := ids.takeWhile (fun id => proc.isByteID id)
    let decoded := utf8DecodeBytes
      (byteRun.map (fun id => (alookup proc.idToByte id).getD 0)).length
      (byteRun.map (fun id => (alookup proc.idToByte id).getD 0))
    match ids.drop byteRun.length with
    | [] => decoded
    | id :: rest2 =>
      decoded ++
        (if proc.isControlID id then []
         else if id = proc.unknownID then proc.unkSurface
         else replaceSeparatorsBySpace (proc.pieces.getD id default).piece) ++
        decodeLoop proc fuel rest2

/-- `Processor.Decode`. -/
def Processor.Decode (proc : Processor) (ids : List Nat) : List Char :=
  decodeLoop proc (ids.length + 1) ids

/-- `DecodeTokens`. -/
def Processor.DecodeTokens (proc : Processor) (tokens : List SpmToken) : List Char :=
  proc.Decode (tokens.map SpmToken.id)

/-! ## Concrete models for counterexamples and witnesses -/

def hexDigitChar (n : Nat) : Char :=
  if n < 10 then Char.ofNat (48 + n) else Char.ofNat (65 + n - 10)

/-- The `<0xHH>` surface form of a byte piece. -/
def bytePieceName (b : Nat) : List Char :=
  ['<', '0', 'x', hexDigitChar (b / 16), hexDigitChar (b % 16), '>']

/-- A model with one UNKNOWN piece and all 256 byte pieces and nothing
else: every text is encoded purely through byte-fallback. -/
def pureByteModel : ModelProto where
  pieces := ⟨['<', 'u', 'n', 'k', '>'], 0, .UNKNOWN⟩ ::
    (List.range 256).map (fun b => ⟨bytePieceName b, 0, .BYTE⟩)
  modelTypeIsBPE := true
  byteFallback := true
  addDummyPrefix := false
  removeExtraWhitespaces := false
  unkSurface := ['?']

instance : Inhabited Processor :=
  ⟨⟨[], false, [], [], [], 0, ⟨.mk [] false⟩, [], [], 0⟩⟩

/-- The processor loaded from `pureByteModel`. -/
def pureByteProc : Processor :=
  match NewProcessor pureByteModel with
  | .ok p => p
  | .error _ => default

/-- A model with a single UNKNOWN piece and byte-fallback off. -/
def unkOnlyModel : ModelProto where
  pieces := [⟨['<', 'u', 'n', 'k', '>'], 0, .UNKNOWN⟩]
  modelTypeIsBPE := true
  byteFallback := false
  addDummyPrefix := false
  removeExtraWhitespaces := false
  unkSurface := ['?']

def unkOnlyProc : Processor :=
  match NewProcessor unkOnlyModel with
  | .ok p => p
  | .error _ => default

/-! ## C6: encoding the empty string -/

/-- C6 counterexample: under a valid loaded model with byte-fallback
disabled, SPM `Encode` of the empty string yields one UNKNOWN token, not
zero tokens: the segmentation loop always runs once, and for empty text
`utf8.DecodeRuneInString` consumes zero bytes, leaving one empty symbol
that is emitted as a single UNKNOWN token. -/
theorem spm_encode_empty_counterexample :
    NewProcessor unkOnlyModel = .ok unkOnlyProc
    ∧ unkOnlyProc.Encode [] = some [⟨0, []⟩]
    ∧ ((unkOnlyProc.Encode []).getD []).length = 1 :=
  ⟨rfl, rfl, rfl⟩

/-- C6 amended: encoding the empty string yields zero tokens for the BPE
engine whenever the pre-tokenization pattern produces no chunks on empty
input (true of all five built-in patterns, whose alternatives each consume
at least one character), and for the SPM engine whenever byte-fallback is
enabled and the empty string is not itself a piece surface. -/
theorem encode_empty_yields_zero_tokens :
    (∀ enc : Encoder, enc.splitMatches [] = [] → Encoder.encodeOrdinary enc [] = [])
    ∧ (∀ (mp : ModelProto) (proc : Processor), NewProcessor mp = .ok proc →
        proc.byteFallback = true → alookup proc.reserved [] = none →
        alookup proc.piecesMap [] = none → proc.Encode [] = some []) := by
  constructor
  · intro enc hsplit
    rw [Encoder.encodeOrdinary, hsplit]
    rfl
  · intro mp proc hload hbf hres hpm
    have hseg : proc.segment (spmNormalize []) = [⟨-1, -1, false, []⟩] := rfl
    simp only [Processor.Encode, hseg]
    have hrun : runMergeLoop proc (3 * [(⟨-1, -1, false, []⟩ : symListElem)].length)
        (initEncodeState proc [⟨-1, -1, false, []⟩]) =
        some (initEncodeState proc [⟨-1, -1, false, []⟩]) := rfl
    simp only [hrun]
    have hmat : materializeLoop (initEncodeState proc [⟨-1, -1, false, []⟩]).symList
        ((initEncodeState proc [⟨-1, -1, false, []⟩]).symList.length + 1) 0 = [[]] := rfl
    rw [if_neg (by decide), Option.map_some']
    rw [hmat]
    simp only [Processor.symbolsToTokens, List.flatMap_cons, List.flatMap_nil,
      Processor.symbolToID, hres, hpm, hbf]
    simp [strBytes]

theorem encode_empty_yields_zero_tokens_witness :
    Encoder.encodeOrdinary exEncoder [] = [] ∧ pureByteProc.Encode [] = some [] :=
  ⟨encode_empty_yields_zero_tokens.1 exEncoder rfl,
   encode_empty_yields_zero_tokens.2 pureByteModel pureByteProc rfl rfl rfl rfl⟩

/-! ## C1 counterexample: the byte-fallback round trip loses spaces -/

/-- C1 counterexample: with byte-fallback enabled and a model with no
dictionary coverage at all, `Decode (Encode " ")` is the whitespace
sentinel `▁`, not `" "`: normalization turns the space into the sentinel,
byte-fallback emits the sentinel's three UTF-8 bytes, and the byte-run
decoder reassembles them without translating the sentinel back. -/
theorem spm_roundtrip_counterexample :
    NewProcessor pureByteModel = .ok pureByteProc
    ∧ pureByteProc.byteFallback = true
    ∧ (pureByteProc.Encode [' ']).map
        (fun ts => pureByteProc.Decode (ts.map SpmToken.id)) = some [whitespaceSep]
    ∧ whitespaceSep ≠ ' ' :=
  ⟨rfl, rfl, rfl, by decide⟩

/-! ## C3: the stale-candidate branch of the merge loop -/

/-- C3 amended: popping a stale candidate discards it, decrements the
dead-entry counter (`mergeQueueDead--`; the counter is incremented when a
merge is applied, estimating stale entries still queued), and leaves the
symbol list and the live-symbol count unchanged. -/
theorem spm_stale_candidate_discarded (proc : Processor) (s : EncodeState)
    (candidate : mergeCandidate) (q1 : priorityQueue mergeCandidate)
    (hpop : s.queue.PopMax = some (candidate, q1))
    (hdead : candidateIsDead s.symList candidate = true) :
    encodeStep proc s = some { s with queue := q1, dead := s.dead - 1 } := by
  rw [encodeStep, hpop]
  simp [hdead]

/-- A state whose queue holds one stale candidate (its right node's text
is already empty) and whose dead counter is 5. -/
def staleState : EncodeState where
  symList := [⟨-1, 1, false, ['a', 'b']⟩, ⟨0, -1, false, []⟩]
  nTokens := 2
  queue := { cmp := spmCandidateCmp, items := [default, ⟨0, 1, 2, 0⟩] }
  dead := 5

/-- C3 counterexample: on discarding a stale candidate the engine
decrements the dead-entry counter (5 becomes 4); the claim's "increments"
would require 6. -/
theorem spm_stale_candidate_decrements :
    (encodeStep unkOnlyProc staleState).map EncodeState.dead = some 4
    ∧ staleState.dead = 5 :=
  ⟨rfl, rfl⟩

theorem spm_stale_candidate_discarded_witness :
    (encodeStep unkOnlyProc staleState).map EncodeState.dead = some (staleState.dead - 1)
    ∧ (encodeStep unkOnlyProc staleState).map EncodeState.symList = some staleState.symList
    ∧ (encodeStep unkOnlyProc staleState).map EncodeState.nTokens = some staleState.nTokens := by
  rw [spm_stale_candidate_discarded unkOnlyProc staleState ⟨0, 1, 2, 0⟩
    { cmp := spmCandidateCmp, items := [default] } rfl rfl]
  exact ⟨rfl, rfl, rfl⟩

/-! ## Byte-length and UTF-8 basics -/

theorem utf8EncodeChar_ne_nil (c : Char) : utf8EncodeChar c ≠ [] := by
  rw [utf8EncodeChar]
  split
  · simp
  · split
    · simp
    · split <;> simp

theorem strBytes_append (s t : List Char) :
    strBytes (s ++ t) = strBytes s ++ strBytes t := by
  simp [strBytes]

theorem byteLen_append (s t : List Char) : byteLen (s ++ t) = byteLen s + byteLen t := by
  simp [byteLen, strBytes_append]

theorem byteLen_pos (s : List Char) (h : s ≠ []) : 0 < byteLen s := by
  cases s with
  | nil => exact absurd rfl h
  | cons c rest =>
    have hb : strBytes (c :: rest) = utf8EncodeChar c ++ strBytes rest := rfl
    rw [byteLen, hb, List.length_append]
    have h1 := utf8EncodeChar_ne_nil c
    have h2 : 0 < (utf8EncodeChar c).length := List.length_pos.mpr h1
    omega

theorem byteLen_eq_zero_iff (s : List Char) : byteLen s = 0 ↔ s = [] := by
  constructor
  · intro h
    by_contra hne
    have := byteLen_pos s hne
    omega
  · intro h
    subst h
    rfl

/-! ## Trie correctness -/

/-- Whether a word is a member of the trie. -/
def TrieNode.holds : TrieNode → List Char → Bool
  | node, [] => node.final
  | node, c :: rest =>
    match alookup node.children c with
    | some child => child.holds rest
    | none => false

theorem alookup_nil {α β : Type} [DecidableEq α] (k : α) :
    alookup ([] : List (α × β)) k = none := rfl
theorem alookup_cons {α β : Type} [DecidableEq α] (p : α × β) (rest : List (α × β))
    (k : α) : alookup (p :: rest) k = if p.1 = k then some p.2 else alookup rest k := by
  by_cases h : p.1 = k <;> simp [alookup, List.find?_cons, h]

theorem alookup_updateAssoc {α β : Type} [DecidableEq α] (m : List (α × β)) (k : α)
    (v : β) (k' : α) :
    alookup (updateAssoc m k v) k' =
      if k = k' then (alookup m k').map (fun _ => v) else alookup m k' := by
  induction m with
  | nil => by_cases h : k = k' <;> simp [updateAssoc, alookup_nil, h]
  | cons p rest ih =>
    rcases p with ⟨pk, pv⟩
    simp only [updateAssoc, List.map_cons] at ih ⊢
    by_cases hpk : pk = k
    · subst hpk
      rw [if_pos rfl, alookup_cons, alookup_cons]
      by_cases hkk : pk = k'
      · simp [hkk, ih]
      · simp [hkk, ih]
    · rw [if_neg hpk, alookup_cons, alookup_cons]
      by_cases hpk' : pk = k'
      · have hne : ¬(k = k') := fun h => hpk (h ▸ hpk')
        simp [hpk', hne]
      · simp [hpk', ih]

theorem alookup_append {α β : Type} [DecidableEq α] (m1 m2 : List (α × β)) (k : α) :
    alookup (m1 ++ m2) k =
      match alookup m1 k with
      | some v => some v
      | none => alookup m2 k := by
  induction m1 with
  | nil => simp [alookup_nil]
  | cons p rest ih =>
    by_cases hp : p.1 = k
    · simp [List.cons_append, alookup_cons, hp]
    · simp only [List.cons_append, alookup_cons, if_neg hp]
      exact ih


theorem TrieNode.holds_empty (v : List Char) :
    TrieNode.holds (.mk [] false) v = false := by
  cases v with
  | nil => rfl
  | cons c rest => simp [TrieNode.holds, TrieNode.children, alookup_nil]

theorem TrieNode.holds_add : ∀ (w : List Char) (t : TrieNode) (v : List Char),
    TrieNode.holds (t.add w) v = true ↔ v = w ∨ TrieNode.holds t v = true := by
  intro w
  induction w with
  | nil =>
    intro t v
    cases t with
    | mk ch fin =>
      cases v with
      | nil => simp [TrieNode.add, TrieNode.holds, TrieNode.final]
      | cons d vrest =>
        simp only [TrieNode.add, TrieNode.holds, TrieNode.children]
        constructor
        · intro h
          exact .inr h
        · intro h
          rcases h with h | h
          · cases h
          · exact h
  | cons c wrest ih =>
    intro t v
    cases t with
    | mk ch fin =>
      rw [TrieNode.add]
      cases hlk : alookup ch c with
      | some child =>
        cases v with
        | nil =>
          simp only [TrieNode.holds, TrieNode.final]
          constructor
          · intro h
            exact .inr h
          · intro h
            rcases h with h | h
            · cases h
            · exact h
        | cons d vrest =>
          simp only [TrieNode.holds, TrieNode.children, alookup_updateAssoc, hlk]
          by_cases hdc : c = d
          · subst hdc
            rw [if_pos rfl, hlk]
            simp only [Option.map_some']
            rw [ih child vrest]
            constructor
            · intro h
              rcases h with h | h
              · exact .inl (by rw [h])
              · exact .inr h
            · intro h
              rcases h with h | h
              · rw [List.cons_eq_cons] at h
                exact .inl h.2
              · exact .inr h
          · rw [if_neg hdc]
            constructor
            · intro h
              exact .inr h
            · intro h
              rcases h with h | h
              · rw [List.cons_eq_cons] at h
                exact absurd h.1.symm hdc
              · exact h
      | none =>
        cases v with
        | nil =>
          simp only [TrieNode.holds, TrieNode.final]
          constructor
          · intro h
            exact .inr h
          · intro h
            rcases h with h | h
            · cases h
            · exact h
        | cons d vrest =>
          simp only [TrieNode.holds, TrieNode.children, alookup_append]
          cases halk : alookup ch d with
          | some child2 =>
            simp only []
            constructor
            · intro h
              exact .inr h
            · intro h
              rcases h with h | h
              · rw [List.cons_eq_cons] at h
                obtain ⟨h1, h2⟩ := h
                subst h1
                rw [halk] at hlk
                cases hlk
              · exact h
          | none =>
            simp only []
            by_cases hdc : c = d
            · subst hdc
              simp only [alookup_cons, if_pos rfl, if_true]
              rw [ih (.mk [] false) vrest, TrieNode.holds_empty]
              constructor
              · intro h
                rcases h with h | h
                · exact .inl (by rw [h])
                · cases h
              · intro h
                rcases h with h | h
                · rw [List.cons_eq_cons] at h
                  exact .inl h.2
                · cases h
            · have hnone : alookup [(c, TrieNode.add (.mk [] false) wrest)] d = none := by
                simp [alookup_cons, alookup_nil, hdc]
              rw [hnone]
              constructor
              · intro h
                exact .inr h
              · intro h
                rcases h with h | h
                · rw [List.cons_eq_cons] at h
                  exact absurd h.1.symm hdc
                · exact h

/-- The walk of `findPrefixLen` returns 0 or the length of a prefix that
is a member of the trie. -/
theorem TrieNode.walk_spec : ∀ (text : List Char) (t : TrieNode) (i maxLen : Nat),
    TrieNode.walk t text i maxLen = maxLen ∨
    ∃ j, j < text.length ∧ TrieNode.walk t text i maxLen = i + j + 1 ∧
      t.holds (text.take (j + 1)) = true := by
  intro text
  induction text with
  | nil => intro t i maxLen; exact .inl rfl
  | cons c rest ih =>
    intro t i maxLen
    cases hlk : alookup t.children c with
    | none =>
      left
      rw [TrieNode.walk, hlk]
    | some child =>
      have hwalk : TrieNode.walk t (c :: rest) i maxLen =
          child.walk rest (i + 1) (if child.final then i + 1 else maxLen) := by
        rw [TrieNode.walk, hlk]
      rcases ih child (i + 1) (if child.final then i + 1 else maxLen) with
        h | ⟨j, hj, heq, hholds⟩
      · by_cases hf : child.final
        · right
          refine ⟨0, by simp, ?_, ?_⟩
          · rw [hwalk, h]
            simp [hf]
          · simp [TrieNode.holds, hlk, hf]
        · left
          rw [hwalk, h]
          simp [hf]
      · right
        refine ⟨j + 1, by simp; omega, by rw [hwalk, heq]; omega, ?_⟩
        rw [List.take_succ_cons]
        simp only [TrieNode.holds, hlk]
        exact hholds

theorem holds_foldl_add (vocab : List (List Char)) :
    ∀ (t : TrieNode) (v : List Char),
      TrieNode.holds (vocab.foldl (fun t w => t.add w) t) v = true ↔
        v ∈ vocab ∨ TrieNode.holds t v = true := by
  induction vocab with
  | nil =>
    intro t v
    simp
  | cons w ws ih =>
    intro t v
    rw [List.foldl_cons, ih, TrieNode.holds_add]
    constructor
    · intro h
      rcases h with h | h | h
      · exact .inl (by simp [h])
      · exact .inl (by simp [h])
      · exact .inr h
    · intro h
      rcases h with h | h
      · rcases List.mem_cons.1 h with rfl | h
        · exact .inr (.inl rfl)
        · exact .inl h
      · exact .inr (.inr h)

/-- `findPrefixLen` returns 0 or the length of a prefix of the text that
is a vocabulary member. -/
theorem findPrefixLen_spec (vocab : List (List Char)) (text : List Char) :
    (newPrefixMatcher vocab).findPrefixLen text = 0 ∨
    ∃ k, 0 < k ∧ k ≤ text.length ∧ (newPrefixMatcher vocab).findPrefixLen text = k ∧
      text.take k ∈ vocab := by
  rcases TrieNode.walk_spec text (newPrefixMatcher vocab).root 0 0 with h | ⟨j, hj, heq, hh⟩
  · left
    exact h
  · right
    refine ⟨j + 1, by omega, by omega, ?_, ?_⟩
    · rw [prefixMatcher.findPrefixLen, heq]
      omega
    · have hmem := (holds_foldl_add vocab (.mk [] false) (text.take (j + 1))).1 hh
      rcases hmem with h | h
      · exact h
      · rw [TrieNode.holds_empty] at h
        cases h

/-! ## Well-formedness of loaded processors -/

/-- Facts `NewProcessor` guarantees about the derived tables, used by the
merge-loop and round-trip proofs. -/
structure ProcWF (proc : Processor) : Prop where
  piecesMapWF : ∀ k id, alookup proc.piecesMap k = some id →
    id < proc.pieces.length ∧ (proc.pieces.getD id default).piece = k ∧
    byteLen k ≤ proc.maxPieceLength ∧
    ((proc.pieces.getD id default).type = .NORMAL ∨
      (proc.pieces.getD id default).type = .USER_DEFINED ∨
      (proc.pieces.getD id default).type = .UNUSED)
  reservedWF : ∀ k id, alookup proc.reserved k = some id →
    id < proc.pieces.length ∧ (proc.pieces.getD id default).piece = k ∧
    ((proc.pieces.getD id default).type = .UNKNOWN ∨
      (proc.pieces.getD id default).type = .CONTROL ∨
      (proc.pieces.getD id default).type = .BYTE)
  unknownWF : proc.unknownID < proc.pieces.length ∧
    (proc.pieces.getD proc.unknownID default).type = .UNKNOWN
  byteTokenWF : ∀ b t, alookup proc.byte2Token b = some t →
    t.id < proc.pieces.length ∧ (proc.pieces.getD t.id default).type = .BYTE ∧
    alookup proc.idToByte t.id = some b ∧ b < 256
  idToByteWF : ∀ i b, alookup proc.idToByte i = some b →
    (proc.pieces.getD i default).type = .BYTE ∧ b < 256
  byteTotal : proc.byteFallback = true → ∀ b, b < 256 →
    (alookup proc.byte2Token b).isSome
  userDefinedWF : ∀ text k, proc.userDefinedMatcher.findPrefixLen text = k → 0 < k →
    k ≤ text.length ∧ (alookup proc.piecesMap (text.take k)).isSome

/-- Invariant of `NewProcessor`'s piece loop after the first `n` pieces. -/
structure LoadInvN (P : List SentencePiece) (n : Nat) (st : LoadState) : Prop where
  pm : ∀ k id, alookup st.piecesMap k = some id →
    id < n ∧ (P.getD id default).piece = k ∧ byteLen k ≤ st.maxPieceLength ∧
    ((P.getD id default).type = .NORMAL ∨ (P.getD id default).type = .USER_DEFINED ∨
      (P.getD id default).type = .UNUSED)
  rs : ∀ k id, alookup st.reserved k = some id →
    id < n ∧ (P.getD id default).piece = k ∧
    ((P.getD id default).type = .UNKNOWN ∨ (P.getD id default).type = .CONTROL ∨
      (P.getD id default).type = .BYTE)
  unk : 0 ≤ st.unkID → st.unkID < (n : Int) ∧ (P.getD st.unkID.toNat default).type = .UNKNOWN
  b2t : ∀ b t, alookup st.byte2Token b = some t →
    t.id < n ∧ (P.getD t.id default).type = .BYTE ∧ alookup st.idToByte t.id = some b ∧
    b < 256
  i2b : ∀ i b, alookup st.idToByte i = some b → i < n ∧ (P.getD i default).type = .BYTE ∧
    b < 256
  ud : ∀ w ∈ st.userDefined, (alookup st.piecesMap w).isSome
  nbound : n ≤ P.length

theorem alookup_cons_isSome {α β : Type} [DecidableEq α] (p : α × β) (m : List (α × β))
    (k : α) (h : (alookup m k).isSome) : (alookup (p :: m) k).isSome := by
  rw [alookup_cons]
  split <;> simp_all

theorem processPiece_inv (P : List SentencePiece) (bf : Bool) (n : Nat)
    (p : SentencePiece) (st st' : LoadState) (hp : P.getD n default = p)
    (hn : n < P.length) (hinv : LoadInvN P n st)
    (hstep : processPiece bf st (n, p) = .ok st') : LoadInvN P (n + 1) st' := by
  obtain ⟨pm, rs, unk, b2t, i2b, ud, nbound⟩ := hinv
  cases htype : p.type with
  | NORMAL =>
    have heq : st' = { st with
        piecesMap := (p.piece, n) :: st.piecesMap
        maxPieceLength := max st.maxPieceLength (byteLen p.piece) } := by
      rw [processPiece] at hstep
      simp [htype] at hstep
      exact hstep.symm
    subst heq
    refine ⟨?_, ?_, ?_, ?_, ?_, ?_, by (try dsimp only); omega⟩
    · intro k id hlk
      (try dsimp only at hlk); rw [alookup_cons] at hlk
      by_cases hk : p.piece = k
      · simp only [hk, if_pos rfl] at hlk
        cases hlk
        exact ⟨by (try dsimp only); omega, by rw [hp, hk], by rw [← hk]; (try dsimp only); omega, by rw [hp]; exact .inl htype⟩
      · rw [if_neg hk] at hlk
        obtain ⟨h1, h2, h3, h4⟩ := pm k id hlk
        exact ⟨by (try dsimp only); omega, h2, by (try dsimp only); omega, h4⟩
    · intro k id hlk
      obtain ⟨h1, h2, h3⟩ := rs k id hlk
      exact ⟨by (try dsimp only); omega, h2, h3⟩
    · intro h
      obtain ⟨h1, h2⟩ := unk h
      exact ⟨by (try dsimp only); omega, h2⟩
    · intro b t hlk
      obtain ⟨h1, h2, h3, h4⟩ := b2t b t hlk
      exact ⟨by (try dsimp only); omega, h2, h3, h4⟩
    · intro i b hlk
      obtain ⟨h1, h2, h3⟩ := i2b i b hlk
      exact ⟨by (try dsimp only); omega, h2, h3⟩
    · intro w hw
      exact alookup_cons_isSome _ _ _ (ud w hw)
  | UNUSED =>
    have heq : st' = { st with
        piecesMap := (p.piece, n) :: st.piecesMap
        maxPieceLength := max st.maxPieceLength (byteLen p.piece) } := by
      rw [processPiece] at hstep
      simp [htype] at hstep
      exact hstep.symm
    subst heq
    refine ⟨?_, ?_, ?_, ?_, ?_, ?_, by (try dsimp only); omega⟩
    · intro k id hlk
      (try dsimp only at hlk); rw [alookup_cons] at hlk
      by_cases hk : p.piece = k
      · simp only [hk, if_pos rfl] at hlk
        cases hlk
        exact ⟨by (try dsimp only); omega, by rw [hp, hk], by rw [← hk]; (try dsimp only); omega,
          by rw [hp]; exact .inr (.inr htype)⟩
      · rw [if_neg hk] at hlk
        obtain ⟨h1, h2, h3, h4⟩ := pm k id hlk
        exact ⟨by (try dsimp only); omega, h2, by (try dsimp only); omega, h4⟩
    · intro k id hlk
      obtain ⟨h1, h2, h3⟩ := rs k id hlk
      exact ⟨by (try dsimp only); omega, h2, h3⟩
    · intro h
      obtain ⟨h1, h2⟩ := unk h
      exact ⟨by (try dsimp only); omega, h2⟩
    · intro b t hlk
      obtain ⟨h1, h2, h3, h4⟩ := b2t b t hlk
      exact ⟨by (try dsimp only); omega, h2, h3, h4⟩
    · intro i b hlk
      obtain ⟨h1, h2, h3⟩ := i2b i b hlk
      exact ⟨by (try dsimp only); omega, h2, h3⟩
    · intro w hw
      exact alookup_cons_isSome _ _ _ (ud w hw)
  | USER_DEFINED =>
    have heq : st' = { st with
        piecesMap := (p.piece, n) :: st.piecesMap
        maxPieceLength := max st.maxPieceLength (byteLen p.piece)
        userDefined := st.userDefined ++ [p.piece] } := by
      rw [processPiece] at hstep
      simp [htype] at hstep
      exact hstep.symm
    subst heq
    refine ⟨?_, ?_, ?_, ?_, ?_, ?_, by (try dsimp only); omega⟩
    · intro k id hlk
      (try dsimp only at hlk); rw [alookup_cons] at hlk
      by_cases hk : p.piece = k
      · simp only [hk, if_pos rfl] at hlk
        cases hlk
        exact ⟨by (try dsimp only); omega, by rw [hp, hk], by rw [← hk]; (try dsimp only); omega,
          by rw [hp]; exact .inr (.inl htype)⟩
      · rw [if_neg hk] at hlk
        obtain ⟨h1, h2, h3, h4⟩ := pm k id hlk
        exact ⟨by (try dsimp only); omega, h2, by (try dsimp only); omega, h4⟩
    · intro k id hlk
      obtain ⟨h1, h2, h3⟩ := rs k id hlk
      exact ⟨by (try dsimp only); omega, h2, h3⟩
    · intro h
      obtain ⟨h1, h2⟩ := unk h
      exact ⟨by (try dsimp only); omega, h2⟩
    · intro b t hlk
      obtain ⟨h1, h2, h3, h4⟩ := b2t b t hlk
      exact ⟨by (try dsimp only); omega, h2, h3, h4⟩
    · intro i b hlk
      obtain ⟨h1, h2, h3⟩ := i2b i b hlk
      exact ⟨by (try dsimp only); omega, h2, h3⟩
    · intro w hw
      rcases List.mem_append.1 hw with h | h
      · exact alookup_cons_isSome _ _ _ (ud w h)
      · have : w = p.piece := by simpa using h
        subst this
        rw [alookup_cons]
        simp
  | UNKNOWN =>
    have hok : ¬ (st.unkID > 0) ∧
        st' = { st with
          reserved := (p.piece, n) :: st.reserved
          unkID := (n : Int) } := by
      rw [processPiece] at hstep
      simp [htype] at hstep
      by_cases hz : st.unkID > 0
      · simp [hz] at hstep
      · simp [hz] at hstep
        exact ⟨hz, hstep.symm⟩
    obtain ⟨hz, heq⟩ := hok
    subst heq
    refine ⟨?_, ?_, ?_, ?_, ?_, ?_, by (try dsimp only); omega⟩
    · intro k id hlk
      obtain ⟨h1, h2, h3, h4⟩ := pm k id hlk
      exact ⟨by (try dsimp only); omega, h2, h3, h4⟩
    · intro k id hlk
      (try dsimp only at hlk); rw [alookup_cons] at hlk
      by_cases hk : p.piece = k
      · simp only [hk, if_pos rfl] at hlk
        cases hlk
        exact ⟨by (try dsimp only); omega, by rw [hp, hk], by rw [hp]; exact .inl htype⟩
      · rw [if_neg hk] at hlk
        obtain ⟨h1, h2, h3⟩ := rs k id hlk
        exact ⟨by (try dsimp only); omega, h2, h3⟩
    · intro _
      refine ⟨by (try dsimp only); omega, ?_⟩
      try dsimp only
      simp only [Int.toNat_natCast]
      rw [hp]
      exact htype
    · intro b t hlk
      obtain ⟨h1, h2, h3, h4⟩ := b2t b t hlk
      exact ⟨by (try dsimp only); omega, h2, h3, h4⟩
    · intro i b hlk
      obtain ⟨h1, h2, h3⟩ := i2b i b hlk
      exact ⟨by (try dsimp only); omega, h2, h3⟩
    · exact ud
  | CONTROL =>
    have heq : st' = { st with reserved := (p.piece, n) :: st.reserved } := by
      rw [processPiece] at hstep
      simp [htype] at hstep
      exact hstep.symm
    subst heq
    refine ⟨?_, ?_, ?_, ?_, ?_, ud, by (try dsimp only); omega⟩
    · intro k id hlk
      obtain ⟨h1, h2, h3, h4⟩ := pm k id hlk
      exact ⟨by (try dsimp only); omega, h2, h3, h4⟩
    · intro k id hlk
      (try dsimp only at hlk); rw [alookup_cons] at hlk
      by_cases hk : p.piece = k
      · simp only [hk, if_pos rfl] at hlk
        cases hlk
        exact ⟨by (try dsimp only); omega, by rw [hp, hk], by rw [hp]; exact .inr (.inl htype)⟩
      · rw [if_neg hk] at hlk
        obtain ⟨h1, h2, h3⟩ := rs k id hlk
        exact ⟨by (try dsimp only); omega, h2, h3⟩
    · intro h
      obtain ⟨h1, h2⟩ := unk h
      exact ⟨by (try dsimp only); omega, h2⟩
    · intro b t hlk
      obtain ⟨h1, h2, h3, h4⟩ := b2t b t hlk
      exact ⟨by (try dsimp only); omega, h2, h3, h4⟩
    · intro i b hlk
      obtain ⟨h1, h2, h3⟩ := i2b i b hlk
      exact ⟨by (try dsimp only); omega, h2, h3⟩
  | BYTE =>
    cases bf with
    | false =>
      rw [processPiece] at hstep
      simp [htype] at hstep
    | true =>
    rw [processPiece] at hstep
    by_cases hr : 0 ≤ convertHexValue p.piece ∧ convertHexValue p.piece < 256
    · simp only [htype] at hstep
      have heq : st' = { st with
          reserved := (p.piece, n) :: st.reserved
          byte2Token := ((convertHexValue p.piece).toNat, ⟨n, p.piece⟩) :: st.byte2Token
          idToByte := (n, (convertHexValue p.piece).toNat) :: st.idToByte } := by
        simp [hr] at hstep
        exact hstep.symm
      subst heq
      refine ⟨?_, ?_, ?_, ?_, ?_, ud, by (try dsimp only); omega⟩
      · intro k id hlk
        obtain ⟨h1, h2, h3, h4⟩ := pm k id hlk
        exact ⟨by (try dsimp only); omega, h2, h3, h4⟩
      · intro k id hlk
        (try dsimp only at hlk); rw [alookup_cons] at hlk
        by_cases hk : p.piece = k
        · simp only [hk, if_pos rfl] at hlk
          cases hlk
          exact ⟨by (try dsimp only); omega, by rw [hp, hk], by rw [hp]; exact .inr (.inr htype)⟩
        · rw [if_neg hk] at hlk
          obtain ⟨h1, h2, h3⟩ := rs k id hlk
          exact ⟨by (try dsimp only); omega, h2, h3⟩
      · intro h
        obtain ⟨h1, h2⟩ := unk h
        exact ⟨by (try dsimp only); omega, h2⟩
      · intro b t hlk
        (try dsimp only at hlk); rw [alookup_cons] at hlk
        by_cases hb : (convertHexValue p.piece).toNat = b
        · simp only [hb, if_pos rfl] at hlk
          cases hlk
          refine ⟨by (try dsimp only); omega, by rw [hp]; exact htype, ?_, by (try dsimp only); omega⟩
          try dsimp only
          rw [alookup_cons]
          simp [hb]
        · rw [if_neg hb] at hlk
          obtain ⟨h1, h2, h3, h4⟩ := b2t b t hlk
          refine ⟨by (try dsimp only); omega, h2, ?_, h4⟩
          try dsimp only
          rw [alookup_cons]
          have hne : ¬ ((n : Nat) = t.id) := by omega
          rw [if_neg hne]
          exact h3
      · intro i b hlk
        (try dsimp only at hlk); rw [alookup_cons] at hlk
        by_cases hi : n = i
        · simp only [hi, if_pos rfl] at hlk
          cases hlk
          exact ⟨by (try dsimp only); omega, by rw [← hi, hp]; exact htype, by (try dsimp only); omega⟩
        · rw [if_neg hi] at hlk
          obtain ⟨h1, h2, h3⟩ := i2b i b hlk
          exact ⟨by (try dsimp only); omega, h2, h3⟩
    · simp only [htype] at hstep
      have heq : st' = { st with reserved := (p.piece, n) :: st.reserved } := by
        simp [hr] at hstep
        exact hstep.symm
      subst heq
      refine ⟨?_, ?_, ?_, ?_, ?_, ud, by (try dsimp only); omega⟩
      · intro k id hlk
        obtain ⟨h1, h2, h3, h4⟩ := pm k id hlk
        exact ⟨by (try dsimp only); omega, h2, h3, h4⟩
      · intro k id hlk
        (try dsimp only at hlk); rw [alookup_cons] at hlk
        by_cases hk : p.piece = k
        · simp only [hk, if_pos rfl] at hlk
          cases hlk
          exact ⟨by (try dsimp only); omega, by rw [hp, hk], by rw [hp]; exact .inr (.inr htype)⟩
        · rw [if_neg hk] at hlk
          obtain ⟨h1, h2, h3⟩ := rs k id hlk
          exact ⟨by (try dsimp only); omega, h2, h3⟩
      · intro h
        obtain ⟨h1, h2⟩ := unk h
        exact ⟨by (try dsimp only); omega, h2⟩
      · intro b t hlk
        obtain ⟨h1, h2, h3, h4⟩ := b2t b t hlk
        exact ⟨by (try dsimp only); omega, h2, h3, h4⟩
      · intro i b hlk
        obtain ⟨h1, h2, h3⟩ := i2b i b hlk
        exact ⟨by (try dsimp only); omega, h2, h3⟩

theorem drop_eq_cons_facts (P : List SentencePiece) (n : Nat) (p : SentencePiece)
    (Q : List SentencePiece) (h : P.drop n = p :: Q) :
    n < P.length ∧ P.getD n default = p ∧ P.drop (n + 1) = Q := by
  have hn : n < P.length := by
    by_contra hc
    rw [List.drop_eq_nil_of_le (by omega)] at h
    cases h
  refine ⟨hn, ?_, ?_⟩
  · rw [List.getD_eq_getElem _ _ hn]
    have h2 : (P.drop n).head? = some p := by rw [h]; rfl
    rw [List.head?_drop] at h2
    rw [List.getElem?_eq_getElem hn] at h2
    exact Option.some.inj h2
  · have h2 : P.drop (n + 1) = (P.drop n).drop 1 := by
      rw [List.drop_drop]
    rw [h2, h]
    rfl

/-- The piece loop of `NewProcessor` preserves the load invariant. -/
theorem foldlM_processPiece_inv (bf : Bool) (P : List SentencePiece) :
    ∀ (Q : List SentencePiece) (n : Nat) (st st' : LoadState),
    P.drop n = Q → LoadInvN P n st →
    List.foldlM (processPiece bf) st (List.enumFrom n Q) = .ok st' →
    LoadInvN P P.length st' := by
  intro Q
  induction Q with
  | nil =>
    intro n st st' hdrop hinv hfold
    have hst : st = st' := by
      have h2 : (Except.ok st : Except LoadError LoadState) = .ok st' := hfold
      exact Except.ok.inj h2
    have hlen : P.length ≤ n := by
      by_contra hc
      have h2 := congrArg List.length hdrop
      rw [List.length_drop] at h2
      simp at h2
      omega
    have hn : n = P.length := Nat.le_antisymm hinv.nbound hlen
    exact hst ▸ hn ▸ hinv
  | cons p Q' ih =>
    intro n st st' hdrop hinv hfold
    obtain ⟨hn, hp, hdrop'⟩ := drop_eq_cons_facts P n p Q' hdrop
    rw [show List.enumFrom n (p :: Q') = (n, p) :: List.enumFrom (n + 1) Q' from rfl,
      List.foldlM] at hfold
    cases hstep : processPiece bf st (n, p) with
    | error e =>
      rw [hstep] at hfold
      simp [Bind.bind, Except.bind] at hfold
    | ok st1 =>
      rw [hstep] at hfold
      simp only [Bind.bind, Except.bind] at hfold
      exact ih (n + 1) st1 st' hdrop'
        (processPiece_inv P bf n p st st1 hp hn hinv hstep) hfold

/-- The load invariant holds initially (empty tables, `unkID = -1`). -/
theorem loadInvN_init (P : List SentencePiece) : LoadInvN P 0 initLoadState := by
  refine ⟨?_, ?_, ?_, ?_, ?_, ?_, Nat.zero_le _⟩
  · intro k id hlk
    simp [initLoadState, alookup_nil] at hlk
  · intro k id hlk
    simp [initLoadState, alookup_nil] at hlk
  · intro h
    exact absurd h (by decide)
  · intro b t hlk
    simp [initLoadState, alookup_nil] at hlk
  · intro i b hlk
    simp [initLoadState, alookup_nil] at hlk
  · intro w hw
    simp [initLoadState] at hw

/-- Every processor built by `NewProcessor` satisfies `ProcWF`, and keeps the
model's pieces, byte-fallback flag and unknown surface. -/
theorem newProcessor_wf (mp : ModelProto) (proc : Processor)
    (h : NewProcessor mp = .ok proc) :
    ProcWF proc ∧ proc.pieces = mp.pieces ∧ proc.byteFallback = mp.byteFallback ∧
      proc.unkSurface = mp.unkSurface := by
  rw [NewProcessor] at h
  split at h
  · cases h
  · split at h
    · cases h
    · cases hfold : mp.pieces.enum.foldlM (processPiece mp.byteFallback) initLoadState with
      | error e =>
        rw [hfold] at h
        simp [Bind.bind, Except.bind] at h
      | ok st =>
        rw [hfold] at h
        simp only [Bind.bind, Except.bind] at h
        split at h
        · cases h
        · split at h
          · cases h
          · rename_i hunk hbyte
            have hinv : LoadInvN mp.pieces mp.pieces.length st := by
              apply foldlM_processPiece_inv mp.byteFallback mp.pieces mp.pieces 0
                initLoadState st rfl (loadInvN_init mp.pieces)
              rw [show List.enumFrom 0 mp.pieces = mp.pieces.enum from
                List.enum_eq_enumFrom.symm]
              exact hfold
            obtain ⟨pm, rs, unk, b2t, i2b, ud, _⟩ := hinv
            cases h
            refine ⟨⟨?_, ?_, ?_, ?_, ?_, ?_, ?_⟩, rfl, rfl, rfl⟩
            · intro k id hlk
              exact pm k id hlk
            · intro k id hlk
              exact rs k id hlk
            · have h0 : (0 : Int) ≤ st.unkID := by omega
              obtain ⟨h1, h2⟩ := unk h0
              exact ⟨by dsimp only; omega, h2⟩
            · intro b t hlk
              exact b2t b t hlk
            · intro i b hlk
              obtain ⟨_, h2, h3⟩ := i2b i b hlk
              exact ⟨h2, h3⟩
            · intro hbf b hb
              have hall : ((List.range 256).all
                  (fun b => (alookup st.byte2Token b).isSome)) = true := by
                by_contra hc
                exact hbyte ⟨hbf, hc⟩
              rw [List.all_eq_true] at hall
              exact hall b (List.mem_range.2 hb)
            · intro text k hfind hkpos
              rcases findPrefixLen_spec st.userDefined text with h0 | ⟨k', hk'1, hk'2, hk'3, hk'4⟩
              · dsimp only at hfind
                rw [hfind] at h0
                omega
              · dsimp only at hfind
                rw [hfind] at hk'3
                subst hk'3
                exact ⟨hk'2, ud _ hk'4⟩

/-! ## C4/C9: the merge-loop invariant

`idxs` lists the live node indices in chain order; every queued candidate
carries a snapshot of the two symbol texts it saw when it was created. -/

/-- A node's text relative to a snapshot: unchanged, emptied, or strictly
longer in bytes (merges only ever empty a node or grow it). -/
def Grown (cur snap : List Char) : Prop :=
  cur = [] ∨ cur = snap ∨ byteLen snap < byteLen cur

/-- How one applied merge may change one node's text. -/
def SymStep (old new : List Char) : Prop :=
  new = old ∨ new = [] ∨ (old ≠ [] ∧ byteLen old < byteLen new)

theorem grown_rfl (s : List Char) : Grown s s := .inr (.inl rfl)

theorem grown_step {cur snap new : List Char} (h1 : Grown cur snap)
    (h2 : SymStep cur new) : Grown new snap := by
  rcases h2 with rfl | rfl | ⟨hne, hlt⟩
  · exact h1
  · exact .inl rfl
  · rcases h1 with rfl | rfl | h
    · exact absurd rfl hne
    · exact .inr (.inr hlt)
    · exact .inr (.inr (by omega))

theorem grown_le {cur snap : List Char} (h : Grown cur snap) (hne : cur ≠ []) :
    byteLen snap ≤ byteLen cur := by
  rcases h with rfl | rfl | h
  · exact absurd rfl hne
  · exact le_refl _
  · omega

theorem grown_eq_of_le {cur snap : List Char} (h : Grown cur snap) (hne : cur ≠ [])
    (hle : byteLen cur ≤ byteLen snap) : cur = snap := by
  rcases h with rfl | rfl | hlt
  · exact absurd rfl hne
  · rfl
  · omega

/-- Consecutive chain nodes: strictly increasing indices joined by
matching `next`/`prev` pointers. -/
def chainEdge (symList : List symListElem) (i j : Nat) : Prop :=
  i < j ∧ (symList.getD i default).next = (j : Int) ∧
    (symList.getD j default).prev = (i : Int)

/-- The linked-list shape the merge loop maintains: `idxs` lists the live
node indices in chain order and their texts concatenate to the
normalized input. -/
structure ChainFacts (N : List Char) (symList : List symListElem)
    (idxs : List Nat) : Prop where
  headZero : idxs.head? = some 0
  chain : List.Chain' (chainEdge symList) idxs
  bounded : ∀ i ∈ idxs, i < symList.length
  lastNext : ∀ i ∈ idxs.getLast?, (symList.getD i default).next = -1
  headPrev : (symList.getD 0 default).prev = -1
  concatN : (idxs.map (fun i => (symList.getD i default).symbol)).flatten = N
  live : N ≠ [] → ∀ i ∈ idxs, (symList.getD i default).symbol ≠ []

/-- What holds of every slice entry of the merge queue: it is the heap's
slot-0 sentinel, or it carries a snapshot of two texts whose concatenation
is in the pieces map, the current texts at its two indices have only grown
or been emptied since the snapshot, and while it is not dead it sits on an
adjacent chain pair. -/
def candFacts (proc : Processor) (symList : List symListElem) (idxs : List Nat)
    (c : mergeCandidate) : Prop :=
  c = default ∨
  ∃ ls rs : List Char,
    c.length = byteLen ls + byteLen rs ∧
    (alookup proc.piecesMap (ls ++ rs)).isSome ∧
    byteLen ls + byteLen rs ≤ proc.maxPieceLength ∧
    Grown (symList.getD c.left default).symbol ls ∧
    Grown (symList.getD c.right default).symbol rs ∧
    (candidateIsDead symList c = false →
      ∃ A B, idxs = A ++ c.left :: c.right :: B)

/-- The merge-loop invariant tying the queue to the linked list. -/
def StateInv (proc : Processor) (N : List Char) (s : EncodeState) : Prop :=
  ∃ idxs : List Nat,
    ChainFacts N s.symList idxs ∧
    ∀ c ∈ s.queue.items, candFacts proc s.symList idxs c

theorem candidateIsDead_default (symList : List symListElem) :
    candidateIsDead symList default = true := by
  rw [candidateIsDead]
  simp only [decide_eq_true_eq]
  by_cases h : (symList.getD (default : mergeCandidate).left default).symbol = []
  · exact .inl h
  · refine .inr (.inr ?_)
    intro heq
    have h2 : (default : mergeCandidate).right = (default : mergeCandidate).left := rfl
    rw [h2] at heq
    have h3 : (default : mergeCandidate).length = 0 := rfl
    rw [h3] at heq
    have hpos := byteLen_pos _ h
    omega

theorem candidateIsDead_eq_false {symList : List symListElem} {c : mergeCandidate}
    (h : candidateIsDead symList c = false) :
    (symList.getD c.left default).symbol ≠ [] ∧
    (symList.getD c.right default).symbol ≠ [] ∧
    byteLen (symList.getD c.left default).symbol +
      byteLen (symList.getD c.right default).symbol = c.length := by
  rw [candidateIsDead] at h
  simp only [decide_eq_false_iff_not] at h
  push_neg at h
  exact h

theorem getD_set_self {T : Type} [Inhabited T] (l : List T) (i : Nat) (v : T)
    (h : i < l.length) : (l.set i v).getD i default = v := by
  rw [List.getD_eq_getElem _ _ (by simpa using h)]
  simp [List.getElem_set_self]

theorem getD_set_ne {T : Type} [Inhabited T] (l : List T) (i j : Nat) (v : T)
    (h : i ≠ j) : (l.set i v).getD j default = l.getD j default := by
  simp [List.getD, List.getElem?_set_ne h]

theorem set_getD_self {T : Type} [Inhabited T] (l : List T) (i : Nat)
    (h : i < l.length) : l.set i (l.getD i default) = l := by
  apply List.ext_getElem
  · simp
  · intro j hj1 hj2
    by_cases hij : i = j
    · subst hij
      rw [List.getElem_set_self, List.getD_eq_getElem _ _ h]
    · rw [List.getElem_set_ne hij]

theorem map_getD_range {T : Type} [Inhabited T] (l : List T) :
    (List.range l.length).map (fun i => l.getD i default) = l := by
  apply List.ext_getElem
  · simp
  · intro i h1 h2
    simp only [List.getElem_map, List.getElem_range]
    exact List.getD_eq_getElem _ _ h2

theorem mergeSymLists_length (symList : List symListElem) (c : mergeCandidate)
    (lS rS : symListElem) (m : List Char) :
    (mergeSymLists symList c lS rS m).length = symList.length := by
  simp only [mergeSymLists]
  split <;> simp

theorem mergeSymLists_getD_left (symList : List symListElem) (c : mergeCandidate)
    (lS rS : symListElem) (m : List Char) (hl : c.left < symList.length)
    (hlr : c.right ≠ c.left) (hnxt : 0 ≤ rS.next → rS.next.toNat ≠ c.left) :
    (mergeSymLists symList c lS rS m).getD c.left default =
      { lS with symbol := m, next := rS.next } := by
  simp only [mergeSymLists]
  split
  · rename_i h0
    rw [getD_set_ne _ _ _ _ hlr, getD_set_ne _ _ _ _ (hnxt h0)]
    exact getD_set_self _ _ _ hl
  · rw [getD_set_ne _ _ _ _ hlr]
    exact getD_set_self _ _ _ hl

theorem mergeSymLists_getD_right (symList : List symListElem) (c : mergeCandidate)
    (lS rS : symListElem) (m : List Char) (hr : c.right < symList.length)
    (hlr : c.left ≠ c.right) (hnxt : 0 ≤ rS.next → rS.next.toNat ≠ c.right) :
    (mergeSymLists symList c lS rS m).getD c.right default =
      { symList.getD c.right default with symbol := [] } := by
  simp only [mergeSymLists]
  split
  · rename_i h0
    rw [getD_set_self _ _ _ (by simpa using hr),
      getD_set_ne _ _ _ _ (hnxt h0), getD_set_ne _ _ _ _ hlr]
  · rw [getD_set_self _ _ _ (by simpa using hr), getD_set_ne _ _ _ _ hlr]

theorem mergeSymLists_getD_other (symList : List symListElem) (c : mergeCandidate)
    (lS rS : symListElem) (m : List Char) (k : Nat) (hkl : c.left ≠ k)
    (hkr : c.right ≠ k) (hknxt : 0 ≤ rS.next → rS.next.toNat ≠ k) :
    (mergeSymLists symList c lS rS m).getD k default = symList.getD k default := by
  simp only [mergeSymLists]
  split
  · rename_i h0
    rw [getD_set_ne _ _ _ _ hkr, getD_set_ne _ _ _ _ (hknxt h0),
      getD_set_ne _ _ _ _ hkl]
  · rw [getD_set_ne _ _ _ _ hkr, getD_set_ne _ _ _ _ hkl]

theorem mergeSymLists_getD_nxt (symList : List symListElem) (c : mergeCandidate)
    (lS rS : symListElem) (m : List Char) (h0 : 0 ≤ rS.next)
    (hnl : c.left ≠ rS.next.toNat) (hnr : c.right ≠ rS.next.toNat)
    (hn : rS.next.toNat < symList.length) :
    (mergeSymLists symList c lS rS m).getD rS.next.toNat default =
      { symList.getD rS.next.toNat default with prev := (c.left : Int) } := by
  simp only [mergeSymLists]
  rw [if_pos h0]
  rw [getD_set_ne _ _ _ _ hnr, getD_set_self _ _ _ (by simpa using hn),
    getD_set_ne _ _ _ _ hnl]

theorem findMerged_some {proc : Processor} {x y : symListElem} {m : List Char}
    {id : Nat} (hwf : ProcWF proc) (h : findMerged proc x y = some (m, id)) :
    alookup proc.piecesMap (x.symbol ++ y.symbol) = some id ∧
    m = x.symbol ++ y.symbol ∧
    byteLen x.symbol + byteLen y.symbol ≤ proc.maxPieceLength := by
  rw [findMerged] at h
  split at h
  · cases h
  · rename_i hlen
    cases hlk : alookup proc.piecesMap (x.symbol ++ y.symbol) with
    | none => rw [hlk] at h; cases h
    | some id2 =>
      rw [hlk] at h
      cases h
      exact ⟨rfl, (hwf.piecesMapWF _ _ hlk).2.1, by omega⟩

theorem findMerged_of_lookup {proc : Processor} {x y : symListElem} {id : Nat}
    (hlk : alookup proc.piecesMap (x.symbol ++ y.symbol) = some id)
    (hlen : byteLen x.symbol + byteLen y.symbol ≤ proc.maxPieceLength) :
    findMerged proc x y = some ((proc.pieces.getD id default).piece, id) := by
  rw [findMerged, if_neg (by omega), hlk]

theorem suggest_mem {proc : Processor} {sl : List symListElem}
    {q : priorityQueue mergeCandidate} {a b : Int} {c : mergeCandidate}
    (hc : c ∈ (suggestNewMergePair proc sl q a b).items) :
    c ∈ q.items ∨
    (¬ a = -1 ∧ ¬ b = -1 ∧ ∃ m id,
      findMerged proc (sl.getD a.toNat default) (sl.getD b.toNat default) =
        some (m, id) ∧
      c = { left := a.toNat, right := b.toNat, length := byteLen m,
            score := (proc.pieces.getD id default).score }) := by
  rw [suggestNewMergePair] at hc
  split at hc
  · exact .inl hc
  · rename_i hcond
    push_neg at hcond
    cases hfm : findMerged proc (sl.getD a.toNat default) (sl.getD b.toNat default) with
    | none => rw [hfm] at hc; exact .inl hc
    | some pr =>
      obtain ⟨m2, id2⟩ := pr
      rw [hfm] at hc
      rcases pq_insert_mem _ _ _ hc with h | rfl
      · exact .inl h
      · refine .inr ⟨hcond.1, hcond.2.1, m2, id2, rfl, rfl⟩

/-- A pair adjacent in a list stays adjacent when a disjoint adjacent pair
is fused (the right node dropped). -/
theorem pair_in_erase {α : Type} :
    ∀ (A2 A B B2 : List α) (x y l r : α),
      A ++ x :: y :: B = A2 ++ l :: r :: B2 →
      x ≠ l → x ≠ r → y ≠ l → y ≠ r →
      ∃ A3 B3, A2 ++ l :: B2 = A3 ++ x :: y :: B3 := by
  intro A2
  induction A2 with
  | nil =>
    intro A B B2 x y l r heq hxl hxr hyl hyr
    cases A with
    | nil =>
      simp only [List.nil_append] at heq
      injection heq with h1 h2
      exact absurd h1 hxl
    | cons a A1 =>
      cases A1 with
      | nil =>
        simp only [List.cons_append, List.nil_append] at heq
        injection heq with h1 h2
        injection h2 with h3 h4
        exact absurd h3 hxr
      | cons a2 A3 =>
        simp only [List.cons_append, List.nil_append] at heq
        injection heq with h1 h2
        injection h2 with h3 h4
        refine ⟨l :: A3, B, ?_⟩
        simp only [List.nil_append, List.cons_append]
        rw [← h4]
  | cons a2 A4 ih =>
    intro A B B2 x y l r heq hxl hxr hyl hyr
    cases A with
    | nil =>
      simp only [List.nil_append, List.cons_append] at heq
      injection heq with h1 h2
      cases A4 with
      | nil =>
        simp only [List.nil_append] at h2
        injection h2 with h3 h4
        exact absurd h3 hyl
      | cons a3 A5 =>
        simp only [List.cons_append] at h2
        injection h2 with h3 h4
        refine ⟨[], A5 ++ l :: B2, ?_⟩
        simp only [List.cons_append, List.nil_append]
        rw [h1, h3]
    | cons a A1 =>
      simp only [List.cons_append] at heq
      injection heq with h1 h2
      obtain ⟨A3, B3, hres⟩ := ih A1 B B2 x y l r h2 hxl hxr hyl hyr
      refine ⟨a2 :: A3, B3, ?_⟩
      simp only [List.cons_append]
      rw [← hres]

/-- Transfer a chain along an edge implication that may use membership,
with the target node taken from the tail. -/
theorem chain_imp_mem_tail {α : Type} {R S : α → α → Prop} :
    ∀ (l : List α), (∀ a ∈ l, ∀ b ∈ l.tail, R a b → S a b) →
      List.Chain' R l → List.Chain' S l := by
  intro l
  induction l with
  | nil =>
    intro _ _
    exact List.chain'_nil
  | cons a l2 ih =>
    intro h hch
    rw [List.chain'_cons'] at hch ⊢
    refine ⟨?_, ?_⟩
    · intro y hy
      exact h a (by simp) y (List.mem_of_mem_head? hy) (hch.1 y hy)
    · refine ih ?_ hch.2
      intro p hp q hq
      exact h p (List.mem_cons_of_mem a hp) q (List.mem_of_mem_tail hq)

theorem materializeLoop_neg (symList : List symListElem) (fuel : Nat) (i : Int)
    (h : i < 0) : materializeLoop symList fuel i = [] := by
  cases fuel with
  | zero => rfl
  | succ f => rw [materializeLoop, if_neg (by omega)]

/-- The materialization walk follows the chain exactly. -/
theorem materializeLoop_chain (symList : List symListElem) :
    ∀ (idxs : List Nat) (fuel : Nat) (i : Nat),
      idxs.head? = some i →
      List.Chain' (chainEdge symList) idxs →
      (∀ x ∈ idxs.getLast?, (symList.getD x default).next = -1) →
      idxs.length ≤ fuel →
      materializeLoop symList fuel (i : Int) =
        idxs.map (fun k => (symList.getD k default).symbol) := by
  intro idxs
  induction idxs with
  | nil =>
    intro fuel i h
    cases h
  | cons x rest ih =>
    intro fuel i hhead hch hlast hlen
    have hx : x = i := by
      injection hhead
    subst hx
    cases fuel with
    | zero => simp at hlen
    | succ f =>
      rw [materializeLoop, if_pos (by exact_mod_cast Nat.zero_le x)]
      rw [Int.toNat_natCast]
      cases rest with
      | nil =>
        have hn : (symList.getD x default).next = -1 := hlast x rfl
        rw [hn, materializeLoop_neg _ _ _ (by omega)]
        rfl
      | cons y rest2 =>
        rw [List.chain'_cons'] at hch
        have hedge : chainEdge symList x y := hch.1 y rfl
        have hrec := ih f y rfl hch.2
          (fun z hz => hlast z (by rw [List.getLast?_cons_cons]; exact hz))
          (by simp only [List.length_cons] at hlen ⊢; omega)
        rw [hedge.2.1, hrec]
        rfl

theorem symbolMatch_pos (proc : Processor) (text : List Char) (h : text ≠ []) :
    1 ≤ (proc.symbolMatch text).1 := by
  rw [Processor.symbolMatch.eq_def]
  split
  · rename_i hgt
    omega
  · cases text with
    | nil => exact absurd rfl h
    | cons c r => simp

/-- Shape of the segmentation loop output: nonempty, symbols concatenate
back to the text, `prev`/`next` point at the neighbouring positions, and
for nonempty text every symbol is nonempty. -/
theorem segmentLoop_spec (proc : Processor) :
    ∀ (fuel : Nat) (text : List Char) (idx : Nat), text.length < fuel →
      segmentLoop proc fuel text idx ≠ [] ∧
      ((segmentLoop proc fuel text idx).map (fun e => e.symbol)).flatten = text ∧
      (∀ j, j < (segmentLoop proc fuel text idx).length →
        ((segmentLoop proc fuel text idx).getD j default).prev =
          (idx : Int) + (j : Int) - 1 ∧
        ((segmentLoop proc fuel text idx).getD j default).next =
          (idx : Int) + (j : Int) + 1) ∧
      (text ≠ [] → ∀ j, j < (segmentLoop proc fuel text idx).length →
        ((segmentLoop proc fuel text idx).getD j default).symbol ≠ []) := by
  intro fuel
  induction fuel with
  | zero =>
    intro text idx h
    omega
  | succ f ih =>
    intro text idx hlen
    rw [segmentLoop]
    split
    · rename_i hguard
      have htake : text.take (proc.symbolMatch text).1 = text := by
        have h2 := List.take_append_drop (proc.symbolMatch text).1 text
        rw [hguard, List.append_nil] at h2
        exact h2
      refine ⟨by simp, by simp [htake], ?_, ?_⟩
      · intro j hj
        simp only [List.length_singleton] at hj
        have hj0 : j = 0 := by omega
        subst hj0
        constructor
        · simp only [List.getD_cons_zero]
          push_cast
          ring
        · simp only [List.getD_cons_zero]
          push_cast
          ring
      · intro htext j hj
        simp only [List.length_singleton] at hj
        have hj0 : j = 0 := by omega
        subst hj0
        simp only [List.getD_cons_zero]
        rw [htake]
        exact htext
    · rename_i hguard
      have htext : text ≠ [] := by
        intro h
        subst h
        simp [List.drop_nil] at hguard
      have hpos := symbolMatch_pos proc text htext
      have hrec : (text.drop (proc.symbolMatch text).1).length < f := by
        rw [List.length_drop]
        have := List.length_pos_of_ne_nil htext
        omega
      obtain ⟨ihne, ihcat, ihlinks, ihlive⟩ := ih (text.drop (proc.symbolMatch text).1) (idx + 1) hrec
      refine ⟨by simp, ?_, ?_, ?_⟩
      · simp only [List.map_cons, List.flatten_cons]
        rw [ihcat]
        exact List.take_append_drop _ text
      · intro j hj
        cases j with
        | zero =>
          constructor
          · simp only [List.getD_cons_zero]
            push_cast
            ring
          · simp only [List.getD_cons_zero]
            push_cast
            ring
        | succ j2 =>
          simp only [List.length_cons] at hj
          have hj2 : j2 < (segmentLoop proc f (text.drop (proc.symbolMatch text).1) (idx + 1)).length := by omega
          obtain ⟨hp, hn⟩ := ihlinks j2 hj2
          constructor
          · rw [List.getD_cons_succ, hp]
            push_cast
            ring
          · rw [List.getD_cons_succ, hn]
            push_cast
            ring
      · intro _ j hj
        cases j with
        | zero =>
          simp only [List.getD_cons_zero]
          intro hnil
          rw [List.take_eq_nil_iff] at hnil
          rcases hnil with h | h
          · omega
          · exact htext h
        | succ j2 =>
          simp only [List.length_cons] at hj
          rw [List.getD_cons_succ]
          exact ihlive hguard j2 (by omega)

/-- The last-element patch of `segment` keeps every symbol and `prev`, and
every `next` except the last. -/
theorem segment_getD (proc : Processor) (text : List Char) (j : Nat) :
    ((proc.segment text).getD j default).symbol =
      ((segmentLoop proc (text.length + 1) text 0).getD j default).symbol ∧
    ((proc.segment text).getD j default).prev =
      ((segmentLoop proc (text.length + 1) text 0).getD j default).prev ∧
    (j ≠ (segmentLoop proc (text.length + 1) text 0).length - 1 →
      ((proc.segment text).getD j default).next =
        ((segmentLoop proc (text.length + 1) text 0).getD j default).next) := by
  have hne := (segmentLoop_spec proc (text.length + 1) text 0 (by omega)).1
  have hlen := List.length_pos_of_ne_nil hne
  simp only [Processor.segment]
  by_cases hj : j = (segmentLoop proc (text.length + 1) text 0).length - 1
  · subst hj
    rw [getD_set_self _ _ _ (by omega)]
    exact ⟨rfl, rfl, fun h => absurd rfl h⟩
  · rw [getD_set_ne _ _ _ _ (fun h => hj h.symm)]
    exact ⟨rfl, rfl, fun _ => rfl⟩

theorem segment_length (proc : Processor) (text : List Char) :
    (proc.segment text).length = (segmentLoop proc (text.length + 1) text 0).length := by
  simp [Processor.segment]

theorem segment_last_next (proc : Processor) (text : List Char) :
    ((proc.segment text).getD ((proc.segment text).length - 1) default).next = -1 := by
  have hne := (segmentLoop_spec proc (text.length + 1) text 0 (by omega)).1
  have hlen := List.length_pos_of_ne_nil hne
  simp only [Processor.segment, List.length_set]
  rw [getD_set_self _ _ _ (by omega)]

/-- The segmented text satisfies the chain facts with all indices live. -/
theorem segment_chainFacts (proc : Processor) (text : List Char) :
    ChainFacts text (proc.segment text) (List.range (proc.segment text).length) := by
  obtain ⟨hne, hcat, hlinks, hlive⟩ :=
    segmentLoop_spec proc (text.length + 1) text 0 (by omega)
  have hlen0 : 0 < (segmentLoop proc (text.length + 1) text 0).length :=
    List.length_pos_of_ne_nil hne
  have hseglen := segment_length proc text
  constructor
  · obtain ⟨m, hm⟩ : ∃ m, (proc.segment text).length = m + 1 :=
      ⟨(proc.segment text).length - 1, by omega⟩
    rw [hm, List.range_succ_eq_map]
    rfl
  · obtain ⟨m, hm⟩ : ∃ m, (proc.segment text).length = m + 1 :=
      ⟨(proc.segment text).length - 1, by omega⟩
    rw [hm]
    rw [List.chain'_range_succ]
    intro k hk
    refine ⟨by omega, ?_, ?_⟩
    · have hnx := (segment_getD proc text k).2.2 (by omega)
      rw [hnx, (hlinks k (by omega)).2]
      push_cast
      ring
    · have hpv := (segment_getD proc text (k + 1)).2.1
      rw [hpv, (hlinks (k + 1) (by omega)).1]
      push_cast
      ring
  · intro i hi
    rw [List.mem_range] at hi
    exact hi
  · intro i hi
    obtain ⟨m, hm⟩ : ∃ m, (proc.segment text).length = m + 1 :=
      ⟨(proc.segment text).length - 1, by omega⟩
    rw [hm, List.range_succ, List.getLast?_append_of_ne_nil _ (by simp)] at hi
    have him : i = m := by
      simp at hi
      omega
    subst him
    have := segment_last_next proc text
    rw [hm] at this
    simpa using this
  · have hpv := (segment_getD proc text 0).2.1
    rw [hpv, (hlinks 0 (by omega)).1]
    ring
  · have hmapc : (List.range (proc.segment text).length).map
        (fun i => ((proc.segment text).getD i default).symbol) =
        (List.range (segmentLoop proc (text.length + 1) text 0).length).map
          (fun i => ((segmentLoop proc (text.length + 1) text 0).getD i default).symbol) := by
      rw [hseglen]
      refine List.map_congr_left ?_
      intro i _
      exact (segment_getD proc text i).1
    rw [hmapc]
    have h1 : (List.range (segmentLoop proc (text.length + 1) text 0).length).map
        (fun i => ((segmentLoop proc (text.length + 1) text 0).getD i default).symbol) =
        (segmentLoop proc (text.length + 1) text 0).map (fun e => e.symbol) := by
      conv_rhs => rw [← map_getD_range (segmentLoop proc (text.length + 1) text 0)]
      rw [List.map_map]
      rfl
    rw [h1]
    exact hcat
  · intro htext i hi
    rw [List.mem_range, hseglen] at hi
    rw [(segment_getD proc text i).1]
    exact hlive htext i hi

/-- Every candidate seeded from the segmented text satisfies the candidate
facts. -/
theorem seed_candFacts (proc : Processor) (hwf : ProcWF proc)
    (sl : List symListElem) :
    ∀ c ∈ (seedQueue proc sl).items, candFacts proc sl (List.range sl.length) c := by
  have hgen : ∀ (L : List Nat), (∀ i ∈ L, 1 ≤ i ∧ i < sl.length) →
      ∀ (q : priorityQueue mergeCandidate),
      (∀ c ∈ q.items, candFacts proc sl (List.range sl.length) c) →
      ∀ c ∈ (L.foldl
        (fun q (i : Nat) => suggestNewMergePair proc sl q ((i : Int) - 1) (i : Int)) q).items,
        candFacts proc sl (List.range sl.length) c := by
    intro L
    induction L with
    | nil =>
      intro _ q hq c hc
      exact hq c hc
    | cons i L2 ih =>
      intro hL q hq c hc
      rw [List.foldl_cons] at hc
      refine ih (fun j hj => hL j (List.mem_cons_of_mem i hj)) _ ?_ c hc
      intro c2 hc2
      rcases suggest_mem hc2 with h | ⟨ha, hb, m, id, hfm, rfl⟩
      · exact hq c2 h
      · obtain ⟨hi1, hi2⟩ := hL i (List.mem_cons_self i L2)
        obtain ⟨hlk, hm, hmax⟩ := findMerged_some hwf hfm
        have htl : ((i : Int) - 1).toNat = i - 1 := by omega
        have htr : ((i : Int)).toNat = i := by omega
        refine .inr ⟨_, _, ?_, ?_, ?_, grown_rfl _, grown_rfl _, fun _ => ?_⟩
        · show byteLen m = _
          rw [hm, byteLen_append]
        · rw [← hm]
          rw [hm, hlk]
          rfl
        · exact hmax
        · show ∃ A B, List.range sl.length =
            A ++ ((i : Int) - 1).toNat :: ((i : Int)).toNat :: B
          rw [htl, htr]
          refine ⟨List.range' 0 (i - 1), List.range' (i + 1) (sl.length - i - 1), ?_⟩
          rw [List.range_eq_range']
          have hsplit : List.range' 0 sl.length =
              List.range' 0 (i - 1) ++ List.range' (i - 1) (sl.length - (i - 1)) := by
            have := List.range'_append 0 (i - 1) (sl.length - (i - 1)) 1
            simp only [Nat.one_mul, Nat.zero_add] at this
            rw [this]
            congr 1
            omega
          rw [hsplit]
          congr 1
          have hk : sl.length - (i - 1) = (sl.length - i - 1) + 1 + 1 := by omega
          rw [hk, List.range'_succ]
          have h1 : i - 1 + 1 = i := by omega
          rw [h1, List.range'_succ]
  intro c hc
  rw [seedQueue] at hc
  refine hgen _ ?_ _ ?_ c hc
  · intro i hi
    rw [List.mem_range'_1] at hi
    omega
  · intro c2 hc2
    rw [newPriorityQueue] at hc2
    simp only [List.mem_singleton] at hc2
    exact .inl hc2

/-- The initial merge-loop state satisfies the invariant. -/
theorem initState_inv (proc : Processor) (hwf : ProcWF proc) (text : List Char) :
    StateInv proc text (initEncodeState proc (proc.segment text)) := by
  refine ⟨List.range (proc.segment text).length, ?_, ?_⟩
  · rw [initEncodeState]
    exact segment_chainFacts proc text
  · intro c hc
    rw [initEncodeState] at hc
    simp only at hc
    exact seed_candFacts proc hwf (proc.segment text) c hc

/-- One applied merge (left node absorbs the right node's text, the chain
skips the right node) preserves the chain facts, changes each node's text
by a `SymStep`, and exposes the data needed for the two newly suggested
pairs. -/
theorem merge_preserves (N : List Char)
    (symList : List symListElem) (A B : List Nat) (c : mergeCandidate)
    (hcf : ChainFacts N symList (A ++ c.left :: c.right :: B))
    (ls rs : List Char)
    (heql : (symList.getD c.left default).symbol = ls)
    (heqr : (symList.getD c.right default).symbol = rs)
    (hlne : ls ≠ []) (hrne : rs ≠ [])
    (m : List Char) (hm : m = ls ++ rs) :
    ChainFacts N (mergeSymLists symList c (symList.getD c.left default)
        (symList.getD c.right default) m) (A ++ c.left :: B) ∧
    (∀ k, SymStep (symList.getD k default).symbol
      ((mergeSymLists symList c (symList.getD c.left default)
        (symList.getD c.right default) m).getD k default).symbol) ∧
    ((mergeSymLists symList c (symList.getD c.left default)
        (symList.getD c.right default) m).getD c.left default).symbol = m ∧
    ((mergeSymLists symList c (symList.getD c.left default)
        (symList.getD c.right default) m).getD c.right default).symbol = [] ∧
    ((symList.getD c.left default).prev = -1 ∨
      ∃ (p : Nat) (A2 : List Nat), (symList.getD c.left default).prev = (p : Int) ∧
        A ++ c.left :: B = A2 ++ p :: c.left :: B) ∧
    ((symList.getD c.right default).next = -1 ∨
      ∃ (y : Nat) (B2 : List Nat), B = y :: B2 ∧
        (symList.getD c.right default).next = (y : Int)) := by
  have hpw : (A ++ c.left :: c.right :: B).Pairwise (· < ·) := by
    have h1 := List.Chain'.imp (fun a b h => h.1) hcf.chain
    exact List.chain'_iff_pairwise.1 h1
  rw [List.pairwise_append] at hpw
  obtain ⟨hpwA, hpwlrB, hpwAX⟩ := hpw
  rw [List.pairwise_cons] at hpwlrB
  obtain ⟨hpwl, hpwrB⟩ := hpwlrB
  rw [List.pairwise_cons] at hpwrB
  obtain ⟨hpwr, hpwB⟩ := hpwrB
  have hlr : c.left < c.right := hpwl c.right (by simp)
  have hbl : c.left < symList.length := hcf.bounded c.left (by simp)
  have hbr : c.right < symList.length := hcf.bounded c.right (by simp)
  have hch := hcf.chain
  rw [List.chain'_append] at hch
  obtain ⟨hchA, hchlrB, hlinkAl⟩ := hch
  rw [List.chain'_cons'] at hchlrB
  obtain ⟨hheadlr, hchrB⟩ := hchlrB
  rw [List.chain'_cons'] at hchrB
  obtain ⟨hheadrB, hchB⟩ := hchrB
  have hnext_r : ((symList.getD c.right default).next = -1 ∧ B = []) ∨
      ∃ y B2, B = y :: B2 ∧ (symList.getD c.right default).next = (y : Int) ∧
        c.right < y ∧ y < symList.length := by
    cases B with
    | nil =>
      refine .inl ⟨?_, rfl⟩
      refine hcf.lastNext c.right ?_
      rw [List.getLast?_append_of_ne_nil _ (by simp)]
      rfl
    | cons y B2 =>
      have hedge : chainEdge symList c.right y := hheadrB y rfl
      exact .inr ⟨y, B2, rfl, hedge.2.1, hedge.1,
        hcf.bounded y (by simp)⟩
  have hnf : 0 ≤ (symList.getD c.right default).next →
      (symList.getD c.right default).next.toNat ≠ c.left ∧
      (symList.getD c.right default).next.toNat ≠ c.right ∧
      (symList.getD c.right default).next.toNat < symList.length ∧
      c.right < (symList.getD c.right default).next.toNat ∧
      ∃ y B2, B = y :: B2 ∧ (symList.getD c.right default).next.toNat = y := by
    intro h0
    rcases hnext_r with ⟨hneg, _⟩ | ⟨y, B2, hB, hny, hry, hylen⟩
    · rw [hneg] at h0
      omega
    · rw [hny, Int.toNat_natCast]
      exact ⟨by omega, by omega, hylen, hry, y, B2, hB, rfl⟩
  set sl3 := mergeSymLists symList c (symList.getD c.left default)
      (symList.getD c.right default) m with hsl3
  have hgl3 : sl3.getD c.left default =
      { symList.getD c.left default with
        symbol := m
        next := (symList.getD c.right default).next } := by
    rw [hsl3]
    exact mergeSymLists_getD_left _ _ _ _ _ hbl (by omega) (fun h0 => (hnf h0).1)
  have hgr3 : sl3.getD c.right default =
      { symList.getD c.right default with symbol := [] } := by
    rw [hsl3]
    exact mergeSymLists_getD_right _ _ _ _ _ hbr (by omega) (fun h0 => (hnf h0).2.1)
  have hgo3 : ∀ k, c.left ≠ k → c.right ≠ k →
      (0 ≤ (symList.getD c.right default).next →
        (symList.getD c.right default).next.toNat ≠ k) →
      sl3.getD k default = symList.getD k default := by
    intro k h1 h2 h3
    rw [hsl3]
    exact mergeSymLists_getD_other _ _ _ _ _ k h1 h2 h3
  have hgn3 : 0 ≤ (symList.getD c.right default).next →
      sl3.getD (symList.getD c.right default).next.toNat default =
        { symList.getD (symList.getD c.right default).next.toNat default with
          prev := (c.left : Int) } := by
    intro h0
    rw [hsl3]
    exact mergeSymLists_getD_nxt _ _ _ _ _ h0 (fun h => (hnf h0).1 h.symm)
      (fun h => (hnf h0).2.1 h.symm) (hnf h0).2.2.1
  have hlen3 : sl3.length = symList.length := by
    rw [hsl3]
    exact mergeSymLists_length _ _ _ _ _
  have hsymA : ∀ a ∈ A, (sl3.getD a default).symbol =
      (symList.getD a default).symbol := by
    intro a ha
    have hal : a < c.left := hpwAX a ha c.left (by simp)
    rw [hgo3 a (by omega) (by omega) ?_]
    intro h0
    have := (hnf h0).2.2.2.1
    omega
  have hsymB : ∀ b ∈ B, (sl3.getD b default).symbol =
      (symList.getD b default).symbol := by
    intro b hb
    have hrb : c.right < b := hpwr b hb
    by_cases h0 : 0 ≤ (symList.getD c.right default).next
    · by_cases hbn : (symList.getD c.right default).next.toNat = b
      · rw [← hbn, hgn3 h0]
      · rw [hgo3 b (by omega) (by omega) (fun _ => hbn)]
    · rw [hgo3 b (by omega) (by omega) (fun hc => absurd hc h0)]
  have hnextB : ∀ b ∈ B, (sl3.getD b default).next =
      (symList.getD b default).next := by
    intro b hb
    have hrb : c.right < b := hpwr b hb
    by_cases h0 : 0 ≤ (symList.getD c.right default).next
    · by_cases hbn : (symList.getD c.right default).next.toNat = b
      · rw [← hbn, hgn3 h0]
      · rw [hgo3 b (by omega) (by omega) (fun _ => hbn)]
    · rw [hgo3 b (by omega) (by omega) (fun hc => absurd hc h0)]
  have hsymb_l : (sl3.getD c.left default).symbol = m := by
    rw [hgl3]
  have hsymb_r : (sl3.getD c.right default).symbol = [] := by
    rw [hgr3]
  have hprev_l : ((symList.getD c.left default).prev = -1 ∨
      ∃ (p : Nat) (A2 : List Nat), (symList.getD c.left default).prev = (p : Int) ∧
        A ++ c.left :: B = A2 ++ p :: c.left :: B) := by
    rcases A.eq_nil_or_concat with rfl | ⟨A2, p, rfl⟩
    · left
      have h0 : c.left = 0 := by
        have h1 := hcf.headZero
        simp only [List.nil_append, List.head?_cons] at h1
        injection h1
      rw [h0]
      exact hcf.headPrev
    · right
      have hplast : (A2.concat p).getLast? = some p := by
        rw [List.concat_eq_append, List.getLast?_append_of_ne_nil _ (by simp)]
        rfl
      have hedge : chainEdge symList p c.left := hlinkAl p hplast c.left rfl
      refine ⟨p, A2, hedge.2.2, ?_⟩
      simp
  refine ⟨?_, ?_, hsymb_l, hsymb_r, hprev_l, ?_⟩
  · constructor
    · cases A with
      | nil =>
        have h1 := hcf.headZero
        simp only [List.nil_append, List.head?_cons] at h1 ⊢
        exact h1
      | cons a A2 =>
        have h1 := hcf.headZero
        simp only [List.cons_append, List.head?_cons] at h1 ⊢
        exact h1
    · rw [List.chain'_append]
      refine ⟨?_, ?_, ?_⟩
      · refine chain_imp_mem_tail A ?_ hchA
        intro a ha b hb ⟨h1, h2, h3⟩
        have hal : a < c.left := hpwAX a ha c.left (by simp)
        have hbl2 : b < c.left := hpwAX b (List.mem_of_mem_tail hb) c.left (by simp)
        refine ⟨h1, ?_, ?_⟩
        · rw [hgo3 a (by omega) (by omega) (fun h0 => by have := (hnf h0).2.2.2.1; omega)]
          exact h2
        · rw [hgo3 b (by omega) (by omega) (fun h0 => by have := (hnf h0).2.2.2.1; omega)]
          exact h3
      · rw [List.chain'_cons']
        constructor
        · intro y hy
          cases B with
          | nil => cases hy
          | cons y2 B2 =>
            have hyy : y2 = y := by injection hy
            subst hyy
            rcases hnext_r with ⟨_, hB⟩ | ⟨y3, B3, hB, hny, hry, hylen⟩
            · cases hB
            · have hyy3 : y2 = y3 := by injection hB
              subst hyy3
              refine ⟨by omega, ?_, ?_⟩
              · rw [hgl3]
                exact hny
              · have h0 : 0 ≤ (symList.getD c.right default).next := by
                  rw [hny]
                  omega
                have htn : (symList.getD c.right default).next.toNat = y2 := by
                  rw [hny, Int.toNat_natCast]
                rw [← htn, hgn3 h0]
        · refine chain_imp_mem_tail B ?_ hchB
          intro a ha b hb ⟨h1, h2, h3⟩
          have hra : c.right < a := hpwr a ha
          have hrb : c.right < b := hpwr b (List.mem_of_mem_tail hb)
          refine ⟨h1, ?_, ?_⟩
          · rw [hnextB a ha]
            exact h2
          · have hbney : 0 ≤ (symList.getD c.right default).next →
                (symList.getD c.right default).next.toNat ≠ b := by
              intro h0 hc
              obtain ⟨_, _, _, _, y, B2, hB, hyeq⟩ := hnf h0
              subst hB
              rw [hyeq] at hc
              rw [List.pairwise_cons] at hpwB
              have := hpwB.1 b hb
              omega
            rw [hgo3 b (by omega) (by omega) hbney]
            exact h3
      · intro x hx y hy
        have hyl : y = c.left := by
          simp at hy
          omega
        subst hyl
        have hxA : x ∈ A := by
          cases A with
          | nil => cases hx
          | cons a A2 => exact List.mem_of_mem_getLast? hx
        have hedge : chainEdge symList x c.left := hlinkAl x hx c.left rfl
        obtain ⟨h1, h2, h3⟩ := hedge
        have hxl : x < c.left := h1
        refine ⟨h1, ?_, ?_⟩
        · rw [hgo3 x (by omega) (by omega) (fun h0 => by have := (hnf h0).2.2.2.1; omega)]
          exact h2
        · rw [hgl3]
          exact h3
    · intro i hi
      rw [hlen3]
      refine hcf.bounded i ?_
      rcases List.mem_append.1 hi with h | h
      · exact List.mem_append_left _ h
      · rcases List.mem_cons.1 h with rfl | h
        · simp
        · simp [h]
    · intro i hi
      cases hB : B with
      | nil =>
        subst hB
        rw [List.getLast?_append_of_ne_nil _ (by simp)] at hi
        have hil : i = c.left := by
          simp at hi
          omega
        subst hil
        rcases hnext_r with ⟨hneg, _⟩ | ⟨y, B2, hB2, _, _, _⟩
        · rw [hgl3]
          exact hneg
        · cases hB2
      | cons y B2 =>
        subst hB
        rw [List.getLast?_append_of_ne_nil _ (by simp)] at hi
        rw [List.getLast?_cons_cons] at hi
        have hiB : i ∈ y :: B2 := List.mem_of_mem_getLast? hi
        rw [hnextB i hiB]
        refine hcf.lastNext i ?_
        rw [List.getLast?_append_of_ne_nil _ (by simp)]
        rw [List.getLast?_cons_cons, List.getLast?_cons_cons]
        exact hi
    · by_cases h0l : c.left = 0
      · rw [← h0l, hgl3]
        show (symList.getD c.left default).prev = -1
        rw [h0l]
        exact hcf.headPrev
      · have h0r : ¬ c.right = 0 := by omega
        rw [hgo3 0 h0l h0r ?_]
        · exact hcf.headPrev
        · intro h0
          have := (hnf h0).2.2.2.1
          omega
    · have hmap : (A ++ c.left :: B).map (fun i => (sl3.getD i default).symbol) =
          A.map (fun i => (symList.getD i default).symbol) ++
            m :: B.map (fun i => (symList.getD i default).symbol) := by
        rw [List.map_append, List.map_cons]
        rw [List.map_congr_left hsymA, List.map_congr_left hsymB, hsymb_l]
      rw [hmap]
      have hold := hcf.concatN
      rw [List.map_append, List.map_cons, List.map_cons] at hold
      rw [List.flatten_append, List.flatten_cons, List.flatten_cons] at hold
      rw [heql, heqr] at hold
      rw [List.flatten_append, List.flatten_cons]
      rw [hm, ← hold]
      simp [List.append_assoc]
    · intro hN i hi
      rcases List.mem_append.1 hi with h | h
      · rw [hsymA i h]
        exact hcf.live hN i (by simp [h])
      · rcases List.mem_cons.1 h with rfl | h
        · rw [hsymb_l, hm]
          simp [hlne]
        · rw [hsymB i h]
          exact hcf.live hN i (by simp [h])
  · intro k
    by_cases hkl : c.left = k
    · subst hkl
      rw [hsymb_l, heql, hm]
      refine .inr (.inr ⟨hlne, ?_⟩)
      rw [byteLen_append]
      have := byteLen_pos rs hrne
      omega
    · by_cases hkr : c.right = k
      · subst hkr
        rw [hsymb_r]
        exact .inr (.inl rfl)
      · by_cases h0 : 0 ≤ (symList.getD c.right default).next
        · by_cases hkn : (symList.getD c.right default).next.toNat = k
          · rw [← hkn, hgn3 h0]
            exact .inl rfl
          · rw [hgo3 k hkl hkr (fun _ => hkn)]
            exact .inl rfl
        · rw [hgo3 k hkl hkr (fun hc => absurd hc h0)]
          exact .inl rfl
  · rcases hnext_r with ⟨hneg, _⟩ | ⟨y, B2, hB, hny, _, _⟩
    · exact .inl hneg
    · exact .inr ⟨y, B2, hB, hny⟩

theorem candidateIsDead_false_intro {symList : List symListElem} {c : mergeCandidate}
    (h1 : (symList.getD c.left default).symbol ≠ [])
    (h2 : (symList.getD c.right default).symbol ≠ [])
    (h3 : byteLen (symList.getD c.left default).symbol +
      byteLen (symList.getD c.right default).symbol = c.length) :
    candidateIsDead symList c = false := by
  rw [candidateIsDead]
  simp only [decide_eq_false_iff_not]
  push_neg
  exact ⟨h1, h2, h3⟩

/-- One merge-loop iteration never panics and preserves the invariant. -/
theorem encodeStep_inv (proc : Processor) (hwf : ProcWF proc) (N : List Char)
    (s : EncodeState) (hinv : StateInv proc N s) :
    ∃ s2, encodeStep proc s = some s2 ∧ StateInv proc N s2 := by
  obtain ⟨idxs, hcf, hq⟩ := hinv
  rw [encodeStep]
  cases hpop : s.queue.PopMax with
  | none => exact ⟨s, rfl, idxs, hcf, hq⟩
  | some pr =>
    obtain ⟨cand, q1⟩ := pr
    obtain ⟨hcmem, hq1sub⟩ := pq_popmax_mem _ _ _ hpop
    dsimp only
    by_cases hdead : candidateIsDead s.symList cand = true
    · rw [if_pos hdead]
      exact ⟨_, rfl, idxs, hcf, fun c hc => hq c (hq1sub c hc)⟩
    · have hdead2 : candidateIsDead s.symList cand = false := by
        cases h2 : candidateIsDead s.symList cand
        · rfl
        · exact absurd h2 hdead
      rw [if_neg hdead]
      have hcand := hq cand hcmem
      rcases hcand with hdef | ⟨ls, rs, hclen, hlk, hmax, hgl, hgr, hadj⟩
      · rw [hdef, candidateIsDead_default] at hdead2
        cases hdead2
      obtain ⟨hlne0, hrne0, hsum⟩ := candidateIsDead_eq_false hdead2
      have heql : (s.symList.getD cand.left default).symbol = ls := by
        refine grown_eq_of_le hgl hlne0 ?_
        have h1 := grown_le hgl hlne0
        have h2 := grown_le hgr hrne0
        omega
      have heqr : (s.symList.getD cand.right default).symbol = rs := by
        refine grown_eq_of_le hgr hrne0 ?_
        have h1 := grown_le hgl hlne0
        have h2 := grown_le hgr hrne0
        omega
      have hlne : ls ≠ [] := by
        rw [← heql]
        exact hlne0
      have hrne : rs ≠ [] := by
        rw [← heqr]
        exact hrne0
      obtain ⟨A, B, hAB⟩ := hadj hdead2
      obtain ⟨id, hid⟩ := Option.isSome_iff_exists.1 hlk
      have hm : (proc.pieces.getD id default).piece = ls ++ rs :=
        (hwf.piecesMapWF _ _ hid).2.1
      have hfm2 : findMerged proc (s.symList.getD cand.left default)
          (s.symList.getD cand.right default) =
          some ((proc.pieces.getD id default).piece, id) := by
        apply findMerged_of_lookup
        · rw [heql, heqr]
          exact hid
        · rw [heql, heqr]
          exact hmax
      have hcf2 : ChainFacts N s.symList (A ++ cand.left :: cand.right :: B) :=
        hAB ▸ hcf
      obtain ⟨hcf3, hstep, hml, hmr, hprevl, hnextr⟩ :=
        merge_preserves N s.symList A B cand hcf2 ls rs heql heqr hlne hrne
          ((proc.pieces.getD id default).piece) hm
      have hq2sub : ∀ y ∈ ((if s.dead * 3 > (q1.Len : Int) then
          (q1.RemoveFunc (candidateIsDead s.symList), (0 : Int))
          else (q1, s.dead)).1).items, y ∈ q1.items := by
        split
        · intro y hy
          exact pq_removefunc_mem _ _ _ hy
        · intro y hy
          exact hy
      simp only [hfm2]
      refine ⟨_, rfl, A ++ cand.left :: B, hcf3, ?_⟩
      dsimp only
      intro c2 hc2
      rcases suggest_mem hc2 with hc3 | ⟨ha4, hb4, m4, id4, hfm4, rfl⟩
      · rcases suggest_mem hc3 with hc4 | ⟨ha3, hb3, m3, id3, hfm3, rfl⟩
        · have hc5 := hq c2 (hq1sub c2 (hq2sub c2 hc4))
          rcases hc5 with hdef | ⟨ls2, rs2, hclen2, hlk2, hmax2, hgl2, hgr2, hadj2⟩
          · exact .inl hdef
          · have hG2l := grown_step hgl2 (hstep c2.left)
            have hG2r := grown_step hgr2 (hstep c2.right)
            refine .inr ⟨ls2, rs2, hclen2, hlk2, hmax2, hG2l, hG2r, ?_⟩
            intro hdead3
            obtain ⟨h3l, h3r, h3sum⟩ := candidateIsDead_eq_false hdead3
            have heq3l : ((mergeSymLists s.symList cand
                (s.symList.getD cand.left default)
                (s.symList.getD cand.right default)
                ((proc.pieces.getD id default).piece)).getD c2.left default).symbol
                = ls2 := by
              refine grown_eq_of_le hG2l h3l ?_
              have g1 := grown_le hG2l h3l
              have g2 := grown_le hG2r h3r
              omega
            have heq3r : ((mergeSymLists s.symList cand
                (s.symList.getD cand.left default)
                (s.symList.getD cand.right default)
                ((proc.pieces.getD id default).piece)).getD c2.right default).symbol
                = rs2 := by
              refine grown_eq_of_le hG2r h3r ?_
              have g1 := grown_le hG2l h3l
              have g2 := grown_le hG2r h3r
              omega
            have hls2ne : ls2 ≠ [] := by
              rw [← heq3l]
              exact h3l
            have hrs2ne : rs2 ≠ [] := by
              rw [← heq3r]
              exact h3r
            have holdl : (s.symList.getD c2.left default).symbol = ls2 := by
              rcases hstep c2.left with heq | hnil | ⟨hne5, hlt5⟩
              · rw [← heq]
                exact heq3l
              · exact absurd (heq3l ▸ hnil) hls2ne
              · have hle2 := grown_le hgl2 hne5
                rw [heq3l] at hlt5
                omega
            have holdr : (s.symList.getD c2.right default).symbol = rs2 := by
              rcases hstep c2.right with heq | hnil | ⟨hne5, hlt5⟩
              · rw [← heq]
                exact heq3r
              · exact absurd (heq3r ▸ hnil) hrs2ne
              · have hle2 := grown_le hgr2 hne5
                rw [heq3r] at hlt5
                omega
            have holddead : candidateIsDead s.symList c2 = false := by
              refine candidateIsDead_false_intro ?_ ?_ ?_
              · rw [holdl]
                exact hls2ne
              · rw [holdr]
                exact hrs2ne
              · rw [holdl, holdr]
                exact hclen2.symm
            obtain ⟨A2, B2, hAB2⟩ := hadj2 holddead
            have hbpos := byteLen_pos rs hrne
            have hne_ll : c2.left ≠ cand.left := by
              intro he
              rw [he] at holdl heq3l
              rw [heql] at holdl
              rw [hml, hm] at heq3l
              rw [← holdl] at heq3l
              have := congrArg byteLen heq3l
              rw [byteLen_append] at this
              omega
            have hne_lr : c2.left ≠ cand.right := by
              intro he
              rw [he] at heq3l
              rw [hmr] at heq3l
              exact hls2ne heq3l.symm
            have hne_rl : c2.right ≠ cand.left := by
              intro he
              rw [he] at holdr heq3r
              rw [heql] at holdr
              rw [hml, hm] at heq3r
              rw [← holdr] at heq3r
              have := congrArg byteLen heq3r
              rw [byteLen_append] at this
              omega
            have hne_rr : c2.right ≠ cand.right := by
              intro he
              rw [he] at heq3r
              rw [hmr] at heq3r
              exact hrs2ne heq3r.symm
            have heq5 : A2 ++ c2.left :: c2.right :: B2 =
                A ++ cand.left :: cand.right :: B := by
              rw [← hAB2, ← hAB]
            exact pair_in_erase A A2 B2 B c2.left c2.right cand.left cand.right
              heq5 hne_ll hne_lr hne_rl hne_rr
        · rcases hprevl with hneg | ⟨p, A2, hpeq, hadjp⟩
          · exact absurd (by rw [hneg]) ha3
          · have htp : (s.symList.getD cand.left default).prev.toNat = p := by
              rw [hpeq, Int.toNat_natCast]
            have htl : ((cand.left : Int)).toNat = cand.left := Int.toNat_natCast _
            obtain ⟨hlk3, hm3, hmax3⟩ := findMerged_some hwf hfm3
            refine .inr ⟨_, _, ?_, ?_, hmax3, grown_rfl _, grown_rfl _, fun _ => ?_⟩
            · show byteLen m3 = _
              rw [hm3, byteLen_append]
            · rw [hlk3]
              rfl
            · show ∃ A3 B3, A ++ cand.left :: B = A3 ++
                (s.symList.getD cand.left default).prev.toNat ::
                ((cand.left : Int)).toNat :: B3
              rw [htp, htl]
              exact ⟨A2, B, hadjp⟩
      · rcases hnextr with hneg | ⟨y, B2, hByB, hnyeq⟩
        · exact absurd (by rw [hneg]) hb4
        · have hty : (s.symList.getD cand.right default).next.toNat = y := by
            rw [hnyeq, Int.toNat_natCast]
          have htl : ((cand.left : Int)).toNat = cand.left := Int.toNat_natCast _
          obtain ⟨hlk4, hm4, hmax4⟩ := findMerged_some hwf hfm4
          refine .inr ⟨_, _, ?_, ?_, hmax4, grown_rfl _, grown_rfl _, fun _ => ?_⟩
          · show byteLen m4 = _
            rw [hm4, byteLen_append]
          · rw [hlk4]
            rfl
          · show ∃ A3 B3, A ++ cand.left :: B = A3 ++
              ((cand.left : Int)).toNat ::
              (s.symList.getD cand.right default).next.toNat :: B3
            rw [hty, htl, hByB]
            exact ⟨A, B2, rfl⟩

/-- The merge loop preserves the invariant and never aborts, whatever the
fuel. -/
theorem runMergeLoop_inv (proc : Processor) (hwf : ProcWF proc) (N : List Char) :
    ∀ (fuel : Nat) (s : EncodeState), StateInv proc N s →
      ∃ s2, runMergeLoop proc fuel s = some s2 ∧ StateInv proc N s2 := by
  intro fuel
  induction fuel with
  | zero =>
    intro s hs
    exact ⟨s, rfl, hs⟩
  | succ f ih =>
    intro s hs
    rw [runMergeLoop]
    by_cases hq0 : s.queue.Len = 0
    · rw [if_pos hq0]
      exact ⟨s, rfl, hs⟩
    · rw [if_neg hq0]
      obtain ⟨s2, hstep, hs2⟩ := encodeStep_inv proc hwf N s hs
      obtain ⟨s3, hrun, hs3⟩ := ih s2 hs2
      refine ⟨s3, ?_, hs3⟩
      rw [hstep]
      simpa using hrun

theorem chainFacts_len_le {N : List Char} {symList : List symListElem}
    {idxs : List Nat} (h : ChainFacts N symList idxs) :
    idxs.length ≤ symList.length := by
  have hpw : idxs.Pairwise (· < ·) :=
    List.chain'_iff_pairwise.1 (List.Chain'.imp (fun a b hh => hh.1) h.chain)
  have hnd : idxs.Nodup := hpw.imp (fun hlt => Nat.ne_of_lt hlt)
  have hsub : idxs ⊆ List.range symList.length := by
    intro i hi
    rw [List.mem_range]
    exact h.bounded i hi
  have h2 := (List.subperm_of_subset hnd hsub).length_le
  simpa using h2

/-- In any state satisfying the invariant, the materialization walk
reproduces the normalized text. -/
theorem stateInv_materialize {proc : Processor} {N : List Char} {s : EncodeState}
    (h : StateInv proc N s) :
    (materializeLoop s.symList (s.symList.length + 1) 0).flatten = N := by
  obtain ⟨idxs, hcf, _⟩ := h
  have hmat := materializeLoop_chain s.symList idxs (s.symList.length + 1) 0
    hcf.headZero hcf.chain hcf.lastNext (by have := chainFacts_len_le hcf; omega)
  rw [show ((0 : Nat) : Int) = (0 : Int) from rfl] at hmat
  rw [hmat]
  exact hcf.concatN

/-- C4: for every loaded model, every input text, and every number of
executed merge-loop iterations (`fuel` — i.e. at every point of the loop),
the loop has not corrupted the linked list: the symbols reachable from the
head via `next` links concatenate to exactly the normalized input, so
their total character length equals the normalized input's length. In
particular, when two queued candidates reference a shared node and one is
applied, the other is discarded by the staleness check (its recorded
length no longer matches) without a double merge. -/
theorem spm_merge_loop_length_invariant (mp : ModelProto) (proc : Processor)
    (hload : NewProcessor mp = .ok proc) (text : List Char) (fuel : Nat)
    (s2 : EncodeState)
    (hrun : runMergeLoop proc fuel
      (initEncodeState proc (proc.segment (spmNormalize text))) = some s2) :
    (materializeLoop s2.symList (s2.symList.length + 1) 0).flatten =
      spmNormalize text ∧
    ((materializeLoop s2.symList (s2.symList.length + 1) 0).map
      (fun sym => sym.length)).sum = (spmNormalize text).length := by
  obtain ⟨hwf, _, _, _⟩ := newProcessor_wf mp proc hload
  have hinit := initState_inv proc hwf (spmNormalize text)
  obtain ⟨s3, hrun2, hs3⟩ := runMergeLoop_inv proc hwf (spmNormalize text) fuel _ hinit
  rw [hrun] at hrun2
  have hs23 : s2 = s3 := Option.some.inj hrun2
  subst hs23
  have hflat := stateInv_materialize hs3
  refine ⟨hflat, ?_⟩
  rw [← List.length_flatten, hflat]

theorem spm_merge_loop_length_invariant_witness :
    (materializeLoop (initEncodeState unkOnlyProc
        (unkOnlyProc.segment (spmNormalize ['a']))).symList
      ((initEncodeState unkOnlyProc
        (unkOnlyProc.segment (spmNormalize ['a']))).symList.length + 1) 0).flatten =
      spmNormalize ['a'] ∧
    ((materializeLoop (initEncodeState unkOnlyProc
        (unkOnlyProc.segment (spmNormalize ['a']))).symList
      ((initEncodeState unkOnlyProc
        (unkOnlyProc.segment (spmNormalize ['a']))).symList.length + 1) 0).map
      (fun sym => sym.length)).sum = (spmNormalize ['a']).length :=
  spm_merge_loop_length_invariant unkOnlyModel unkOnlyProc rfl ['a'] 3 _ rfl

/-- C9: the `failed to merge symbols` abort branch of the SPM merge loop
is unreachable for every loaded model and every input text: a candidate
that passes the staleness check carries exactly the symbol texts it was
created from, whose concatenation is in the pieces map, so `findMerged`
succeeds; the merge loop (at any fuel) and `Encode` always return a
result. -/
theorem spm_merge_abort_unreachable (mp : ModelProto) (proc : Processor)
    (hload : NewProcessor mp = .ok proc) (text : List Char) (fuel : Nat) :
    (runMergeLoop proc fuel
      (initEncodeState proc (proc.segment (spmNormalize text)))).isSome ∧
    (proc.Encode text).isSome := by
  obtain ⟨hwf, _, _, _⟩ := newProcessor_wf mp proc hload
  have hinit := initState_inv proc hwf (spmNormalize text)
  constructor
  · obtain ⟨s2, hrun, _⟩ := runMergeLoop_inv proc hwf _ fuel _ hinit
    rw [hrun]
    rfl
  · simp only [Processor.Encode]
    split
    · rfl
    · obtain ⟨s2, hrun, _⟩ := runMergeLoop_inv proc hwf _
        (3 * (proc.segment (spmNormalize text)).length) _ hinit
      rw [hrun]
      rfl

theorem spm_merge_abort_unreachable_witness :
    (runMergeLoop unkOnlyProc 3 (initEncodeState unkOnlyProc
      (unkOnlyProc.segment (spmNormalize ['a'])))).isSome ∧
    (unkOnlyProc.Encode ['a']).isSome :=
  spm_merge_abort_unreachable unkOnlyModel unkOnlyProc rfl ['a'] 3

/-! ## C7: the priority queue contract -/

/-- Heap order over the slice: the payload lives at indices `1..`, the
children of `p` are `2p` and `2p+1`, and no child beats its parent. -/
def heapOrd {T : Type} [Inhabited T] (cmp : T → T → Int) (items : List T) : Prop :=
  ∀ p j, 1 ≤ p → (j = 2 * p ∨ j = 2 * p + 1) → j < items.length →
    cmp (items.getD j default) (items.getD p default) ≤ 0

theorem listSwap_getD_left {T : Type} [Inhabited T] (l : List T) {i j : Nat}
    (hij : i ≠ j) (hi : i < l.length) :
    (listSwap l i j).getD i default = l.getD j default := by
  rw [listSwap, getD_set_ne _ _ _ _ (fun h => hij h.symm)]
  exact getD_set_self _ _ _ hi

theorem listSwap_getD_right {T : Type} [Inhabited T] (l : List T) {i j : Nat}
    (hj : j < l.length) :
    (listSwap l i j).getD j default = l.getD i default := by
  rw [listSwap]
  exact getD_set_self _ _ _ (by simpa using hj)

theorem listSwap_getD_other {T : Type} [Inhabited T] (l : List T) {i j k : Nat}
    (hki : k ≠ i) (hkj : k ≠ j) :
    (listSwap l i j).getD k default = l.getD k default := by
  rw [listSwap, getD_set_ne _ _ _ _ (fun h => hkj h.symm),
    getD_set_ne _ _ _ _ (fun h => hki h.symm)]

theorem pqMaxChild_cases {T : Type} [Inhabited T] (cmp : T → T → Int)
    (items : List T) (i : Nat) :
    (pqMaxChild cmp items i = 2 * i + 1 ∧ 2 * i + 1 < items.length ∧
      cmp (items.getD (2 * i + 1) default) (items.getD (2 * i) default) > 0) ∨
    (pqMaxChild cmp items i = 2 * i ∧ (2 * i + 1 < items.length →
      cmp (items.getD (2 * i + 1) default) (items.getD (2 * i) default) ≤ 0)) := by
  rw [pqMaxChild]
  split
  · rename_i h
    exact .inl ⟨rfl, h.1, h.2⟩
  · rename_i h
    push_neg at h
    exact .inr ⟨rfl, fun hlt => by have := h hlt; omega⟩

/-- The max child `pqMaxChild` picks compares at least as large as either
child (given asymmetry of the comparator). -/
theorem maxChild_dominates {T : Type} [Inhabited T] (cmp : T → T → Int)
    (hasym : ∀ a b, cmp a b ≥ 0 → cmp b a ≤ 0) (items : List T) (i j : Nat)
    (hj : j = 2 * i ∨ j = 2 * i + 1) (hjlen : j < items.length) :
    j = pqMaxChild cmp items i ∨
      cmp (items.getD j default) (items.getD (pqMaxChild cmp items i) default) ≤ 0 := by
  rcases pqMaxChild_cases cmp items i with ⟨hmc, hlt, hgt⟩ | ⟨hmc, hle⟩
  · rcases hj with rfl | rfl
    · right
      rw [hmc]
      exact hasym _ _ (by omega)
    · left
      rw [hmc]
  · rcases hj with rfl | rfl
    · left
      rw [hmc]
    · right
      rw [hmc]
      exact hle hjlen

/-- `siftup` restores heap order: all edges not pointing into the hole
hold, and the hole's parent dominates the hole's children. -/
theorem pqSiftup_heapOrd {T : Type} [Inhabited T] (cmp : T → T → Int)
    (hasym : ∀ a b, cmp a b ≥ 0 → cmp b a ≤ 0)
    (hneg : ∀ a b c, cmp b a ≤ 0 → cmp c b ≤ 0 → cmp c a ≤ 0) :
    ∀ (fuel : Nat) (items : List T) (i : Nat), 1 ≤ i → i < items.length → i < fuel →
      (∀ p j, 1 ≤ p → (j = 2 * p ∨ j = 2 * p + 1) → j < items.length → j ≠ i →
        cmp (items.getD j default) (items.getD p default) ≤ 0) →
      (2 ≤ i → ∀ j, (j = 2 * i ∨ j = 2 * i + 1) → j < items.length →
        cmp (items.getD j default) (items.getD (i / 2) default) ≤ 0) →
      heapOrd cmp (pqSiftup cmp fuel items i) := by
  intro fuel
  induction fuel with
  | zero =>
    intro items i h1 hlen hfuel
    omega
  | succ f ih =>
    intro items i h1 hlen hfuel ha hb
    rw [pqSiftup]
    by_cases hi1 : i = 1
    · rw [if_pos hi1]
      intro p j hp hj hjlen
      exact ha p j hp hj hjlen (by omega)
    · rw [if_neg hi1]
      by_cases hstop : cmp (items.getD (i / 2) default) (items.getD i default) ≥ 0
      · rw [if_pos hstop]
        intro p j hp hj hjlen
        by_cases hji : j = i
        · have hpi : p = i / 2 := by omega
          subst hji
          subst hpi
          exact hasym _ _ hstop
        · exact ha p j hp hj hjlen hji
      · rw [if_neg hstop]
        have hi2 : 2 ≤ i := by omega
        have hp0len : i / 2 < items.length := by omega
        have hswI : (listSwap items i (i / 2)).getD i default =
            items.getD (i / 2) default := listSwap_getD_left items (by omega) hlen
        have hswP : (listSwap items i (i / 2)).getD (i / 2) default =
            items.getD i default := listSwap_getD_right items hp0len
        have hswO : ∀ k, k ≠ i → k ≠ i / 2 →
            (listSwap items i (i / 2)).getD k default = items.getD k default :=
          fun k hk1 hk2 => listSwap_getD_other items hk1 hk2
        refine ih (listSwap items i (i / 2)) (i / 2) (by omega)
          (by rw [listSwap_length]; omega) (by omega) ?_ ?_
        · intro p j hp hj hjlen hjne
          rw [listSwap_length] at hjlen
          by_cases hji : j = i
          · have hpi : p = i / 2 := by omega
            subst hji
            subst hpi
            rw [hswI, hswP]
            omega
          · rw [hswO j hji hjne]
            by_cases hpI : p = i
            · subst hpI
              rw [hswI]
              exact hb hi2 j hj hjlen
            · by_cases hpP : p = i / 2
              · subst hpP
                rw [hswP]
                refine hneg _ _ _ ?_ (ha _ j (by omega) hj hjlen hji)
                have := ha (i / 2) i (by omega) (by omega) hlen
                omega
              · rw [hswO p hpI hpP]
                exact ha p j hp hj hjlen hji
        · intro hq2 j hj hjlen
          rw [listSwap_length] at hjlen
          have hqq : i / 2 / 2 ≠ i := by omega
          have hqq2 : i / 2 / 2 ≠ i / 2 := by omega
          rw [hswO _ hqq hqq2]
          by_cases hji : j = i
          · rw [hji, hswI]
            exact ha (i / 2 / 2) (i / 2) (by omega) (by omega) hp0len (by omega)
          · have hjq : j ≠ i / 2 := by omega
            rw [hswO j hji hjq]
            refine hneg (items.getD (i / 2 / 2) default) (items.getD (i / 2) default)
              (items.getD j default) ?_ ?_
            · exact ha (i / 2 / 2) (i / 2) (by omega) (by omega) hp0len (by omega)
            · exact ha (i / 2) j (by omega) hj hjlen hji

/-- `k` lies in the subtree rooted at `i` (1-based heap indexing,
children `2i` and `2i+1`). -/
inductive HeapDesc : Nat → Nat → Prop where
  | refl (i : Nat) : HeapDesc i i
  | left (i : Nat) {k : Nat} : HeapDesc (2 * i) k → HeapDesc i k
  | right (i : Nat) {k : Nat} : HeapDesc (2 * i + 1) k → HeapDesc i k

theorem heapDesc_le {i k : Nat} (hd : HeapDesc i k) : 1 ≤ i → i ≤ k := by
  induction hd with
  | refl j =>
    intro _
    exact le_refl j
  | left j hk ih =>
    intro h1
    have := ih (by omega)
    omega
  | right j hk ih =>
    intro h1
    have := ih (by omega)
    omega

theorem heapDesc_trans {i j k : Nat} (h1 : HeapDesc i j) (h2 : HeapDesc j k) :
    HeapDesc i k := by
  induction h1 with
  | refl => exact h2
  | left i2 h ih => exact .left i2 (ih h2)
  | right i2 h ih => exact .right i2 (ih h2)

theorem heapDesc_parent_strict {r i : Nat} (hd : HeapDesc r i) :
    1 ≤ r → r ≠ i → HeapDesc r (i / 2) := by
  induction hd with
  | refl j =>
    intro _ hne
    exact absurd rfl hne
  | left j h ih =>
    intro h1 hne
    rename_i k2
    by_cases h2 : 2 * j = k2
    · have he : k2 / 2 = j := by omega
      rw [he]
      exact .refl j
    · exact .left j (ih (by omega) h2)
  | right j h ih =>
    intro h1 hne
    rename_i k2
    by_cases h2 : 2 * j + 1 = k2
    · have he : k2 / 2 = j := by omega
      rw [he]
      exact .refl j
    · exact .right j (ih (by omega) h2)

theorem heapDesc_root : ∀ k, 1 ≤ k → HeapDesc 1 k := by
  intro k
  induction k using Nat.strong_induction_on with
  | _ k ih =>
    intro h1
    by_cases hk1 : k = 1
    · rw [hk1]
      exact .refl 1
    · have hp := ih (k / 2) (by omega) (by omega)
      have hc : k = 2 * (k / 2) ∨ k = 2 * (k / 2) + 1 := by omega
      rcases hc with hc | hc
      · have hstep : HeapDesc (k / 2) (2 * (k / 2)) := .left (k / 2) (.refl _)
        rw [← hc] at hstep
        exact heapDesc_trans hp hstep
      · have hstep : HeapDesc (k / 2) (2 * (k / 2) + 1) := .right (k / 2) (.refl _)
        rw [← hc] at hstep
        exact heapDesc_trans hp hstep

/-- Subtree-scoped `siftdown`: if every strict-descendant edge of the
subtree rooted at `r` holds and (when the hole is not the subtree root)
the hole's parent dominates the hole's children, sifting down orders the
whole subtree and leaves everything outside it untouched. -/
theorem pqSiftdown_subtree {T : Type} [Inhabited T] (cmp : T → T → Int)
    (hasym : ∀ a b, cmp a b ≥ 0 → cmp b a ≤ 0)
    (hneg : ∀ a b c, cmp b a ≤ 0 → cmp c b ≤ 0 → cmp c a ≤ 0)
    (r : Nat) (hr : 1 ≤ r) :
    ∀ (fuel : Nat) (items : List T) (i : Nat),
      1 ≤ i → HeapDesc r i → items.length ≤ fuel + i →
      (∀ p j, 1 ≤ p → (j = 2 * p ∨ j = 2 * p + 1) → j < items.length →
        HeapDesc r p → p ≠ i →
        cmp (items.getD j default) (items.getD p default) ≤ 0) →
      (i ≠ r → ∀ j, (j = 2 * i ∨ j = 2 * i + 1) → j < items.length →
        cmp (items.getD j default) (items.getD (i / 2) default) ≤ 0) →
      (∀ p j, 1 ≤ p → (j = 2 * p ∨ j = 2 * p + 1) → j < items.length →
        HeapDesc r p →
        cmp ((pqSiftdown cmp fuel items i).getD j default)
          ((pqSiftdown cmp fuel items i).getD p default) ≤ 0) ∧
      (∀ k, ¬ HeapDesc r k →
        (pqSiftdown cmp fuel items i).getD k default = items.getD k default) := by
  intro fuel
  induction fuel with
  | zero =>
    intro items i h1 hdesc hflen ha hb
    refine ⟨?_, fun k _ => rfl⟩
    intro p j hp hj hjlen hdp
    exact ha p j hp hj hjlen hdp (by omega)
  | succ f ih =>
    intro items i h1 hdesc hflen ha hb
    rw [pqSiftdown]
    by_cases hterm : 2 * i ≥ items.length
    · rw [if_pos hterm]
      refine ⟨?_, fun k _ => rfl⟩
      intro p j hp hj hjlen hdp
      by_cases hpi : p = i
      · omega
      · exact ha p j hp hj hjlen hdp hpi
    · rw [if_neg hterm]
      have hmclen : pqMaxChild cmp items i < items.length :=
        pqMaxChild_lt cmp items i (by omega)
      have hmcge : 2 * i ≤ pqMaxChild cmp items i := pqMaxChild_ge cmp items i
      have hmcchild : pqMaxChild cmp items i = 2 * i ∨
          pqMaxChild cmp items i = 2 * i + 1 := by
        rcases pqMaxChild_cases cmp items i with ⟨hmc, _, _⟩ | ⟨hmc, _⟩
        · exact .inr hmc
        · exact .inl hmc
      have hmcgt : i < pqMaxChild cmp items i := by omega
      by_cases hstop : cmp (items.getD i default)
          (items.getD (pqMaxChild cmp items i) default) ≥ 0
      · rw [if_pos hstop]
        refine ⟨?_, fun k _ => rfl⟩
        intro p j hp hj hjlen hdp
        by_cases hpi : p = i
        · subst hpi
          rcases maxChild_dominates cmp hasym items p j hj hjlen with hjm | hjd
          · rw [hjm]
            exact hasym _ _ hstop
          · exact hneg _ _ _ (hasym _ _ hstop) hjd
        · exact ha p j hp hj hjlen hdp hpi
      · rw [if_neg hstop]
        have hlt : cmp (items.getD i default)
            (items.getD (pqMaxChild cmp items i) default) < 0 := by omega
        have hine : i ≠ pqMaxChild cmp items i := by omega
        have hswI : (listSwap items i (pqMaxChild cmp items i)).getD i default =
            items.getD (pqMaxChild cmp items i) default :=
          listSwap_getD_left items hine (by omega)
        have hswM : (listSwap items i (pqMaxChild cmp items i)).getD
            (pqMaxChild cmp items i) default = items.getD i default :=
          listSwap_getD_right items hmclen
        have hswO : ∀ k, k ≠ i → k ≠ pqMaxChild cmp items i →
            (listSwap items i (pqMaxChild cmp items i)).getD k default =
              items.getD k default :=
          fun k hk1 hk2 => listSwap_getD_other items hk1 hk2
        have hdescmc : HeapDesc r (pqMaxChild cmp items i) := by
          rcases hmcchild with hmc | hmc
          · rw [hmc]
            exact heapDesc_trans hdesc (.left i (.refl _))
          · rw [hmc]
            exact heapDesc_trans hdesc (.right i (.refl _))
        have hA2 : ∀ p j, 1 ≤ p → (j = 2 * p ∨ j = 2 * p + 1) →
            j < (listSwap items i (pqMaxChild cmp items i)).length →
            HeapDesc r p → p ≠ pqMaxChild cmp items i →
            cmp ((listSwap items i (pqMaxChild cmp items i)).getD j default)
              ((listSwap items i (pqMaxChild cmp items i)).getD p default) ≤ 0 := by
          intro p j hp hj hjlen hdp hpne
          rw [listSwap_length] at hjlen
          by_cases hji : j = i
          · have hpi2 : p = i / 2 := by
              rcases hj with h | h <;> omega
            by_cases hir : i = r
            · exfalso
              have hple := heapDesc_le hdp hr
              omega
            · have hile := heapDesc_le hdesc hr
              rw [hji, hswI, hpi2]
              have hpio : i / 2 ≠ i := by omega
              have hpim : i / 2 ≠ pqMaxChild cmp items i := by omega
              rw [hswO _ hpio hpim]
              exact hb hir _ hmcchild hmclen
          · by_cases hpI : p = i
            · rw [hpI] at hj ⊢
              by_cases hjm : j = pqMaxChild cmp items i
              · rw [hjm, hswM, hswI]
                omega
              · rw [hswO j hji hjm, hswI]
                rcases maxChild_dominates cmp hasym items i j hj hjlen with hjm2 | hjd
                · exact absurd hjm2 hjm
                · exact hjd
            · have hjm : j ≠ pqMaxChild cmp items i := by
                intro he
                rcases hmcchild with h | h <;> rcases hj with h2 | h2 <;> omega
              rw [hswO j hji hjm, hswO p hpI hpne]
              exact ha p j hp hj hjlen hdp hpI
        have hB2 : pqMaxChild cmp items i ≠ r →
            ∀ j, (j = 2 * pqMaxChild cmp items i ∨ j = 2 * pqMaxChild cmp items i + 1) →
            j < (listSwap items i (pqMaxChild cmp items i)).length →
            cmp ((listSwap items i (pqMaxChild cmp items i)).getD j default)
              ((listSwap items i (pqMaxChild cmp items i)).getD
                (pqMaxChild cmp items i / 2) default) ≤ 0 := by
          intro hmcr j hj hjlen
          rw [listSwap_length] at hjlen
          have hmc2 : pqMaxChild cmp items i / 2 = i := by
            rcases hmcchild with h | h <;> omega
          rw [hmc2, hswI]
          have hji : j ≠ i := by
            rcases hj with h | h <;> omega
          have hjm : j ≠ pqMaxChild cmp items i := by
            rcases hj with h | h <;> omega
          rw [hswO j hji hjm]
          exact ha (pqMaxChild cmp items i) j (by omega) hj hjlen hdescmc
            (fun he => hine he.symm)
        obtain ⟨ihA, ihB⟩ := ih (listSwap items i (pqMaxChild cmp items i))
          (pqMaxChild cmp items i) (by omega) hdescmc
          (by rw [listSwap_length]; omega) hA2 hB2
        refine ⟨?_, ?_⟩
        · intro p j hp hj hjlen hdp
          exact ihA p j hp hj (by rw [listSwap_length]; exact hjlen) hdp
        · intro k hk
          rw [ihB k hk]
          have hki : k ≠ i := fun he => hk (he ▸ hdesc)
          have hkm : k ≠ pqMaxChild cmp items i := fun he => hk (he ▸ hdescmc)
          exact hswO k hki hkm

theorem getD_append_left {T : Type} [Inhabited T] (l l2 : List T) (k : Nat)
    (h : k < l.length) : (l ++ l2).getD k default = l.getD k default := by
  rw [List.getD_eq_getElem _ _ (by simp; omega), List.getD_eq_getElem _ _ h]
  exact List.getElem_append_left h

theorem getD_take_eq {T : Type} [Inhabited T] (l : List T) (m k : Nat)
    (h1 : k < m) (h2 : k < l.length) :
    (l.take m).getD k default = l.getD k default := by
  rw [List.getD_eq_getElem _ _ (by simp; omega), List.getD_eq_getElem _ _ h2]
  exact List.getElem_take l

/-- `rebuildHeap`'s downward sweep: once every edge whose parent exceeds
`k` holds, sifting down positions `k, k-1, …, 1` yields full heap order. -/
theorem pqRebuildIter_heapOrd {T : Type} [Inhabited T] (cmp : T → T → Int)
    (hasym : ∀ a b, cmp a b ≥ 0 → cmp b a ≤ 0)
    (hneg : ∀ a b c, cmp b a ≤ 0 → cmp c b ≤ 0 → cmp c a ≤ 0) :
    ∀ (k : Nat) (items : List T),
      (∀ p j, 1 ≤ p → (j = 2 * p ∨ j = 2 * p + 1) → j < items.length → k < p →
        cmp (items.getD j default) (items.getD p default) ≤ 0) →
      heapOrd cmp (pqRebuildIter cmp k items) := by
  intro k
  induction k with
  | zero =>
    intro items hE p j hp hj hjlen
    exact hE p j hp hj hjlen hp
  | succ k2 ih =>
    intro items hE
    rw [pqRebuildIter]
    have hA : ∀ p j, 1 ≤ p → (j = 2 * p ∨ j = 2 * p + 1) → j < items.length →
        HeapDesc (k2 + 1) p → p ≠ k2 + 1 →
        cmp (items.getD j default) (items.getD p default) ≤ 0 := by
      intro p j hp hj hjlen hdp hpne
      have := heapDesc_le hdp (by omega)
      exact hE p j hp hj hjlen (by omega)
    obtain ⟨hsub, hout⟩ := pqSiftdown_subtree cmp hasym hneg (k2 + 1) (by omega)
      items.length items (k2 + 1) (by omega) (.refl _) (by omega) hA
      (fun h => absurd rfl h)
    refine ih (pqSiftdown cmp items.length items (k2 + 1)) ?_
    intro p j hp hj hjlen hkp
    rw [pqSiftdown_length] at hjlen
    by_cases hdp : HeapDesc (k2 + 1) p
    · exact hsub p j hp hj hjlen hdp
    · have hdj : ¬ HeapDesc (k2 + 1) j := by
        intro hdj
        have hjne : k2 + 1 ≠ j := by
          rcases hj with h | h <;> omega
        have hpar := heapDesc_parent_strict hdj (by omega) hjne
        have hpj : j / 2 = p := by
          rcases hj with h | h <;> omega
        rw [hpj] at hpar
        exact hdp hpar
      rw [hout p hdp, hout j hdj]
      have hpne : p ≠ k2 + 1 := fun he => hdp (he ▸ HeapDesc.refl _)
      exact hE p j hp hj hjlen (by omega)

/-- The queue's standing invariant: its comparator field, a nonempty slice
(slot 0 is the sentinel), and heap order. -/
def heapWF {T : Type} [Inhabited T] (cmp : T → T → Int) (q : priorityQueue T) : Prop :=
  q.cmp = cmp ∧ q.items ≠ [] ∧ heapOrd cmp q.items

theorem insert_heapWF {T : Type} [Inhabited T] {cmp : T → T → Int}
    (hasym : ∀ a b, cmp a b ≥ 0 → cmp b a ≤ 0)
    (hneg : ∀ a b c, cmp b a ≤ 0 → cmp c b ≤ 0 → cmp c a ≤ 0)
    (q : priorityQueue T) (x : T) (h : heapWF cmp q) : heapWF cmp (q.Insert x) := by
  obtain ⟨hc, hne, hord⟩ := h
  have hlen0 : 1 ≤ q.items.length := List.length_pos_of_ne_nil hne
  have hleni : (q.Insert x).items.length = q.items.length + 1 := by
    rw [priorityQueue.Insert]
    simp only
    rw [pqInsertItems, pqSiftup_length]
    simp
  refine ⟨hc, ?_, ?_⟩
  · intro hnil
    rw [hnil] at hleni
    simp at hleni
  · rw [priorityQueue.Insert]
    simp only
    rw [pqInsertItems, hc]
    refine pqSiftup_heapOrd cmp hasym hneg _ _ _ ?_ ?_ ?_ ?_ ?_
    · simp only [List.length_append, List.length_singleton]
      omega
    · simp only [List.length_append, List.length_singleton]
      omega
    · simp only [List.length_append, List.length_singleton]
      omega
    · intro p j hp hj hjlen hjne
      simp only [List.length_append, List.length_singleton] at hjlen hjne
      have hjq : j < q.items.length := by omega
      have hpq : p < q.items.length := by omega
      rw [getD_append_left _ _ _ hjq, getD_append_left _ _ _ hpq]
      exact hord p j hp hj hjq
    · intro h2 j hj hjlen
      rcases hj with h | h <;>
        simp only [List.length_append, List.length_singleton] at h hjlen h2 <;>
        omega

theorem popmax_heapWF {T : Type} [Inhabited T] {cmp : T → T → Int}
    (hasym : ∀ a b, cmp a b ≥ 0 → cmp b a ≤ 0)
    (hneg : ∀ a b c, cmp b a ≤ 0 → cmp c b ≤ 0 → cmp c a ≤ 0)
    (q : priorityQueue T) (v : T) (q2 : priorityQueue T)
    (h : heapWF cmp q) (hpop : q.PopMax = some (v, q2)) : heapWF cmp q2 := by
  obtain ⟨hc, hne, hord⟩ := h
  rw [priorityQueue.PopMax] at hpop
  split at hpop
  · cases hpop
  · rename_i hlen2
    push_neg at hlen2
    have hq2 : q2.items = pqPopItems q.cmp q.items := by
      cases hpop
      rfl
    have hq2c : q2.cmp = q.cmp := by
      cases hpop
      rfl
    have hlen3 : (pqPopItems q.cmp q.items).length = q.items.length - 1 := by
      rw [pqPopItems, pqSiftdown_length]
      simp
    refine ⟨by rw [hq2c, hc], ?_, ?_⟩
    · intro hnil
      rw [hq2] at hnil
      rw [hnil] at hlen3
      simp at hlen3
      omega
    · rw [hq2, hc, pqPopItems]
      have hlen4 : ((q.items.set 1 (q.items.getD (q.items.length - 1) default)).take
          (q.items.length - 1)).length = q.items.length - 1 := by
        simp
      have hA : ∀ p j, 1 ≤ p → (j = 2 * p ∨ j = 2 * p + 1) →
          j < ((q.items.set 1 (q.items.getD (q.items.length - 1) default)).take
            (q.items.length - 1)).length →
          HeapDesc 1 p → p ≠ 1 →
          cmp (((q.items.set 1 (q.items.getD (q.items.length - 1) default)).take
            (q.items.length - 1)).getD j default)
            (((q.items.set 1 (q.items.getD (q.items.length - 1) default)).take
            (q.items.length - 1)).getD p default) ≤ 0 := by
        intro p j hp hj hjlen hdp hpne
        rw [hlen4] at hjlen
        have hget : ∀ k, k ≠ 1 → k < q.items.length - 1 →
            ((q.items.set 1 (q.items.getD (q.items.length - 1) default)).take
              (q.items.length - 1)).getD k default = q.items.getD k default := by
          intro k hk1 hklen
          rw [getD_take_eq _ _ _ hklen (by simp; omega),
            getD_set_ne _ _ _ _ (fun he => hk1 he.symm)]
        rw [hget j (by omega) hjlen, hget p hpne (by omega)]
        exact hord p j hp hj (by omega)
      obtain ⟨hsub, _⟩ := pqSiftdown_subtree cmp hasym hneg 1 (le_refl 1)
        ((q.items.set 1 (q.items.getD (q.items.length - 1) default)).take
          (q.items.length - 1)).length
        ((q.items.set 1 (q.items.getD (q.items.length - 1) default)).take
          (q.items.length - 1)) 1 (le_refl 1) (.refl 1) (by omega) hA
        (fun h => absurd rfl h)
      intro p j hp hj hjlen
      rw [pqSiftdown_length] at hjlen
      exact hsub p j hp hj hjlen (heapDesc_root p hp)

theorem removefunc_heapWF {T : Type} [Inhabited T] {cmp : T → T → Int}
    (hasym : ∀ a b, cmp a b ≥ 0 → cmp b a ≤ 0)
    (hneg : ∀ a b c, cmp b a ≤ 0 → cmp c b ≤ 0 → cmp c a ≤ 0)
    (q : priorityQueue T) (rm : T → Bool) (h : heapWF cmp q) :
    heapWF cmp (q.RemoveFunc rm) := by
  obtain ⟨hc, hne, hord⟩ := h
  rw [priorityQueue.RemoveFunc]
  split
  · exact ⟨hc, hne, hord⟩
  · have hlen1 : (q.items.take 1).length = 1 := by
      rw [List.length_take]
      have := List.length_pos_of_ne_nil hne
      omega
    have hlen2 : ∀ (l : List T), (pqRebuildHeap q.cmp l).length = l.length := by
      intro l
      rw [pqRebuildHeap, pqRebuildIter_length]
    refine ⟨hc, ?_, ?_⟩
    · simp only
      intro hnil
      have h2 := hlen2 (q.items.take 1 ++ (q.items.drop 1).filter (fun v => ¬ rm v))
      rw [hnil] at h2
      simp only [List.length_nil, List.length_append] at h2
      rw [hlen1] at h2
      omega
    · simp only
      rw [hc, pqRebuildHeap]
      refine pqRebuildIter_heapOrd cmp hasym hneg _ _ ?_
      intro p j hp hj hjlen hkp
      exfalso
      rcases hj with h | h <;> omega

inductive PQOp (T : Type) where
  | ins : T → PQOp T
  | pop : PQOp T
  | rem : (T → Bool) → PQOp T

/-- Run a sequence of queue operations (a failing `PopMax` on an empty
queue leaves the queue unchanged). -/
def runOps {T : Type} [Inhabited T] (q : priorityQueue T) :
    List (PQOp T) → priorityQueue T
  | [] => q
  | .ins x :: rest => runOps (q.Insert x) rest
  | .pop :: rest =>
    runOps (match q.PopMax with
      | none => q
      | some pr => pr.2) rest
  | .rem f :: rest => runOps (q.RemoveFunc f) rest

theorem runOps_heapWF {T : Type} [Inhabited T] {cmp : T → T → Int}
    (hasym : ∀ a b, cmp a b ≥ 0 → cmp b a ≤ 0)
    (hneg : ∀ a b c, cmp b a ≤ 0 → cmp c b ≤ 0 → cmp c a ≤ 0) :
    ∀ (ops : List (PQOp T)) (q : priorityQueue T), heapWF cmp q →
      heapWF cmp (runOps q ops) := by
  intro ops
  induction ops with
  | nil =>
    intro q h
    exact h
  | cons op rest ih =>
    intro q h
    cases op with
    | ins x =>
      rw [runOps]
      exact ih _ (insert_heapWF hasym hneg q x h)
    | pop =>
      rw [runOps]
      refine ih _ ?_
      cases hpop : q.PopMax with
      | none => exact h
      | some pr =>
        obtain ⟨v, q2⟩ := pr
        exact popmax_heapWF hasym hneg q v q2 h hpop
    | rem f =>
      rw [runOps]
      exact ih _ (removefunc_heapWF hasym hneg q f h)

theorem newPQ_heapWF {T : Type} [Inhabited T] (cmp : T → T → Int) (n : Nat) :
    heapWF cmp (newPriorityQueue n cmp) := by
  refine ⟨rfl, by simp [newPriorityQueue], ?_⟩
  intro p j hp hj hjlen
  simp [newPriorityQueue] at hjlen
  omega

/-- In a heap-ordered slice, the root dominates the whole payload. -/
theorem heapOrd_root_max {T : Type} [Inhabited T] (cmp : T → T → Int)
    (hrefl : ∀ a, cmp a a ≤ 0)
    (hneg : ∀ a b c, cmp b a ≤ 0 → cmp c b ≤ 0 → cmp c a ≤ 0)
    (items : List T) (h : heapOrd cmp items) :
    ∀ k, 1 ≤ k → k < items.length →
      cmp (items.getD k default) (items.getD 1 default) ≤ 0 := by
  intro k
  induction k using Nat.strong_induction_on with
  | _ k ih =>
    intro h1 hlen
    by_cases hk1 : k = 1
    · rw [hk1]
      exact hrefl _
    · have hedge := h (k / 2) k (by omega) (by omega) hlen
      have hih := ih (k / 2) (by omega) (by omega) (by omega)
      exact hneg _ _ _ hih hedge

/-- A comparator with a preference cycle on `0, 1, 2` (rock-paper-
scissors): each of the three beats the next. -/
def cyclicCmp (a b : Nat) : Int :=
  if a = b then 0
  else if (a = 0 ∧ b = 1) ∨ (a = 1 ∧ b = 2) ∨ (a = 2 ∧ b = 0) then 1
  else -1

/-- C7 counterexample: the claim quantifies over every comparator, but for
a cyclic comparator `PopMax` returns `1` while the queue still holds `0`,
which compares strictly greater than `1`. -/
theorem pq_popmax_cyclic_counterexample :
    ((((newPriorityQueue 4 cyclicCmp).Insert 0).Insert 2).Insert 1).PopMax.map
      Prod.fst = some 1 ∧
    0 ∈ ((((newPriorityQueue 4 cyclicCmp).Insert 0).Insert 2).Insert 1).items.drop 1 ∧
    cyclicCmp 0 1 > 0 := by
  refine ⟨rfl, by decide, by decide⟩

/-- C7 (amended): for a comparator that never prefers an element to
itself (`cmp a a ≤ 0`), is asymmetric (`cmp a b ≥ 0 → cmp b a ≤ 0`) and
negatively transitive (`cmp b a ≤ 0 → cmp c b ≤ 0 → cmp c a ≤ 0`) — as a
strict-order comparator such as the SPM merge comparator is — after any
sequence of `Insert`/`PopMax`/`RemoveFunc` operations, a successful
`PopMax` returns an element of the currently held payload (the slice past
the slot-0 sentinel) that every currently held element compares `≤ 0`
against. For an arbitrary comparator the contract fails (see the cyclic
counterexample). -/
theorem pq_popmax_maximal {T : Type} [Inhabited T] (cmp : T → T → Int)
    (hrefl : ∀ a, cmp a a ≤ 0)
    (hasym : ∀ a b, cmp a b ≥ 0 → cmp b a ≤ 0)
    (hneg : ∀ a b c, cmp b a ≤ 0 → cmp c b ≤ 0 → cmp c a ≤ 0)
    (n : Nat) (ops : List (PQOp T)) (v : T) (q2 : priorityQueue T)
    (hpop : (runOps (newPriorityQueue n cmp) ops).PopMax = some (v, q2)) :
    v ∈ (runOps (newPriorityQueue n cmp) ops).items.drop 1 ∧
    ∀ y ∈ (runOps (newPriorityQueue n cmp) ops).items.drop 1, cmp y v ≤ 0 := by
  obtain ⟨hc, hne, hord⟩ := runOps_heapWF hasym hneg ops _ (newPQ_heapWF cmp n)
  rw [priorityQueue.PopMax] at hpop
  split at hpop
  · cases hpop
  · rename_i hlen
    push_neg at hlen
    have hv : v = (runOps (newPriorityQueue n cmp) ops).items.getD 1 default := by
      cases hpop
      rfl
    constructor
    · rw [hv]
      have h1 : (runOps (newPriorityQueue n cmp) ops).items.getD 1 default =
          ((runOps (newPriorityQueue n cmp) ops).items.drop 1).getD 0 default := by
        rw [List.getD_eq_getElem _ _ (by omega),
          List.getD_eq_getElem _ _ (by simp; omega)]
        rw [List.getElem_drop]
      rw [h1]
      exact getD_mem_of_lt (by simp; omega)
    · intro y hy
      obtain ⟨k, hk, hyk⟩ := List.mem_iff_getElem.1 hy
      rw [← hyk, hv]
      have hk2 : 1 + k < (runOps (newPriorityQueue n cmp) ops).items.length := by
        simp only [List.length_drop] at hk
        omega
      have h2 : ((runOps (newPriorityQueue n cmp) ops).items.drop 1).getD k default =
          (runOps (newPriorityQueue n cmp) ops).items.getD (1 + k) default := by
        rw [List.getD_eq_getElem _ _ hk, List.getD_eq_getElem _ _ hk2]
        exact List.getElem_drop _
      rw [List.getD_eq_getElem _ _ hk] at h2
      rw [h2]
      exact heapOrd_root_max cmp hrefl hneg _ hord (1 + k) (by omega) hk2

/-- A total strict-order comparator on naturals. -/
def natDiffCmp (a b : Nat) : Int := (a : Int) - (b : Int)

theorem pq_popmax_maximal_witness :
    (5 : Nat) ∈ (runOps (newPriorityQueue 4 natDiffCmp)
      [.ins 3, .ins 5, .ins 4]).items.drop 1 ∧
    ∀ y ∈ (runOps (newPriorityQueue 4 natDiffCmp)
      [.ins 3, .ins 5, .ins 4]).items.drop 1, natDiffCmp y 5 ≤ 0 :=
  pq_popmax_maximal natDiffCmp
    (fun a => by simp only [natDiffCmp]; omega)
    (fun a b h => by simp only [natDiffCmp] at h ⊢; omega)
    (fun a b c h1 h2 => by simp only [natDiffCmp] at h1 h2 ⊢; omega)
    4 [.ins 3, .ins 5, .ins 4] 5 _ rfl

/-! ## C1: the byte-fallback round trip -/

theorem char_valid_ranges (c : Char) :
    c.toNat < 55296 ∨ (57344 ≤ c.toNat ∧ c.toNat < 1114112) := by
  rcases c.valid with h | ⟨h1, h2⟩
  · left
    exact_mod_cast h
  · right
    exact ⟨by exact_mod_cast h1, by exact_mod_cast h2⟩

theorem utf8EncodeChar_lt (c : Char) : ∀ b ∈ utf8EncodeChar c, b < 256 := by
  have hval := char_valid_ranges c
  intro b hb
  simp only [utf8EncodeChar] at hb
  split_ifs at hb with h1 h2 h3 <;> simp at hb <;> omega

theorem strBytes_lt (s : List Char) : ∀ b ∈ strBytes s, b < 256 := by
  intro b hb
  rw [strBytes] at hb
  obtain ⟨c, _, hbc⟩ := List.mem_flatMap.1 hb
  exact utf8EncodeChar_lt c b hbc

/-- Decoding the UTF-8 bytes of one character (with anything appended)
recovers the character and its byte length. -/
theorem utf8DecodeRune_encode (c : Char) (tail : List Nat) :
    utf8DecodeRune (utf8EncodeChar c ++ tail) = (c, (utf8EncodeChar c).length) := by
  have hval := char_valid_ranges c
  by_cases h1 : c.toNat < 128
  · have henc : utf8EncodeChar c = [c.toNat] := by
      simp only [utf8EncodeChar]
      rw [if_pos h1]
    rw [henc]
    simp only [List.cons_append, List.nil_append, List.length_singleton]
    rw [utf8DecodeRune.eq_def]
    dsimp only
    rw [if_pos h1, Char.ofNat_toNat]
  · by_cases h2 : c.toNat < 2048
    · have henc : utf8EncodeChar c = [192 + c.toNat / 64, 128 + c.toNat % 64] := by
        simp only [utf8EncodeChar]
        rw [if_neg h1, if_pos h2]
      rw [henc]
      simp only [List.cons_append, List.nil_append, List.length_cons,
        List.length_singleton]
      rw [utf8DecodeRune.eq_def]
      dsimp only
      rw [if_neg (by omega), if_pos (by omega)]
      rw [if_pos (by omega)]
      have harith : (192 + c.toNat / 64 - 192) * 64 + (128 + c.toNat % 64 - 128) =
          c.toNat := by omega
      rw [harith, Char.ofNat_toNat]
      rfl
    · by_cases h3 : c.toNat < 65536
      · have henc : utf8EncodeChar c =
            [224 + c.toNat / 4096, 128 + c.toNat / 64 % 64, 128 + c.toNat % 64] := by
          simp only [utf8EncodeChar]
          rw [if_neg h1, if_neg h2, if_pos h3]
        rw [henc]
        simp only [List.cons_append, List.nil_append, List.length_cons,
          List.length_singleton]
        rw [utf8DecodeRune.eq_def]
        dsimp only
        rw [if_neg (by omega), if_neg (by omega), if_pos (by omega)]
        by_cases h4 : c.toNat < 4096
        · rw [show 224 + c.toNat / 4096 = 224 from by omega] at *
          rw [if_pos ⟨by rw [if_pos rfl]; omega, by omega, by omega⟩]
          have harith : (224 - 224) * 4096 + (128 + c.toNat / 64 % 64 - 128) * 64 +
              (128 + c.toNat % 64 - 128) = c.toNat := by omega
          rw [harith, Char.ofNat_toNat]
          rfl
        · by_cases h5 : 224 + c.toNat / 4096 = 237
          · have hn : 53248 ≤ c.toNat ∧ c.toNat < 57344 := by omega
            have hsur : c.toNat < 55296 := by omega
            rw [if_pos ⟨by rw [if_neg (by omega), if_pos h5]; omega, by omega, by omega⟩]
            have harith : (224 + c.toNat / 4096 - 224) * 4096 +
                (128 + c.toNat / 64 % 64 - 128) * 64 +
                (128 + c.toNat % 64 - 128) = c.toNat := by omega
            rw [harith, Char.ofNat_toNat]
            rfl
          · rw [if_pos ⟨by rw [if_neg (by omega), if_neg h5]; omega, by omega, by omega⟩]
            have harith : (224 + c.toNat / 4096 - 224) * 4096 +
                (128 + c.toNat / 64 % 64 - 128) * 64 +
                (128 + c.toNat % 64 - 128) = c.toNat := by omega
            rw [harith, Char.ofNat_toNat]
            rfl
      · have h6 : c.toNat < 1114112 := by omega
        have henc : utf8EncodeChar c =
            [240 + c.toNat / 262144, 128 + c.toNat / 4096 % 64,
              128 + c.toNat / 64 % 64, 128 + c.toNat % 64] := by
          simp only [utf8EncodeChar]
          rw [if_neg h1, if_neg h2, if_neg h3]
        rw [henc]
        simp only [List.cons_append, List.nil_append, List.length_cons,
          List.length_singleton]
        rw [utf8DecodeRune.eq_def]
        dsimp only
        rw [if_neg (by omega), if_neg (by omega), if_neg (by omega),
          if_pos (by omega)]
        by_cases h4 : c.toNat < 262144
        · rw [show 240 + c.toNat / 262144 = 240 from by omega] at *
          rw [if_pos ⟨by rw [if_pos rfl]; omega, by omega, by omega, by omega⟩]
          have harith : (240 - 240) * 262144 + (128 + c.toNat / 4096 % 64 - 128) * 4096 +
              (128 + c.toNat / 64 % 64 - 128) * 64 + (128 + c.toNat % 64 - 128) =
              c.toNat := by omega
          rw [harith, Char.ofNat_toNat]
          rfl
        · by_cases h5 : 240 + c.toNat / 262144 = 244
          · rw [if_pos ⟨by rw [if_neg (by omega), if_pos h5]; omega,
              by omega, by omega, by omega⟩]
            have harith : (240 + c.toNat / 262144 - 240) * 262144 +
                (128 + c.toNat / 4096 % 64 - 128) * 4096 +
                (128 + c.toNat / 64 % 64 - 128) * 64 + (128 + c.toNat % 64 - 128) =
                c.toNat := by omega
            rw [harith, Char.ofNat_toNat]
            rfl
          · rw [if_pos ⟨by rw [if_neg (by omega), if_neg h5]; omega,
              by omega, by omega, by omega⟩]
            have harith : (240 + c.toNat / 262144 - 240) * 262144 +
                (128 + c.toNat / 4096 % 64 - 128) * 4096 +
                (128 + c.toNat / 64 % 64 - 128) * 64 + (128 + c.toNat % 64 - 128) =
                c.toNat := by omega
            rw [harith, Char.ofNat_toNat]
            rfl

/-- Decoding the UTF-8 bytes of a string recovers the string. -/
theorem utf8DecodeBytes_strBytes : ∀ (s : List Char) (fuel : Nat),
    (strBytes s).length ≤ fuel → utf8DecodeBytes fuel (strBytes s) = s := by
  intro s
  induction s with
  | nil =>
    intro fuel h
    cases fuel <;> rfl
  | cons c s2 ih =>
    intro fuel h
    have hcons : strBytes (c :: s2) = utf8EncodeChar c ++ strBytes s2 :=
      List.flatMap_cons c s2 utf8EncodeChar
    have hne := utf8EncodeChar_ne_nil c
    obtain ⟨b0, bs, hb⟩ : ∃ b0 bs, utf8EncodeChar c = b0 :: bs := by
      cases hh : utf8EncodeChar c with
      | nil => exact absurd hh hne
      | cons x xs => exact ⟨x, xs, rfl⟩
    rw [hcons] at h ⊢
    have hlen1 : 1 ≤ (utf8EncodeChar c).length := by
      rw [hb]
      simp
    cases fuel with
    | zero =>
      simp only [List.length_append] at h
      omega
    | succ f =>
      rw [hb, List.cons_append, utf8DecodeBytes, ← List.cons_append, ← hb]
      rw [utf8DecodeRune_encode c (strBytes s2)]
      have hdrop : (utf8EncodeChar c ++ strBytes s2).drop (utf8EncodeChar c).length =
          strBytes s2 := List.drop_left _ _
      rw [hdrop]
      rw [ih f (by simp only [List.length_append] at h; omega)]
      simp

/-! ## C1 amended: classification of merge-loop symbols -/

/-- Classification of a merge-loop symbol text: a single rune (or empty),
or a pieces-map surface. -/
def symClassAt (proc : Processor) (s : List Char) : Prop :=
  s.length ≤ 1 ∨ (alookup proc.piecesMap s).isSome

/-- Every slot of the symbol list (in range or not) is classified. -/
def SymClassInv (proc : Processor) (sl : List symListElem) : Prop :=
  ∀ j : Nat, symClassAt proc ((sl.getD j default).symbol)

theorem symClassAt_nil (proc : Processor) : symClassAt proc [] :=
  .inl (by decide)

theorem getD_set_cases {T : Type} [Inhabited T] (l : List T) (i j : Nat) (v : T) :
    (l.set i v).getD j default = v ∨ (l.set i v).getD j default = l.getD j default := by
  by_cases hij : i = j
  · subst hij
    by_cases hi : i < l.length
    · exact .inl (getD_set_self _ _ _ hi)
    · right
      rw [List.set_eq_of_length_le (by omega)]
  · exact .inr (getD_set_ne _ _ _ _ hij)

theorem symClassInv_set {proc : Processor} {sl : List symListElem}
    (h : SymClassInv proc sl) {v : symListElem} (hv : symClassAt proc v.symbol)
    (i : Nat) : SymClassInv proc (sl.set i v) := by
  intro j
  rcases getD_set_cases sl i j v with he | he <;> rw [he]
  · exact hv
  · exact h j

theorem symbolMatch_class (proc : Processor) (hwf : ProcWF proc) (text : List Char) :
    symClassAt proc (text.take (proc.symbolMatch text).1) := by
  rw [Processor.symbolMatch.eq_def]
  split
  · rename_i hgt
    exact .inr (hwf.userDefinedWF text _ rfl hgt).2
  · cases text with
    | nil => exact .inl (by simp)
    | cons c r =>
      left
      simp [List.length_take]

theorem getD_nil_default {T : Type} [Inhabited T] (j : Nat) :
    ([] : List T).getD j default = default := by
  simp [List.getD]

theorem segmentLoop_symClass (proc : Processor) (hwf : ProcWF proc) :
    ∀ (fuel : Nat) (text : List Char) (idx j : Nat),
      symClassAt proc (((segmentLoop proc fuel text idx).getD j default).symbol) := by
  intro fuel
  induction fuel with
  | zero =>
    intro text idx j
    rw [segmentLoop, getD_nil_default]
    exact symClassAt_nil proc
  | succ f ih =>
    intro text idx j
    rw [segmentLoop]
    split
    · cases j with
      | zero =>
        rw [List.getD_cons_zero]
        exact symbolMatch_class proc hwf text
      | succ j2 =>
        rw [List.getD_cons_succ, getD_nil_default]
        exact symClassAt_nil proc
    · cases j with
      | zero =>
        rw [List.getD_cons_zero]
        exact symbolMatch_class proc hwf text
      | succ j2 =>
        rw [List.getD_cons_succ]
        exact ih _ _ j2

theorem segment_symClass (proc : Processor) (hwf : ProcWF proc) (text : List Char) :
    SymClassInv proc (proc.segment text) := by
  intro j
  rw [(segment_getD proc text j).1]
  exact segmentLoop_symClass proc hwf _ text 0 j

/-- The only symbol-list changes of one merge step: unchanged, or one
applied merge. -/
theorem encodeStep_symList_shape (proc : Processor) (s s2 : EncodeState)
    (h : encodeStep proc s = some s2) :
    s2.symList = s.symList ∨
    ∃ c m id,
      findMerged proc (s.symList.getD c.left default)
        (s.symList.getD c.right default) = some (m, id) ∧
      s2.symList = mergeSymLists s.symList c (s.symList.getD c.left default)
        (s.symList.getD c.right default) m := by
  rw [encodeStep] at h
  cases hpop : s.queue.PopMax with
  | none =>
    rw [hpop] at h
    cases h
    exact .inl rfl
  | some pr =>
    obtain ⟨cand, q1⟩ := pr
    rw [hpop] at h
    dsimp only at h
    split at h
    · cases h
      exact .inl rfl
    · cases hfm : findMerged proc (s.symList.getD cand.left default)
          (s.symList.getD cand.right default) with
      | none =>
        rw [hfm] at h
        dsimp only at h
        cases h
      | some pr2 =>
        obtain ⟨m, id⟩ := pr2
        rw [hfm] at h
        dsimp only at h
        cases h
        exact .inr ⟨cand, m, id, hfm, rfl⟩

theorem mergeSymLists_symClass {proc : Processor} {sl : List symListElem}
    (h : SymClassInv proc sl) (c : mergeCandidate) (ls rs : symListElem)
    {m : List Char} (hm : symClassAt proc m) :
    SymClassInv proc (mergeSymLists sl c ls rs m) := by
  have h1 : SymClassInv proc (sl.set c.left { ls with symbol := m, next := rs.next }) := by
    refine symClassInv_set h ?_ _
    exact hm
  simp only [mergeSymLists]
  refine symClassInv_set ?_ ?_ _
  · split
    · refine symClassInv_set h1 ?_ _
      exact h1 rs.next.toNat
    · exact h1
  · exact symClassAt_nil proc

theorem encodeStep_symClass (proc : Processor) (hwf : ProcWF proc)
    (s s2 : EncodeState) (h : encodeStep proc s = some s2)
    (hs : SymClassInv proc s.symList) : SymClassInv proc s2.symList := by
  rcases encodeStep_symList_shape proc s s2 h with he | ⟨c, m, id, hfm, he⟩
  · rw [he]
    exact hs
  · rw [he]
    obtain ⟨hlk, hmeq, _⟩ := findMerged_some hwf hfm
    refine mergeSymLists_symClass hs c _ _ ?_
    right
    rw [hmeq, hlk]
    rfl

theorem runMergeLoop_symClass (proc : Processor) (hwf : ProcWF proc) :
    ∀ (fuel : Nat) (s s2 : EncodeState), runMergeLoop proc fuel s = some s2 →
      SymClassInv proc s.symList → SymClassInv proc s2.symList := by
  intro fuel
  induction fuel with
  | zero =>
    intro s s2 h hs
    cases h
    exact hs
  | succ f ih =>
    intro s s2 h hs
    rw [runMergeLoop] at h
    split at h
    · cases h
      exact hs
    · cases hstep : encodeStep proc s with
      | none =>
        rw [hstep, Option.none_bind] at h
        cases h
      | some s1 =>
        rw [hstep, Option.some_bind] at h
        exact ih s1 s2 h (encodeStep_symClass proc hwf s s1 hstep hs)

/-! ## C1 amended: the decode side -/

theorem alookup_some_mem {α β : Type} [DecidableEq α] {m : List (α × β)} {k : α}
    {v : β} (h : alookup m k = some v) : (k, v) ∈ m := by
  rw [alookup] at h
  cases hf : m.find? (fun p => p.1 = k) with
  | none =>
    rw [hf] at h
    cases h
  | some pr =>
    rw [hf, Option.map_some'] at h
    injection h with h3
    have h2 := List.find?_some hf
    simp only [decide_eq_true_eq] at h2
    obtain ⟨a, b⟩ := pr
    simp only at h2 h3
    rw [show (k, v) = (a, b) from by rw [← h2, ← h3]]
    exact List.mem_of_find?_eq_some hf

theorem symbolToID_piece {proc : Processor}
    (hres : ∀ k id, alookup proc.reserved k = some id →
      2 ≤ k.length ∧ alookup proc.piecesMap k = none)
    {s : List Char} {id : Nat} (hpm : alookup proc.piecesMap s = some id) :
    proc.symbolToID s = id := by
  rw [Processor.symbolToID]
  cases hr : alookup proc.reserved s with
  | some rid =>
    have h2 := (hres s rid hr).2
    rw [h2] at hpm
    cases hpm
  | none =>
    rw [hpm]

theorem symbolToID_fallback {proc : Processor}
    (hres : ∀ k id, alookup proc.reserved k = some id →
      2 ≤ k.length ∧ alookup proc.piecesMap k = none)
    {s : List Char} (hpm : alookup proc.piecesMap s = none) (hle : s.length ≤ 1) :
    proc.symbolToID s = proc.unknownID := by
  rw [Processor.symbolToID]
  cases hr : alookup proc.reserved s with
  | some rid =>
    have h2 := (hres s rid hr).1
    omega
  | none =>
    rw [hpm]

theorem piece_id_ne_unknown {proc : Processor} (hwf : ProcWF proc)
    {s : List Char} {id : Nat} (hpm : alookup proc.piecesMap s = some id) :
    id ≠ proc.unknownID := by
  intro he
  have h1 := (hwf.piecesMapWF s id hpm).2.2.2
  have h2 := hwf.unknownWF.2
  rw [he] at h1
  rcases h1 with h | h | h <;> exact absurd (h2.symm.trans h) (by decide)

theorem piece_id_not_byte {proc : Processor} (hwf : ProcWF proc)
    {s : List Char} {id : Nat} (hpm : alookup proc.piecesMap s = some id) :
    proc.isByteID id = false := by
  rw [Processor.isByteID]
  apply decide_eq_false
  intro hb
  have h1 := (hwf.piecesMapWF s id hpm).2.2.2
  rcases h1 with h | h | h <;> exact absurd (h.symm.trans hb) (by decide)

theorem piece_id_not_control {proc : Processor} (hwf : ProcWF proc)
    {s : List Char} {id : Nat} (hpm : alookup proc.piecesMap s = some id) :
    proc.isControlID id = false := by
  rw [Processor.isControlID]
  apply decide_eq_false
  intro hb
  have h1 := (hwf.piecesMapWF s id hpm).2.2.2
  rcases h1 with h | h | h <;> exact absurd (h.symm.trans hb) (by decide)

theorem byte_token_facts {proc : Processor} (hwf : ProcWF proc)
    (hbfp : proc.byteFallback = true) (b : Nat) (hb : b < 256) :
    ∃ t, alookup proc.byte2Token b = some t ∧ proc.isByteID t.id = true ∧
      alookup proc.idToByte t.id = some b := by
  have h1 := hwf.byteTotal hbfp b hb
  obtain ⟨t, ht⟩ := Option.isSome_iff_exists.1 h1
  have h2 := hwf.byteTokenWF b t ht
  refine ⟨t, ht, ?_, h2.2.2.1⟩
  rw [Processor.isByteID]
  exact decide_eq_true h2.2.1

theorem takeWhile_all {α : Type} (p : α → Bool) :
    ∀ l : List α, (∀ x ∈ l, p x = true) → l.takeWhile p = l := by
  intro l
  induction l with
  | nil =>
    intro _
    rfl
  | cons a t ih =>
    intro h
    rw [List.takeWhile_cons, if_pos (h a (by simp)), ih (fun x hx => h x (by simp [hx]))]

theorem takeWhile_append_all {α : Type} (p : α → Bool) :
    ∀ (l1 l2 : List α), (∀ x ∈ l1, p x = true) →
      (l1 ++ l2).takeWhile p = l1 ++ l2.takeWhile p := by
  intro l1
  induction l1 with
  | nil =>
    intro l2 _
    rfl
  | cons a t ih =>
    intro l2 h
    rw [List.cons_append, List.takeWhile_cons, if_pos (h a (by simp)),
      ih l2 (fun x hx => h x (by simp [hx])), List.cons_append]

theorem byteIds_mapback {proc : Processor} (hwf : ProcWF proc)
    (hbfp : proc.byteFallback = true) :
    ∀ bytes : List Nat, (∀ b ∈ bytes, b < 256) →
      (bytes.map (fun b => ((alookup proc.byte2Token b).getD default).id)).map
        (fun id => (alookup proc.idToByte id).getD 0) = bytes := by
  intro bytes
  induction bytes with
  | nil =>
    intro _
    rfl
  | cons b t ih =>
    intro h
    obtain ⟨tk, htk, _, hmap⟩ := byte_token_facts hwf hbfp b (h b (by simp))
    simp only [List.map_cons]
    rw [htk]
    simp only [Option.getD_some]
    rw [hmap]
    simp only [Option.getD_some]
    rw [ih (fun x hx => h x (by simp [hx]))]

theorem byteIds_are_byte {proc : Processor} (hwf : ProcWF proc)
    (hbfp : proc.byteFallback = true) (bytes : List Nat) (h : ∀ b ∈ bytes, b < 256) :
    ∀ x ∈ bytes.map (fun b => ((alookup proc.byte2Token b).getD default).id),
      proc.isByteID x = true := by
  intro x hx
  obtain ⟨b, hb, rfl⟩ := List.mem_map.1 hx
  obtain ⟨tk, htk, hbyte, _⟩ := byte_token_facts hwf hbfp b (h b hb)
  rw [htk, Option.getD_some]
  exact hbyte

theorem replaceSep_no_sep {s : List Char} (h : whitespaceSep ∉ s) :
    replaceSeparatorsBySpace s = s := by
  rw [replaceSeparatorsBySpace]
  have h2 : ∀ c ∈ s, (if c = whitespaceSep then ' ' else c) = c := by
    intro c hc
    by_cases he : c = whitespaceSep
    · exact absurd (he ▸ hc) h
    · rw [if_neg he]
  rw [List.map_congr_left h2, List.map_id']

theorem replaceSep_normalize (text : List Char) (hsep : whitespaceSep ∉ text) :
    replaceSeparatorsBySpace (spmNormalize text) = text := by
  rw [spmNormalize, replaceSeparatorsBySpace, List.map_map]
  have h2 : ∀ c ∈ text,
      ((fun c => if c = whitespaceSep then ' ' else c) ∘
        (fun c => if c = ' ' then whitespaceSep else c)) c = c := by
    intro c hc
    by_cases hc2 : c = ' '
    · subst hc2
      simp [whitespaceSep]
    · have hc3 : ¬ c = whitespaceSep := fun he => hsep (he ▸ hc)
      simp only [Function.comp_apply, if_neg hc2, if_neg hc3]
  rw [List.map_congr_left h2, List.map_id']

theorem flatten_map_replaceSep (L : List (List Char)) :
    (L.map replaceSeparatorsBySpace).flatten = replaceSeparatorsBySpace L.flatten := by
  induction L with
  | nil => rfl
  | cons a t ih =>
    simp only [List.map_cons, List.flatten_cons, ih]
    rw [replaceSeparatorsBySpace, replaceSeparatorsBySpace, replaceSeparatorsBySpace,
      List.map_append]

theorem symbolsToTokens_cons_piece {proc : Processor} (hwf : ProcWF proc)
    (hres : ∀ k id, alookup proc.reserved k = some id →
      2 ≤ k.length ∧ alookup proc.piecesMap k = none)
    {s : List Char} {id : Nat} (hpm : alookup proc.piecesMap s = some id)
    (rest : List (List Char)) :
    proc.symbolsToTokens (s :: rest) = ⟨id, s⟩ :: proc.symbolsToTokens rest := by
  have hsid := symbolToID_piece hres hpm
  have hnunk := piece_id_ne_unknown hwf hpm
  rw [Processor.symbolsToTokens, List.flatMap_cons]
  rw [if_neg (fun hand => hnunk (hsid.symm.trans hand.1)), hsid]
  rfl

theorem symbolsToTokens_cons_fallback {proc : Processor}
    (hbfp : proc.byteFallback = true)
    (hres : ∀ k id, alookup proc.reserved k = some id →
      2 ≤ k.length ∧ alookup proc.piecesMap k = none)
    {s : List Char} (hpm : alookup proc.piecesMap s = none) (hle : s.length ≤ 1)
    (rest : List (List Char)) :
    proc.symbolsToTokens (s :: rest) =
      (strBytes s).map (fun b => (alookup proc.byte2Token b).getD default) ++
        proc.symbolsToTokens rest := by
  have hsid := symbolToID_fallback hres hpm hle
  rw [Processor.symbolsToTokens, List.flatMap_cons]
  rw [if_pos ⟨hsid, hbfp⟩]
  rfl

theorem symbolsToTokens_count (proc : Processor) (hwf : ProcWF proc)
    (hbfp : proc.byteFallback = true)
    (hres : ∀ k id, alookup proc.reserved k = some id →
      2 ≤ k.length ∧ alookup proc.piecesMap k = none) :
    ∀ syms : List (List Char), (∀ s ∈ syms, symClassAt proc s) →
      syms.countP (fun s => (alookup proc.piecesMap s).isSome) ≤
        (proc.symbolsToTokens syms).length := by
  intro syms
  induction syms with
  | nil =>
    intro _
    simp [Processor.symbolsToTokens]
  | cons s rest ih =>
    intro h
    have ih2 := ih (fun x hx => h x (by simp [hx]))
    cases hpm : alookup proc.piecesMap s with
    | some id =>
      have hc1 : (s :: rest).countP (fun x => (alookup proc.piecesMap x).isSome) =
          rest.countP (fun x => (alookup proc.piecesMap x).isSome) + 1 := by
        rw [List.countP_cons]
        simp [hpm]
      rw [symbolsToTokens_cons_piece hwf hres hpm rest, hc1, List.length_cons]
      omega
    | none =>
      have hle : s.length ≤ 1 := by
        rcases h s (by simp) with hx | hx
        · exact hx
        · rw [hpm] at hx
          simp at hx
      have hc1 : (s :: rest).countP (fun x => (alookup proc.piecesMap x).isSome) =
          rest.countP (fun x => (alookup proc.piecesMap x).isSome) := by
        rw [List.countP_cons]
        simp [hpm]
      rw [symbolsToTokens_cons_fallback hbfp hres hpm hle rest, hc1, List.length_append]
      omega

/-- Decoding the ID stream of classified symbols, with a pending byte run
already absorbed into `acc`, reproduces the symbols: dictionary pieces get
their sentinels restored to spaces, byte-fallback runs come back verbatim. -/
theorem decodeLoop_syms (proc : Processor) (hwf : ProcWF proc)
    (hbfp : proc.byteFallback = true)
    (hres : ∀ k id, alookup proc.reserved k = some id →
      2 ≤ k.length ∧ alookup proc.piecesMap k = none) :
    ∀ (syms : List (List Char)) (acc : List Char) (fuel : Nat), 0 < fuel →
      syms.countP (fun s => (alookup proc.piecesMap s).isSome) < fuel →
      (∀ s ∈ syms, symClassAt proc s) →
      (∀ s ∈ syms, alookup proc.piecesMap s = none → whitespaceSep ∉ s) →
      decodeLoop proc fuel
        ((strBytes acc).map (fun b => ((alookup proc.byte2Token b).getD default).id) ++
          (proc.symbolsToTokens syms).map SpmToken.id) =
        acc ++ (syms.map replaceSeparatorsBySpace).flatten := by
  intro syms
  induction syms with
  | nil =>
    intro acc fuel hf0 hfc hclass hsf
    cases fuel with
    | zero => omega
    | succ f =>
      have hbytes := strBytes_lt acc
      have hallbyte := byteIds_are_byte hwf hbfp (strBytes acc) hbytes
      have hmapback := byteIds_mapback hwf hbfp (strBytes acc) hbytes
      rw [show proc.symbolsToTokens [] = [] from rfl]
      simp only [List.map_nil, List.append_nil]
      simp only [decodeLoop]
      rw [takeWhile_all _ _ hallbyte, List.drop_length]
      dsimp only
      rw [hmapback, utf8DecodeBytes_strBytes acc _ le_rfl]
      simp
  | cons s rest ih =>
    intro acc fuel hf0 hfc hclass hsf
    have hclass2 : ∀ x ∈ rest, symClassAt proc x := fun x hx => hclass x (by simp [hx])
    have hsf2 : ∀ x ∈ rest, alookup proc.piecesMap x = none → whitespaceSep ∉ x :=
      fun x hx => hsf x (by simp [hx])
    have hbytes := strBytes_lt acc
    have hallbyte := byteIds_are_byte hwf hbfp (strBytes acc) hbytes
    have hmapback := byteIds_mapback hwf hbfp (strBytes acc) hbytes
    cases hpm : alookup proc.piecesMap s with
    | some id =>
      have hnunk := piece_id_ne_unknown hwf hpm
      have hbyteF := piece_id_not_byte hwf hpm
      have hctrlF := piece_id_not_control hwf hpm
      have hpiece := (hwf.piecesMapWF s id hpm).2.1
      cases fuel with
      | zero => omega
      | succ f =>
        have hcount : rest.countP (fun x => (alookup proc.piecesMap x).isSome) < f := by
          have hc1 : (s :: rest).countP (fun x => (alookup proc.piecesMap x).isSome) =
              rest.countP (fun x => (alookup proc.piecesMap x).isSome) + 1 := by
            rw [List.countP_cons]
            simp [hpm]
          rw [hc1] at hfc
          omega
        rw [symbolsToTokens_cons_piece hwf hres hpm rest]
        simp only [List.map_cons]
        simp only [decodeLoop]
        rw [takeWhile_append_all _ _ _ hallbyte, List.takeWhile_cons,
          if_neg (by simp [hbyteF]), List.append_nil, List.drop_left]
        dsimp only
        rw [if_neg (by simp [hctrlF]), if_neg hnunk]
        rw [hmapback, utf8DecodeBytes_strBytes acc _ le_rfl, hpiece]
        have hih := ih [] f (by omega) hcount hclass2 hsf2
        rw [show (strBytes ([] : List Char)).map
            (fun b => ((alookup proc.byte2Token b).getD default).id) ++
            (proc.symbolsToTokens rest).map SpmToken.id =
            (proc.symbolsToTokens rest).map SpmToken.id from rfl,
          List.nil_append] at hih
        rw [hih]
        simp only [List.map_cons, List.flatten_cons, List.append_assoc]
    | none =>
      have hle : s.length ≤ 1 := by
        rcases hclass s (by simp) with hx | hx
        · exact hx
        · rw [hpm] at hx
          simp at hx
      have hnosep := hsf s (by simp) hpm
      have hcomp : ((strBytes s).map
          (fun b => (alookup proc.byte2Token b).getD default)).map SpmToken.id =
          (strBytes s).map (fun b => ((alookup proc.byte2Token b).getD default).id) := by
        rw [List.map_map]
        rfl
      have hcount : rest.countP (fun x => (alookup proc.piecesMap x).isSome) < fuel := by
        have hc1 : (s :: rest).countP (fun x => (alookup proc.piecesMap x).isSome) =
            rest.countP (fun x => (alookup proc.piecesMap x).isSome) := by
          rw [List.countP_cons]
          simp [hpm]
        rw [hc1] at hfc
        exact hfc
      rw [symbolsToTokens_cons_fallback hbfp hres hpm hle rest, List.map_append, hcomp,
        ← List.append_assoc, ← List.map_append, ← strBytes_append]
      rw [ih (acc ++ s) fuel hf0 hcount hclass2 hsf2]
      rw [List.map_cons, List.flatten_cons, replaceSep_no_sep hnosep, List.append_assoc]

/-- C1 corrected: for a model loaded with byte-fallback enabled, the round
trip `Decode (ids of Encode text) = text` holds for every UTF-8 input —
including text with no dictionary coverage at all — provided the byte path
is invertible: the text contains no literal sentinel character `▁`, every
reserved (UNKNOWN/CONTROL/BYTE) piece surface is at least two characters
long and is not also a dictionary surface, and, if the text contains a
space, the sentinel itself is a dictionary piece. (Without these side
conditions the claim is false: `spm_roundtrip_counterexample` shows
`Decode (Encode " ")` returning the raw sentinel for a pure-byte model.) -/
theorem spm_byte_fallback_roundtrip (mp : ModelProto) (proc : Processor)
    (hload : NewProcessor mp = .ok proc) (hbf : mp.byteFallback = true)
    (hres : ∀ k id, alookup proc.reserved k = some id →
      2 ≤ k.length ∧ alookup proc.piecesMap k = none)
    (text : List Char) (hsep : whitespaceSep ∉ text)
    (hsp : ' ' ∈ text → (alookup proc.piecesMap [whitespaceSep]).isSome)
    (tokens : List SpmToken) (henc : proc.Encode text = some tokens) :
    proc.DecodeTokens tokens = text := by
  obtain ⟨hwf, hpieces, hbfeq, hunk⟩ := newProcessor_wf mp proc hload
  have hbfp : proc.byteFallback = true := by rw [hbfeq, hbf]
  simp only [Processor.Encode] at henc
  have hlen0 : ¬ (proc.segment (spmNormalize text)).length = 0 := by
    rw [segment_length]
    have hne := (segmentLoop_spec proc ((spmNormalize text).length + 1)
      (spmNormalize text) 0 (by omega)).1
    have := List.length_pos_of_ne_nil hne
    omega
  rw [if_neg hlen0] at henc
  obtain ⟨sfin, hrun, htok⟩ := Option.map_eq_some'.1 henc
  have hinit := initState_inv proc hwf (spmNormalize text)
  obtain ⟨s3, hrun2, hs3⟩ := runMergeLoop_inv proc hwf (spmNormalize text)
    (3 * (proc.segment (spmNormalize text)).length) _ hinit
  rw [hrun] at hrun2
  have hfin : sfin = s3 := Option.some.inj hrun2
  subst hfin
  obtain ⟨idxs, hcf, hqq⟩ := hs3
  have hmat := materializeLoop_chain sfin.symList idxs (sfin.symList.length + 1) 0
    hcf.headZero hcf.chain hcf.lastNext (by have := chainFacts_len_le hcf; omega)
  rw [show ((0 : Nat) : Int) = (0 : Int) from rfl] at hmat
  have hscfin : SymClassInv proc sfin.symList := by
    refine runMergeLoop_symClass proc hwf _ _ _ hrun ?_
    dsimp only [initEncodeState]
    exact segment_symClass proc hwf (spmNormalize text)
  have hclass : ∀ x ∈ materializeLoop sfin.symList (sfin.symList.length + 1) 0,
      symClassAt proc x := by
    intro x hx
    rw [hmat] at hx
    obtain ⟨j, hj, rfl⟩ := List.mem_map.1 hx
    exact hscfin j
  have hflat : (materializeLoop sfin.symList (sfin.symList.length + 1) 0).flatten =
      spmNormalize text := by
    rw [hmat]
    exact hcf.concatN
  have hsf : ∀ x ∈ materializeLoop sfin.symList (sfin.symList.length + 1) 0,
      alookup proc.piecesMap x = none → whitespaceSep ∉ x := by
    intro x hx hnone hmem
    have h1 : whitespaceSep ∈ spmNormalize text := by
      rw [← hflat]
      exact List.mem_flatten.2 ⟨x, hx, hmem⟩
    rw [spmNormalize] at h1
    obtain ⟨c, hc, hceq⟩ := List.mem_map.1 h1
    by_cases hcsp : c = ' '
    · have hsp2 := hsp (hcsp ▸ hc)
      rcases hclass x hx with hle | hsome
      · have hx1 : x = [whitespaceSep] := by
          cases x with
          | nil => cases hmem
          | cons a t =>
            cases t with
            | nil =>
              rw [List.mem_singleton] at hmem
              rw [← hmem]
            | cons b u => simp at hle
        rw [hx1] at hnone
        rw [hnone] at hsp2
        simp at hsp2
      · rw [hnone] at hsome
        simp at hsome
    · rw [if_neg hcsp] at hceq
      rw [hceq] at hc
      exact hsep hc
  have hcnt := symbolsToTokens_count proc hwf hbfp hres _ hclass
  rw [htok] at hcnt
  rw [Processor.DecodeTokens, Processor.Decode]
  have hdl := decodeLoop_syms proc hwf hbfp hres
    (materializeLoop sfin.symList (sfin.symList.length + 1) 0) []
    ((tokens.map SpmToken.id).length + 1) (by omega)
    (by rw [List.length_map]; omega) hclass hsf
  rw [htok] at hdl
  refine hdl.trans ?_
  rw [List.nil_append, flatten_map_replaceSep, hflat, replaceSep_normalize text hsep]

theorem spm_byte_fallback_roundtrip_witness :
    pureByteProc.DecodeTokens ((pureByteProc.Encode ['h', 'i']).getD []) = ['h', 'i'] := by
  have hall : ∀ p ∈ pureByteProc.reserved, 2 ≤ p.1.length ∧
      alookup pureByteProc.piecesMap p.1 = none := by decide
  refine spm_byte_fallback_roundtrip pureByteModel pureByteProc rfl rfl ?_ ['h', 'i']
    (by decide) (fun hsp => absurd hsp (by decide)) _ rfl
  intro k id h
  exact hall (k, id) (alookup_some_mem h)
